import Mathlib

/-!
Rodinia BFS (OpenMP): level-synchronised breadth-first search

Shallow embedding of `openmp/bfs/bfs.cpp` (function `BFSGraph`) and of the
random graph builders (`openmp/bfs/graphgen.cpp`, function
`generate_random_graph`, and `data/bfs/inputGen/graphgen.cpp`), with their
properties proved over the embedding.

Modelling conventions.
* The `int` values of the traversal are `Int`. On a well-formed graph the
  traversal only computes `h_cost[tid] + 1`, `starting + no_of_edges` and
  increments of `i`, `tid` and `k`, all bounded by the node count or the edge
  count, so no `int` operation overflows; the counters `tid` and `k` are `Nat`.
* A C array is a `List`; every read and write goes through `readAt` /
  `writeAt`, which fail with `Fault.outOfBounds` outside the allocation.
* `#pragma omp parallel for` over `tid` is a fold of the loop body over the
  order in which the indices are processed; the sequential program is the
  order `0, 1, ..., N-1`.
* The `do ... while(stop)` loop takes a fuel argument; running out of fuel is
  the distinct fault `Fault.outOfFuel`.
* The builders draw from two generators, `rand()` and `randNode(gen)`; each
  is a stream `Nat → Nat` giving the result of the `k`-th call. Conversions
  between `unsigned long`, `unsigned int` and `int` are explicit (`toInt32`,
  `toUInt32`, `toUInt64`).
-/

namespace Rodinia

/-! ## Data model -/

/-- Structure to hold a node information (`struct Node`). -/
structure Node where
  starting : Int
  no_of_edges : Int
deriving DecidableEq

/-- The ways a run of the embedding can fail to produce a result: an array
access outside its allocation, a loop that has not ended within the fuel (or
cannot end), a call `exit(code)`. -/
inductive Fault where
  | outOfBounds
  | outOfFuel
  | exit (code : Int)
deriving DecidableEq

/-- The graph as held in memory once the input file has been read. -/
structure Graph where
  no_of_nodes : Int
  h_graph_nodes : List Node
  edge_list_size : Int
  h_graph_edges : List Int
deriving DecidableEq

/-- One executed assignment to a cell of `h_cost`: the cell, the value stored
and the contents of `h_cost` right after the assignment. -/
structure CostWrite where
  id : Nat
  val : Int
  cost : List Int
deriving DecidableEq

/-- The mutable arrays of the traversal. `trace` is bookkeeping that the
program does not have: every assignment to `h_cost` executed so far, newest
first. It is never read by the traversal. -/
structure State where
  h_graph_mask : List Bool
  h_updating_graph_mask : List Bool
  h_graph_visited : List Bool
  h_cost : List Int
  trace : List CostWrite
deriving DecidableEq

/-- Array read `xs[i]` with a C `int` index. -/
def readAt {α : Type} (xs : List α) (i : Int) : Except Fault α :=
  if i < 0 then .error .outOfBounds
  else match xs[i.toNat]? with
    | some v => .ok v
    | none => .error .outOfBounds

/-- Array write `xs[i] = v` with a C `int` index. -/
def writeAt {α : Type} (xs : List α) (i : Int) (v : α) : Except Fault (List α) :=
  if i < 0 then .error .outOfBounds
  else if i.toNat < xs.length then .ok (xs.set i.toNat v)
  else .error .outOfBounds

/-! ## The traversal (`BFSGraph`, bfs.cpp lines 138-242) -/

/-- Node count as a loop bound: `for (tid = 0; tid < no_of_nodes; tid++)`. -/
def Graph.N (g : Graph) : Nat := g.no_of_nodes.toNat

/-- The values taken by `i` in
`for (i = starting; i < no_of_edges + starting; i++)`. -/
def edgeIndices (nd : Node) : List Int :=
  (List.range nd.no_of_edges.toNat).map (fun (j : Nat) => nd.starting + (j : Int))

/-- Body of the inner loop of the expand pass (lines 214-219). -/
def edgeBody (g : Graph) (tid : Nat) (st : State) (i : Int) : Except Fault State := do
  let id ← readAt g.h_graph_edges i
  let vis ← readAt st.h_graph_visited id
  if !vis then
    let c ← readAt st.h_cost (tid : Int)
    let cost ← writeAt st.h_cost id (c + 1)
    let upd ← writeAt st.h_updating_graph_mask id true
    pure { st with
      h_cost := cost
      h_updating_graph_mask := upd
      trace := ⟨id.toNat, c + 1, cost⟩ :: st.trace }
  else
    pure st

/-- Body of the first parallel loop for one `tid` (lines 210-221). -/
def expandBody (g : Graph) (st : State) (tid : Nat) : Except Fault State := do
  let m ← readAt st.h_graph_mask (tid : Int)
  if m then
    let mask ← writeAt st.h_graph_mask (tid : Int) false
    let nd ← readAt g.h_graph_nodes (tid : Int)
    (edgeIndices nd).foldlM (edgeBody g tid) { st with h_graph_mask := mask }
  else
    pure st

/-- First parallel loop (lines 208-222), indices processed in `order`. -/
def expandPass (g : Graph) (order : List Nat) (st : State) : Except Fault State :=
  order.foldlM (expandBody g) st

/-- Body of the second parallel loop for one `tid` (lines 233-238); the second
component is the shared flag `stop`. -/
def commitBody (acc : State × Bool) (tid : Nat) : Except Fault (State × Bool) := do
  let u ← readAt acc.1.h_updating_graph_mask (tid : Int)
  if u then
    let mask ← writeAt acc.1.h_graph_mask (tid : Int) true
    let vis ← writeAt acc.1.h_graph_visited (tid : Int) true
    let upd ← writeAt acc.1.h_updating_graph_mask (tid : Int) false
    pure ({ acc.1 with
      h_graph_mask := mask
      h_graph_visited := vis
      h_updating_graph_mask := upd }, true)
  else
    pure acc

/-- Second parallel loop (lines 231-239), started with `stop = false`
(line 198), indices processed in `order`. -/
def commitPass (order : List Nat) (st : State) : Except Fault (State × Bool) :=
  order.foldlM commitBody (st, false)

/-- A schedule gives, for each value of the counter `k`, the order in which
the indices are processed in the first and in the second parallel loop. -/
abbrev Schedule := Nat → List Nat × List Nat

/-- One iteration of the `do ... while(stop)` body (lines 198-240) at counter
value `k`: both passes, then `k++`; returns the state, the new counter and
`stop`. -/
def levelStep (g : Graph) (sched : Schedule) (st : State) (k : Nat) :
    Except Fault (State × Nat × Bool) := do
  let st1 ← expandPass g (sched k).1 st
  let (st2, stop) ← commitPass (sched k).2 st1
  pure (st2, k + 1, stop)

/-- The loop `do { ... } while(stop)` (lines 195-242); returns the final state
and the final value of `k`. -/
def levelLoop (g : Graph) (sched : Schedule) : Nat → State → Nat → Except Fault (State × Nat)
  | 0, _, _ => .error .outOfFuel
  | fuel + 1, st, k => do
    let (st2, k2, stop) ← levelStep g sched st k
    if stop then levelLoop g sched fuel st2 k2 else pure (st2, k2)

/-- Initialisation of the arrays (lines 138-146, 153-154, 176-178). A negative
node count makes the unsigned loop of line 138 write past the allocations. -/
def initState (g : Graph) (source : Int) : Except Fault State := do
  if g.no_of_nodes < 0 then throw Fault.outOfBounds
  let mask ← writeAt (List.replicate g.N false) source true
  let vis ← writeAt (List.replicate g.N false) source true
  let cost ← writeAt (List.replicate g.N (-1 : Int)) source 0
  pure {
    h_graph_mask := mask
    h_updating_graph_mask := List.replicate g.N false
    h_graph_visited := vis
    h_cost := cost
    trace := [⟨source.toNat, 0, cost⟩] }

/-- The traversal of `BFSGraph` from the loaded graph on, under a schedule. -/
def BFSGraphSched (sched : Schedule) (fuel : Nat) (g : Graph) (source : Int) :
    Except Fault (State × Nat) := do
  let st ← initState g source
  levelLoop g sched fuel st 0

/-- The schedule of the sequential program: `tid = 0, 1, ..., N-1` in both loops. -/
def seqSchedule (g : Graph) : Schedule := fun _ => (List.range g.N, List.range g.N)

/-- The traversal of `BFSGraph` with the loops run in index order. -/
def BFSGraph (fuel : Nat) (g : Graph) (source : Int) : Except Fault (State × Nat) :=
  BFSGraphSched (seqSchedule g) fuel g source

/-- The `h_cost` array of a finished run. -/
def finalCost (r : Except Fault (State × Nat)) : Except Fault (List Int) :=
  r.map (fun p => p.1.h_cost)

/-- The value of `k` of a finished run. -/
def finalK (r : Except Fault (State × Nat)) : Except Fault Nat :=
  r.map (fun p => p.2)

/-! ## Example graphs -/

/-- Path graph 0-1-2-3, both directions stored. -/
def lineGraph : Graph where
  no_of_nodes := 4
  h_graph_nodes := [⟨0, 1⟩, ⟨1, 2⟩, ⟨3, 2⟩, ⟨5, 1⟩]
  edge_list_size := 6
  h_graph_edges := [1, 0, 2, 1, 3, 2]

/-- Path graph 0-1-2-3 with the edge 0-3 added, both directions stored. -/
def cycleGraph : Graph where
  no_of_nodes := 4
  h_graph_nodes := [⟨0, 2⟩, ⟨2, 2⟩, ⟨4, 2⟩, ⟨6, 2⟩]
  edge_list_size := 8
  h_graph_edges := [1, 3, 0, 2, 1, 3, 2, 0]

/-! ## The graph builder (`graphgen.cpp`) -/

/-- Constant `MIN_NODES`. -/
def MIN_NODES : Nat := 20

/-- Constant `MAX_NODES`, that is `ULONG_MAX` (64-bit `unsigned long`). -/
def MAX_NODES : Nat := 2 ^ 64 - 1

/-- Constant `MIN_EDGES`. -/
def MIN_EDGES : Nat := 2

/-- Constant `MAX_INIT_EDGES`. -/
def MAX_INIT_EDGES : Nat := 4

/-- Constant `MIN_WEIGHT`. -/
def MIN_WEIGHT : Nat := 1

/-- Constant `MAX_WEIGHT`. -/
def MAX_WEIGHT : Nat := 10

/-- Conversion of an integer value to `int` (32 bits, two's complement). -/
def toInt32 (x : Int) : Int := (x + 2 ^ 31) % 2 ^ 32 - 2 ^ 31

/-- Conversion of an integer value to `unsigned int` (32 bits). -/
def toUInt32 (x : Int) : Nat := (x % 2 ^ 32).toNat

/-- Conversion of an integer value to `unsigned long` (64 bits). -/
def toUInt64 (x : Int) : Nat := (x % 2 ^ 64).toNat

/-- Internal graph's edge (`struct edge`). -/
structure edge where
  dest : Nat
  weight : Nat
deriving DecidableEq

/-- State of the generation loop: the adjacency lists `graph` and the numbers
of calls made so far to `rand()` and to `randNode(gen)`. -/
structure GenState where
  graph : List (List edge)
  r : Nat
  n : Nat
deriving DecidableEq

/-- The call `graph[i].push_back(e)`. -/
def pushBack (graph : List (List edge)) (i : Nat) (e : edge) :
    Except Fault (List (List edge)) :=
  match graph[i]? with
  | some l => .ok (graph.set i (l ++ [e]))
  | none => .error .outOfBounds

/-- Body of the inner generation loop (graphgen.cpp lines 78-88): one drawn
destination and weight, the edge and its mirror. `rand k` is the result of
the `k`-th call of `rand()`, `randNode k` that of the `k`-th draw
`randNode(gen)`. -/
def genEdge (rand randNode : Nat → Nat) (i : Nat) (st : GenState) (_j : Nat) :
    Except Fault GenState := do
  let nodeID := randNode st.n
  let weight := rand st.r % (MAX_WEIGHT - MIN_WEIGHT + 1) + MIN_WEIGHT
  let g1 ← pushBack st.graph i ⟨nodeID, weight⟩
  let g2 ← pushBack g1 nodeID ⟨i, weight⟩
  pure { graph := g2, r := st.r + 1, n := st.n + 1 }

/-- Body of the outer generation loop for node `i` (lines 75-89). -/
def genNode (rand randNode : Nat → Nat) (st : GenState) (i : Nat) : Except Fault GenState :=
  let numEdges := rand st.r % (MAX_INIT_EDGES - MIN_EDGES + 1) + MIN_EDGES
  (List.range numEdges).foldlM (genEdge rand randNode i) { st with r := st.r + 1 }

/-- The generation loop (lines 59-90) for `N` nodes. -/
def generate (rand randNode : Nat → Nat) (N : Nat) : Except Fault GenState :=
  (List.range N).foldlM (genNode rand randNode) { graph := List.replicate N [], r := 0, n := 0 }

/-- Body of the loop filling `h_graph_nodes` (lines 103-106); the second
component is `totalEdges`. -/
def nodeStep (acc : List Node × Nat) (l : List edge) : List Node × Nat :=
  let numEdges : Int := toInt32 l.length
  (acc.1 ++ [⟨toInt32 acc.2, numEdges⟩], toUInt64 (acc.2 + numEdges))

/-- The loop filling `h_graph_nodes` (lines 99-107). -/
def nodeTable (graph : List (List edge)) : List Node × Nat :=
  graph.foldl nodeStep ([], 0)

/-- Body of the loop filling `h_graph_edges` (line 120); the second component
is `edge_id`. -/
def writeDest (acc : List Int × Nat) (e : edge) : Except Fault (List Int × Nat) := do
  let arr ← writeAt acc.1 (acc.2 : Int) (toInt32 e.dest)
  pure (arr, acc.2 + 1)

/-- The function `generate_random_graph` of openmp/bfs/graphgen.cpp; returns
the graph arrays and the source (the accounting output `total_mem` is left
out). -/
def generate_random_graph (rand randNode : Nat → Nat) (no_of_nodes : Int) :
    Except Fault (Graph × Int) := do
  if no_of_nodes < MIN_NODES ∨ toUInt64 no_of_nodes > MAX_NODES then throw (Fault.exit 1)
  let st ← generate rand randNode no_of_nodes.toNat
  let (nodes, totalEdges) := nodeTable st.graph
  let source := toInt32 (randNode st.n)
  let edge_list_size := toInt32 totalEdges
  let (edges, _) ← st.graph.flatten.foldlM writeDest
    (List.replicate edge_list_size.toNat (0 : Int), 0)
  pure ({ no_of_nodes := no_of_nodes, h_graph_nodes := nodes,
          edge_list_size := edge_list_size, h_graph_edges := edges }, source)

/-- The numbers written to the output file by `graphgen`, in order: the node
count, one `(first edge id, edge count)` line per node, the source, the edge
count and one `(destination, weight)` line per edge record. -/
structure GraphFile where
  numNodes : Nat
  nodeLines : List (Nat × Nat)
  source : Nat
  totalEdges : Nat
  edgeLines : List (Nat × Nat)
deriving DecidableEq

/-- Body of the loop writing the node lines (graphgen.cpp of data/bfs/inputGen,
lines 124-126); the second component is `totalEdges`. -/
def lineStep (acc : List (Nat × Nat) × Nat) (l : List edge) : List (Nat × Nat) × Nat :=
  let numEdges : Nat := toUInt32 l.length
  (acc.1 ++ [(acc.2, numEdges)], toUInt64 (acc.2 + numEdges))

/-- The program `graphgen` (data/bfs/inputGen/graphgen.cpp) from line 81 on,
for a node count already parsed and accepted. A `uint` loop counter that
wraps before reaching a bound of `2^32` or more never ends the loop. -/
def graphgen (rand randNode : Nat → Nat) (numNodes : Nat) : Except Fault GraphFile := do
  let st ← generate rand randNode numNodes
  if 2 ^ 32 ≤ numNodes ∨ ∃ l, l ∈ st.graph ∧ 2 ^ 32 ≤ l.length then throw Fault.outOfFuel
  let (lines, totalEdges) := st.graph.foldl lineStep ([], 0)
  pure {
    numNodes := numNodes
    nodeLines := lines
    source := randNode st.n
    totalEdges := totalEdges
    edgeLines := st.graph.flatten.map (fun e => (e.dest, e.weight)) }

/-! ## Specification vocabulary -/

/-- The record at position `i` of the edge array belongs to node `u` and has
destination `v`. -/
def HasEdge (g : Graph) (u v : Nat) : Prop :=
  ∃ nd, g.h_graph_nodes[u]? = some nd ∧
    ∃ i : Nat, nd.starting ≤ (i : Int) ∧ (i : Int) < nd.starting + nd.no_of_edges ∧
      g.h_graph_edges[i]? = some (v : Int)

/-- There is a sequence of `n` edge records leading from `s` to `v`. -/
inductive Walk (g : Graph) (s : Nat) : Nat → Nat → Prop where
  | nil : Walk g s s 0
  | snoc {u v n : Nat} : Walk g s u n → HasEdge g u v → Walk g s v (n + 1)

/-- Node `v` is reachable from `s` along edge records. -/
def Reachable (g : Graph) (s v : Nat) : Prop := ∃ n, Walk g s v n

/-- The number of edges on a shortest path from `s` to `v` is `d`. -/
def IsDist (g : Graph) (s v d : Nat) : Prop :=
  Walk g s v d ∧ ∀ n, Walk g s v n → d ≤ n

/-- Well-formed compressed graph: at least one node, the arrays have the
declared sizes `N` and `M`, every node has `0 ≤ starting` and
`starting + no_of_edges ≤ M`, and every destination id lies in `[0, N)`. -/
def WellFormed (g : Graph) : Prop :=
  1 ≤ g.no_of_nodes ∧
  g.h_graph_nodes.length = g.N ∧
  g.h_graph_edges.length = g.edge_list_size.toNat ∧
  (∀ nd ∈ g.h_graph_nodes, 0 ≤ nd.starting ∧ nd.starting + nd.no_of_edges ≤ g.edge_list_size) ∧
  (∀ id ∈ g.h_graph_edges, 0 ≤ id ∧ id < g.no_of_nodes)

instance (g : Graph) : Decidable (WellFormed g) := by
  unfold WellFormed; infer_instance

/-- The source id is a node id. -/
def InRange (g : Graph) (source : Int) : Prop :=
  0 ≤ source ∧ source < g.no_of_nodes

instance (g : Graph) (source : Int) : Decidable (InRange g source) := by
  unfold InRange; infer_instance

/-- Every parallel loop of the run processes each index `0..N-1` once, in
some order. -/
def ValidSchedule (g : Graph) (sched : Schedule) : Prop :=
  ∀ k, ((sched k).1).Perm (List.range g.N) ∧ ((sched k).2).Perm (List.range g.N)

/-- Cost array `c2` keeps every non-sentinel entry of cost array `c1`. -/
def Frozen (c1 c2 : List Int) : Prop :=
  ∀ (v : Nat) (x : Int), c1[v]? = some x → x ≠ -1 → c2[v]? = some x

/-! ## Invariants of the level step -/

/-- Node `v` has a walk of at most `k` edge records from `s`. -/
def Within (g : Graph) (s k v : Nat) : Prop := ∃ n, n ≤ k ∧ Walk g s v n

/-- What holds of the arrays from the start of the expand pass at counter
value `k` until the commit pass, for the traversal from `s`. -/
structure Core (g : Graph) (s k : Nat) (st : State) : Prop where
  len_mask : st.h_graph_mask.length = g.N
  len_upd : st.h_updating_graph_mask.length = g.N
  len_vis : st.h_graph_visited.length = g.N
  len_cost : st.h_cost.length = g.N
  mask_sound : ∀ v : Nat, st.h_graph_mask[v]? = some true → IsDist g s v k
  upd_sound : ∀ v : Nat, st.h_updating_graph_mask[v]? = some true → IsDist g s v (k + 1)
  vis_iff : ∀ v : Nat, st.h_graph_visited[v]? = some true ↔ Within g s k v
  cost_vis : ∀ v d : Nat, d ≤ k → IsDist g s v d → st.h_cost[v]? = some (d : Int)
  cost_upd : ∀ v : Nat, st.h_updating_graph_mask[v]? = some true →
    st.h_cost[v]? = some ((k : Int) + 1)
  cost_none : ∀ v : Nat, v < g.N → ¬ Within g s k v →
    st.h_updating_graph_mask[v]? ≠ some true → st.h_cost[v]? = some (-1)
  tr_head : ∃ e rest, st.trace = e :: rest ∧ e.cost = st.h_cost
  tr_src : ∀ e, e ∈ st.trace → e.cost[s]? = some 0
  tr_frozen : ∀ e, e ∈ st.trace → Frozen e.cost st.h_cost
  tr_pair : st.trace.Pairwise (fun later earlier => Frozen earlier.cost later.cost)
  tr_val : ∀ e, e ∈ st.trace → e.cost[e.id]? = some e.val

/-- Within the inner loop: masks of the frontier and of the visited nodes are
untouched, marks of the next frontier are only added. -/
def Mono (st0 st : State) : Prop :=
  st.h_graph_mask = st0.h_graph_mask ∧ st.h_graph_visited = st0.h_graph_visited ∧
  ∀ v : Nat, st0.h_updating_graph_mask[v]? = some true →
    st.h_updating_graph_mask[v]? = some true

/-- The destination of edge record `i`, when not yet visited, is marked. -/
def EdgeDone (g : Graph) (s k : Nat) (i : Int) (st : State) : Prop :=
  ∀ v : Nat, g.h_graph_edges[i.toNat]? = some (v : Int) → ¬ Within g s k v →
    st.h_updating_graph_mask[v]? = some true

/-- Every edge of `u` towards a node not yet visited has its destination marked. -/
def Marked (g : Graph) (s k : Nat) (st : State) (u : Nat) : Prop :=
  ∀ v : Nat, HasEdge g u v → ¬ Within g s k v → st.h_updating_graph_mask[v]? = some true

/-- Progress of the expand pass: every node at distance `k` is still in the
frontier or has been expanded. -/
def Prog (g : Graph) (s k : Nat) (st : State) : Prop :=
  ∀ u : Nat, IsDist g s u k → st.h_graph_mask[u]? = some true ∨ Marked g s k st u

/-- What holds between the expand pass and the commit pass at counter value `k`. -/
structure AfterExpand (g : Graph) (s k : Nat) (st : State) : Prop where
  core : Core g s k st
  mask_clear : ∀ v : Nat, v < g.N → st.h_graph_mask[v]? = some false
  upd_complete : ∀ v : Nat, IsDist g s v (k + 1) → st.h_updating_graph_mask[v]? = some true

/-- What holds at the start of the level step at counter value `k`. -/
structure LevelInv (g : Graph) (s k : Nat) (st : State) : Prop where
  core : Core g s k st
  mask_complete : ∀ v : Nat, IsDist g s v k → st.h_graph_mask[v]? = some true
  upd_clear : ∀ v : Nat, v < g.N → st.h_updating_graph_mask[v]? = some false

/-- An order that covers exactly the node indices. -/
def Covers (g : Graph) (order : List Nat) : Prop := ∀ v : Nat, v ∈ order ↔ v < g.N

/-- Cells of node `v` before the commit pass has reached it; `st0` is the
state at the start of the pass. -/
def Pending (st0 : State) (v : Nat) (acc : State × Bool) : Prop :=
  acc.1.h_updating_graph_mask[v]? = st0.h_updating_graph_mask[v]? ∧
  acc.1.h_graph_mask[v]? = some false ∧
  acc.1.h_graph_visited[v]? = st0.h_graph_visited[v]?

/-- Cells of node `v` once the commit pass has processed it. -/
def Committed (st0 : State) (v : Nat) (acc : State × Bool) : Prop :=
  acc.1.h_updating_graph_mask[v]? = some false ∧
  acc.1.h_graph_mask[v]? = st0.h_updating_graph_mask[v]? ∧
  (acc.1.h_graph_visited[v]? = some true ↔
    (st0.h_graph_visited[v]? = some true ∨ st0.h_updating_graph_mask[v]? = some true)) ∧
  (st0.h_updating_graph_mask[v]? = some true → acc.2 = true)

/-- Invariant of the commit pass started in state `st0`. -/
structure CommitInv (g : Graph) (st0 : State) (acc : State × Bool) : Prop where
  len_mask : acc.1.h_graph_mask.length = g.N
  len_upd : acc.1.h_updating_graph_mask.length = g.N
  len_vis : acc.1.h_graph_visited.length = g.N
  cost_eq : acc.1.h_cost = st0.h_cost
  trace_eq : acc.1.trace = st0.trace
  cells : ∀ v : Nat, v < g.N → Pending st0 v acc ∨ Committed st0 v acc
  stop_sound : acc.2 = true → ∃ v : Nat, st0.h_updating_graph_mask[v]? = some true

/-- What holds of the state and of `k` when the loop has halted: `k` is one
more than the last inhabited distance level `m`. -/
def Finished (g : Graph) (s : Nat) (st : State) (k : Nat) : Prop :=
  ∃ m, k = m + 1 ∧ LevelInv g s (m + 1) st ∧
    (∀ d, d ≤ m → ∃ v, v < g.N ∧ IsDist g s v d) ∧ ¬ ∃ v, IsDist g s v (m + 1)

/-- The loop executes a `(k+1)`-th level step and `st` is the state at its
start: `k` level steps, each ending with `stop == true`, lead from the
initial state to `st`. -/
inductive AtLevel (g : Graph) (sched : Schedule) (source : Int) : Nat → State → Prop where
  | init {st : State} : initState g source = .ok st → AtLevel g sched source 0 st
  | step {k : Nat} {st st2 : State} : AtLevel g sched source k st →
      levelStep g sched st k = .ok (st2, k + 1, true) → AtLevel g sched source (k + 1) st2

/-- The result `r` is not a call of `exit`. -/
def NoExit {α : Type} (r : Except Fault α) : Prop := ∀ c, r ≠ .error (.exit c)

/-! ## Further example inputs -/

/-- Graph with a self-loop at node 0 and an edge from node 1 back to node 0. -/
def loopGraph : Graph where
  no_of_nodes := 2
  h_graph_nodes := [⟨0, 2⟩, ⟨2, 1⟩]
  edge_list_size := 3
  h_graph_edges := [0, 1, 0]

/-- Two components: nodes 0 and 1 joined by an edge, node 2 isolated. -/
def splitGraph : Graph where
  no_of_nodes := 3
  h_graph_nodes := [⟨0, 1⟩, ⟨1, 1⟩, ⟨2, 0⟩]
  edge_list_size := 2
  h_graph_edges := [1, 0]

/-- The schedule that processes the indices from `N-1` down to `0` in both loops. -/
def revSchedule (g : Graph) : Schedule :=
  fun _ => ((List.range g.N).reverse, (List.range g.N).reverse)

/-- Malformed graph: the only edge record, owned by node 1, has destination 5
while there are 2 nodes. -/
def badDestGraph : Graph where
  no_of_nodes := 2
  h_graph_nodes := [⟨0, 0⟩, ⟨0, 1⟩]
  edge_list_size := 1
  h_graph_edges := [5]

/-- Graph with node count 0. -/
def emptyGraph : Graph where
  no_of_nodes := 0
  h_graph_nodes := []
  edge_list_size := 0
  h_graph_edges := []

/-- Single node with a self-loop, stored in both directions. -/
def selfLoopGraph : Graph where
  no_of_nodes := 1
  h_graph_nodes := [⟨0, 2⟩]
  edge_list_size := 2
  h_graph_edges := [0, 0]

/-! ## Compressed form of adjacency lists -/

/-- The offset table of adjacency lists laid out one after the other from
position `t`: for each list its first position and its length. -/
def prefixTable {α : Type} (t : Nat) : List (List α) → List (Nat × Nat)
  | [] => []
  | l :: rest => (t, l.length) :: prefixTable (t + l.length) rest

/-- `table`, `M` and `recs` are the tightly packed compressed form of the
adjacency lists `adj`: the first offset is 0, each next offset is the previous
one plus the previous degree, each degree is the length of the adjacency list,
`M` is the last offset plus the last degree and the number of records, and the
records of node `i` are its adjacency list, in order, from its offset on. -/
def PackedForm {α : Type} (adj : List (List α)) (table : List (Int × Int)) (M : Int)
    (recs : List α) : Prop :=
  table.length = adj.length ∧
  0 ≤ M ∧ recs.length = M.toNat ∧
  (∃ p, table[0]? = some p ∧ p.1 = 0) ∧
  (∀ i : Nat, i + 1 < adj.length →
    ∃ p q, table[i]? = some p ∧ table[i + 1]? = some q ∧ q.1 = p.1 + p.2) ∧
  (∀ (i : Nat) (l : List α), adj[i]? = some l →
    ∃ p, table[i]? = some p ∧ p.2 = (l.length : Int) ∧
      ∀ (j : Nat) (x : α), l[j]? = some x → recs[(p.1 + (j : Int)).toNat]? = some x) ∧
  (∃ p, table[adj.length - 1]? = some p ∧ M = p.1 + p.2)

/-- Every destination stored in the adjacency lists is below `N`. -/
def DestsBelow (N : Nat) (graph : List (List edge)) : Prop :=
  ∀ l, l ∈ graph → ∀ e, e ∈ l → e.dest < N

/-! ## The generated multigraph -/

/-- The adjacency list of node `i` (the vector `graph[i]`). -/
def adjOf (graph : List (List edge)) (i : Nat) : List edge := (graph[i]?).getD []

/-- Number of edge records from node `i` to node `j` with weight `w`. -/
def edgeCount (graph : List (List edge)) (i j w : Nat) : Nat :=
  (adjOf graph i).countP (fun e => decide (e.dest = j ∧ e.weight = w))

/-- The multigraph is symmetric: as many records from `i` to `j` with weight
`w` as from `j` to `i`. -/
def Symmetric (graph : List (List edge)) : Prop :=
  ∀ i j w : Nat, edgeCount graph i j w = edgeCount graph j i w

/-! ## The interchange file and the loader of `BFSGraph` -/

/-- The numbers of the file written by `graphgen` (lines 120-132), in the
order in which they are written; they are separated by blanks and newlines. -/
def GraphFile.tokens (f : GraphFile) : List Int :=
  [(f.numNodes : Int)] ++
  f.nodeLines.flatMap (fun p => [(p.1 : Int), (p.2 : Int)]) ++
  [(f.source : Int), (f.totalEdges : Int)] ++
  f.edgeLines.flatMap (fun p => [(p.1 : Int), (p.2 : Int)])

/-- Every number of the file is at most `INT_MAX`. -/
def FitsInt32 (f : GraphFile) : Prop :=
  f.numNodes < 2 ^ 31 ∧ f.source < 2 ^ 31 ∧ f.totalEdges < 2 ^ 31 ∧
  (∀ p ∈ f.nodeLines, p.1 < 2 ^ 31 ∧ p.2 < 2 ^ 31) ∧
  (∀ p ∈ f.edgeLines, p.1 < 2 ^ 31 ∧ p.2 < 2 ^ 31)

instance (f : GraphFile) : Decidable (FitsInt32 f) := by
  unfold FitsInt32; infer_instance

/-- The call `fscanf(fp, "%d", &x)` on a file of numbers: the next number is
converted to `int` and stored; at the end of the file `x` keeps its value
`cur`. -/
def scanInt (cur : Int) (toks : List Int) : Int × List Int :=
  match toks with
  | [] => (cur, [])
  | t :: rest => (toInt32 t, rest)

/-- The loop reading the node lines (bfs.cpp lines 138-146), for the given
number of iterations; `start` and `edgeno` are the current values of the two
variables. -/
def readNodes : Nat → Int → Int → List Int → List Node × List Int
  | 0, _, _, toks => ([], toks)
  | n + 1, start, edgeno, toks =>
    let r1 := scanInt start toks
    let r2 := scanInt edgeno r1.2
    let rest := readNodes n r1.1 r2.1 r2.2
    (⟨r1.1, r2.1⟩ :: rest.1, rest.2)

/-- The loop reading the edge lines (bfs.cpp lines 161-166), for the given
number of iterations; `id` and `cost` are the current values of the two
variables. -/
def readEdges : Nat → Int → Int → List Int → List Int × List Int
  | 0, _, _, toks => ([], toks)
  | n + 1, id, cost, toks =>
    let r1 := scanInt id toks
    let r2 := scanInt cost r1.2
    let rest := readEdges n r1.1 r2.1 r2.2
    (r1.1 :: rest.1, rest.2)

/-- The part of `BFSGraph` that reads the opened file (bfs.cpp lines 113-166).
`junk` is the indeterminate initial value of the variables `start`, `edgeno`,
`id` and `cost`. A negative node count makes the unsigned loop of line 138
write past the allocations. -/
def loadGraph (junk : Int) (toks : List Int) : Except Fault (Graph × Int) :=
  let r1 := scanInt 0 toks
  if r1.1 < 0 then .error .outOfBounds
  else
    let nodes := readNodes r1.1.toNat junk junk r1.2
    let r2 := scanInt 0 nodes.2
    let r3 := scanInt 0 r2.2
    let edges := readEdges r3.1.toNat junk junk r3.2
    .ok ({ no_of_nodes := r1.1, h_graph_nodes := nodes.1,
           edge_list_size := r3.1, h_graph_edges := edges.1 }, r2.1)

/-- The function `main` of bfs.cpp, that is the call `BFSGraph(argc, argv)`:
`argv` are the command arguments, `fs` gives the numbers of the file of a
given name when it can be opened. The result is the `h_cost` array written to
the result file, or nothing when the input file could not be opened. -/
def bfsMain (fs : String → Option (List Int)) (junk : Int) (sched : Schedule) (fuel : Nat)
    (argv : List String) : Except Fault (Option (List Int)) :=
  if argv.length ≠ 3 then .error (.exit 0)
  else
    match (argv[2]?).bind fs with
    | none => .ok none
    | some toks => do
      let (g, source) ← loadGraph junk toks
      let (st, _) ← BFSGraphSched sched fuel g source
      pure (some st.h_cost)

/-- The exit status of a process: the argument of `exit`, or 0 when `main`
returns; there is none when the run is cut short by a fault. -/
def exitStatus {α : Type} (r : Except Fault α) : Option Int :=
  match r with
  | .ok _ => some 0
  | .error (.exit c) => some c
  | .error _ => none

/-- The program `graphgen` (data/bfs/inputGen/graphgen.cpp): `argv` are the
command arguments, `strtoul` stands for the library function of that name
with base 10. -/
def graphgenMain (strtoul : String → Nat) (rand randNode : Nat → Nat) (argv : List String) :
    Except Fault GraphFile :=
  if argv.length < 2 then .error (.exit 1)
  else
    match argv[1]? with
    | none => .error (.exit 1)
    | some a =>
      let numNodes := toUInt64 (strtoul a)
      if numNodes < MIN_NODES ∨ numNodes > MAX_NODES ∨ a.data.head? = some '-' then
        .error (.exit 1)
      else graphgen rand randNode numNodes

/-- The file written by `graphgen` for 20 nodes, `rand()` returning
`0, 1, 2, ...` and `randNode(gen)` returning `3, 10, 17, 4, ...`. -/
def sampleFile : GraphFile :=
  match graphgen (fun k => k) (fun k => (7 * k + 3) % 20) 20 with
  | .ok f => f
  | .error _ => ⟨0, [], 0, 0, []⟩

/-- The assignments to `h_cost` logged between the states `st0` and `st` all
store `k + 1` into cells of nodes not visited in `st0`. -/
def TraceExt (k : Nat) (st0 st : State) : Prop :=
  ∃ new, st.trace = new ++ st0.trace ∧
    ∀ e, e ∈ new → e.val = (k : Int) + 1 ∧ st0.h_graph_visited[e.id]? = some false

/-- The numbers of edges drawn for `n` successive nodes when the first of them
is drawn by the `r`-th call of `rand()`: a node that draws `d` edges makes
`1 + d` calls of `rand()` (one for `d`, one for each weight). -/
def outDegrees (rand : Nat → Nat) : Nat → Nat → List Nat
  | 0, _ => []
  | n + 1, r => (rand r % 3 + 2) :: outDegrees rand n (r + 1 + (rand r % 3 + 2))

/-- Every weight stored in the adjacency lists is between `MIN_WEIGHT` and
`MAX_WEIGHT`. -/
def WeightsInRange (graph : List (List edge)) : Prop :=
  ∀ l, l ∈ graph → ∀ e, e ∈ l → 1 ≤ e.weight ∧ e.weight ≤ 10

/-! ## Actions of the builders on storage and output -/

/-- The actions of a builder run that reach beyond its scalar local variables:
text printed, graph storage obtained or released, assignments to the output
parameters of `generate_random_graph`, and operations on the output file of
`graphgen`. Stores into cells of storage already obtained are not listed. -/
inductive Event where
  /-- Text written to the standard output (`printf`, `cout <<`). -/
  | stdout (text : String)
  /-- Text written to the standard error stream (`cerr <<`). -/
  | stderr (text : String)
  /-- The statement `graph = new node[n]`. -/
  | newArray (n : Nat)
  /-- The call `graph[i].push_back( edge() )`. -/
  | pushBack (i : Nat)
  /-- The call `malloc(size * count)`. -/
  | malloc (size : Nat) (count : Int)
  /-- An assignment to the output parameter of that name. -/
  | assign (param : String)
  /-- The statement `delete[] graph`. -/
  | deleteArray
  /-- The declaration `ofstream outf( filename )`, which opens the file. -/
  | fopen (name : String)
  /-- Numbers written to the file by `outf <<`, in order. -/
  | fwrite (nums : List Int)
  /-- The call `outf.close()`. -/
  | fclose
deriving DecidableEq

/-- The action obtains graph storage. -/
def Event.isStorage : Event → Bool
  | .newArray _ => true
  | .pushBack _ => true
  | .malloc _ _ => true
  | _ => false

/-- The action produces graph output: it assigns an output parameter or
operates on the output file. -/
def Event.isOutput : Event → Bool
  | .assign _ => true
  | .fopen _ => true
  | .fwrite _ => true
  | .fclose => true
  | _ => false

/-- A loop over `l` whose body `f` may fault and performs the actions `ev`:
the actions performed up to the end of the loop, or up to and including the
iteration that faults, and the result of the loop. -/
def loopRun {σ β : Type} (f : σ → β → Except Fault σ) (ev : σ → β → List Event) :
    List β → σ → List Event × Except Fault σ
  | [], s => ([], .ok s)
  | b :: bs, s =>
    match f s b with
    | .error e => (ev s b, .error e)
    | .ok s2 => (ev s b ++ (loopRun f ev bs s2).1, (loopRun f ev bs s2).2)

/-- The inner generation loop for node `i` (the loop run by `genNode`) with
its actions: each iteration calls `push_back` on `graph[i]` and on
`graph[nodeID]`. -/
def genNodeRun (rand randNode : Nat → Nat) (st : GenState) (i : Nat) :
    List Event × Except Fault GenState :=
  let numEdges := rand st.r % (MAX_INIT_EDGES - MIN_EDGES + 1) + MIN_EDGES
  loopRun (genEdge rand randNode i)
    (fun s _ => [Event.pushBack i, Event.pushBack (randNode s.n)])
    (List.range numEdges) { st with r := st.r + 1 }

/-- The generation loop (the loop run by `generate`) with its actions. -/
def generateRun (rand randNode : Nat → Nat) (N : Nat) : List Event × Except Fault GenState :=
  loopRun (genNode rand randNode) (fun st i => (genNodeRun rand randNode st i).1)
    (List.range N) { graph := List.replicate N [], r := 0, n := 0 }

/-- The function `generate_random_graph` of openmp/bfs/graphgen.cpp with its
actions in the order of the source: the `printf` of line 47, the guard of
lines 48-52, `new` (line 59), the generation loop, the two `malloc` calls and
the assignments to the output parameters (lines 96-115), `delete[]`
(line 124). -/
def generate_random_graph_run (rand randNode : Nat → Nat) (no_of_nodes : Int) :
    List Event × Except Fault (Graph × Int) :=
  let l0 := [Event.stdout
    ("Generating a random undirected graph with " ++ toString no_of_nodes ++ " nodes\n")]
  if no_of_nodes < MIN_NODES ∨ toUInt64 no_of_nodes > MAX_NODES then
    (l0 ++ [Event.stderr
      ("Error: Invalid node count argument from argv[3]: " ++ toString no_of_nodes ++ "\n")],
     .error (.exit 1))
  else
    let gen := generateRun rand randNode no_of_nodes.toNat
    let l1 := l0 ++ [Event.newArray no_of_nodes.toNat] ++ gen.1
    match gen.2 with
    | .error e => (l1, .error e)
    | .ok st =>
      let table := nodeTable st.graph
      let source := toInt32 (randNode st.n)
      let edge_list_size := toInt32 table.2
      let l2 := l1 ++ [Event.malloc 8 no_of_nodes, Event.assign "h_graph_nodes",
        Event.assign "total_mem", Event.assign "source", Event.assign "edge_list_size",
        Event.malloc 4 edge_list_size, Event.assign "h_graph_edges", Event.assign "total_mem"]
      match st.graph.flatten.foldlM writeDest
          (List.replicate edge_list_size.toNat (0 : Int), 0) with
      | .error e => (l2, .error e)
      | .ok r =>
        (l2 ++ [Event.deleteArray],
         .ok ({ no_of_nodes := no_of_nodes, h_graph_nodes := table.1,
                edge_list_size := edge_list_size, h_graph_edges := r.1 }, source))

/-- The program `graphgen` (data/bfs/inputGen/graphgen.cpp) with its actions
in the order of the source: the two guards with their messages (lines 67-77),
the message of line 81, `new` (line 83), the generation loop, the message of
line 118, the output file (lines 119-133) and `delete[]` (line 135). When a
`uint` loop counter never reaches its bound, the actions listed are those up
to the first number written. -/
def graphgenMainRun (strtoul : String → Nat) (rand randNode : Nat → Nat) (argv : List String) :
    List Event × Except Fault GraphFile :=
  if argv.length < 2 then
    ([Event.stderr "Error: enter a number of nodes.\n"], .error (.exit 1))
  else
    match argv[1]? with
    | none => ([Event.stderr "Error: enter a number of nodes.\n"], .error (.exit 1))
    | some a =>
      let numNodes := toUInt64 (strtoul a)
      if numNodes < MIN_NODES ∨ numNodes > MAX_NODES ∨ a.data.head? = some '-' then
        ([Event.stderr ("Error: Invalid argument: " ++ a ++ "\n")], .error (.exit 1))
      else
        let filename := "graph" ++ (argv[2]?).getD a ++ ".txt"
        let gen := generateRun rand randNode numNodes
        let l1 := [Event.stdout ("Generating graph with " ++ toString numNodes ++ " nodes...\n"),
          Event.newArray numNodes] ++ gen.1
        match gen.2 with
        | .error e => (l1, .error e)
        | .ok st =>
          let l2 := l1 ++ [Event.stdout ("Writing to file \"" ++ filename ++ "\"...\n"),
            Event.fopen filename, Event.fwrite [(numNodes : Int)]]
          if 2 ^ 32 ≤ numNodes ∨ ∃ l, l ∈ st.graph ∧ 2 ^ 32 ≤ l.length then
            (l2, .error .outOfFuel)
          else
            let table := st.graph.foldl lineStep ([], 0)
            let file : GraphFile := {
              numNodes := numNodes
              nodeLines := table.1
              source := randNode st.n
              totalEdges := table.2
              edgeLines := st.graph.flatten.map (fun e => (e.dest, e.weight)) }
            (l2 ++ [Event.fwrite file.tokens.tail, Event.fclose, Event.deleteArray], .ok file)

/-! ## Array access -/

theorem readAt_ok {α : Type} {xs : List α} {n : Nat} {v : α} (h : xs[n]? = some v) :
    readAt xs (n : Int) = .ok v := by
  simp [readAt, h]

theorem writeAt_ok {α : Type} {xs : List α} {n : Nat} (v : α) (h : n < xs.length) :
    writeAt xs (n : Int) v = .ok (xs.set n v) := by
  simp [writeAt, h]

theorem mem_edgeIndices {nd : Node} {i : Int} :
    i ∈ edgeIndices nd ↔ nd.starting ≤ i ∧ i < nd.starting + nd.no_of_edges := by
  unfold edgeIndices
  simp only [List.mem_map, List.mem_range]
  constructor
  · rintro ⟨j, hj, rfl⟩
    omega
  · rintro ⟨h1, h2⟩
    exact ⟨(i - nd.starting).toNat, by omega, by omega⟩

/-! ## Walks and distances -/

theorem walk_zero_iff {g : Graph} {s v : Nat} : Walk g s v 0 ↔ v = s := by
  constructor
  · intro h
    cases h
    rfl
  · rintro rfl
    exact Walk.nil

theorem walk_succ_iff {g : Graph} {s v n : Nat} :
    Walk g s v (n + 1) ↔ ∃ u, Walk g s u n ∧ HasEdge g u v := by
  constructor
  · intro h
    cases h with
    | snoc hw he => exact ⟨_, hw, he⟩
  · rintro ⟨u, hw, he⟩
    exact Walk.snoc hw he

theorem hasEdge_lt {g : Graph} (hwf : WellFormed g) {u v : Nat} (h : HasEdge g u v) :
    v < g.N := by
  obtain ⟨nd, _, i, _, _, hi⟩ := h
  have hmem : (v : Int) ∈ g.h_graph_edges := List.getElem?_mem hi
  have := (hwf.2.2.2.2 _ hmem).2
  unfold Graph.N
  omega

theorem hasEdge_src_lt {g : Graph} (hwf : WellFormed g) {u v : Nat} (h : HasEdge g u v) :
    u < g.N := by
  obtain ⟨nd, hnd, _⟩ := h
  have := (List.getElem?_eq_some.1 hnd).1
  rw [hwf.2.1] at this
  exact this

theorem walk_lt {g : Graph} (hwf : WellFormed g) {s : Nat} (hs : s < g.N) {v n : Nat}
    (h : Walk g s v n) : v < g.N := by
  cases h with
  | nil => exact hs
  | snoc _ he => exact hasEdge_lt hwf he

theorem isDist_lt {g : Graph} (hwf : WellFormed g) {s : Nat} (hs : s < g.N) {v d : Nat}
    (h : IsDist g s v d) : v < g.N :=
  walk_lt hwf hs h.1

theorem isDist_unique {g : Graph} {s v d1 d2 : Nat} (h1 : IsDist g s v d1)
    (h2 : IsDist g s v d2) : d1 = d2 :=
  Nat.le_antisymm (h1.2 _ h2.1) (h2.2 _ h1.1)

theorem isDist_zero {g : Graph} (s : Nat) : IsDist g s s 0 :=
  ⟨Walk.nil, fun _ _ => Nat.zero_le _⟩

theorem isDist_zero_iff {g : Graph} {s v : Nat} : IsDist g s v 0 ↔ v = s := by
  constructor
  · intro h
    exact walk_zero_iff.1 h.1
  · rintro rfl
    exact isDist_zero _

/-- Every node with a walk has a distance, no longer than the walk. -/
theorem exists_isDist_of_walk {g : Graph} {s v n : Nat} (h : Walk g s v n) :
    ∃ d, d ≤ n ∧ IsDist g s v d := by
  classical
  have hex : ∃ m, Walk g s v m := ⟨n, h⟩
  refine ⟨Nat.find hex, Nat.find_min' hex h, Nat.find_spec hex, ?_⟩
  intro m hm
  exact Nat.find_min' hex hm

theorem within_iff_isDist {g : Graph} {s k v : Nat} :
    Within g s k v ↔ ∃ d, d ≤ k ∧ IsDist g s v d := by
  constructor
  · rintro ⟨n, hn, hw⟩
    obtain ⟨d, hd, hdist⟩ := exists_isDist_of_walk hw
    exact ⟨d, le_trans hd hn, hdist⟩
  · rintro ⟨d, hd, hdist⟩
    exact ⟨d, hd, hdist.1⟩

theorem not_within_of_isDist {g : Graph} {s k v d : Nat} (h : IsDist g s v d) (hk : k < d) :
    ¬ Within g s k v := by
  rintro ⟨n, hn, hw⟩
  have := h.2 n hw
  omega

theorem within_mono {g : Graph} {s k v : Nat} (h : Within g s k v) : Within g s (k + 1) v := by
  obtain ⟨n, hn, hw⟩ := h
  exact ⟨n, by omega, hw⟩

/-- The nodes at distance `k+1` are the nodes without a walk of length at most
`k` that have an edge from a node at distance `k`. -/
theorem isDist_succ_iff {g : Graph} {s v k : Nat} :
    IsDist g s v (k + 1) ↔ ¬ Within g s k v ∧ ∃ u, IsDist g s u k ∧ HasEdge g u v := by
  constructor
  · intro h
    refine ⟨not_within_of_isDist h (Nat.lt_succ_self k), ?_⟩
    obtain ⟨u, hw, he⟩ := walk_succ_iff.1 h.1
    refine ⟨u, ⟨hw, ?_⟩, he⟩
    intro m hm
    have := h.2 (m + 1) (Walk.snoc hm he)
    omega
  · rintro ⟨hnot, u, hu, he⟩
    refine ⟨Walk.snoc hu.1 he, ?_⟩
    intro n hn
    by_contra hlt
    exact hnot ⟨n, by omega, hn⟩

theorem within_succ_iff {g : Graph} {s v k : Nat} :
    Within g s (k + 1) v ↔ Within g s k v ∨ IsDist g s v (k + 1) := by
  constructor
  · intro h
    by_cases hk : Within g s k v
    · exact Or.inl hk
    · right
      obtain ⟨n, hn, hw⟩ := h
      have hn1 : n = k + 1 := by
        by_contra hne
        exact hk ⟨n, by omega, hw⟩
      subst hn1
      refine ⟨hw, ?_⟩
      intro m hm
      by_contra hlt
      exact hk ⟨m, by omega, hm⟩
  · rintro (h | h)
    · exact within_mono h
    · exact ⟨k + 1, le_refl _, h.1⟩

theorem within_zero_iff {g : Graph} {s v : Nat} : Within g s 0 v ↔ v = s := by
  constructor
  · rintro ⟨n, hn, hw⟩
    have : n = 0 := by omega
    subst this
    exact walk_zero_iff.1 hw
  · rintro rfl
    exact ⟨0, le_refl _, Walk.nil⟩

/-- Below a non-empty distance level every level is non-empty. -/
theorem exists_isDist_below {g : Graph} {s : Nat} :
    ∀ (d : Nat) (v : Nat), IsDist g s v d → ∀ j, j ≤ d → ∃ u, IsDist g s u j := by
  intro d
  induction d with
  | zero =>
    intro v h j hj
    have : j = 0 := by omega
    subst this
    exact ⟨v, h⟩
  | succ d ih =>
    intro v h j hj
    by_cases hjd : j = d + 1
    · subst hjd
      exact ⟨v, h⟩
    · obtain ⟨_, u, hu, _⟩ := isDist_succ_iff.1 h
      exact ih u hu j (by omega)

/-- When levels `0..k` are all inhabited by nodes below `n`, `k < n`. -/
theorem level_count_lt {g : Graph} {s k n : Nat}
    (h : ∀ d, d ≤ k → ∃ v, v < n ∧ IsDist g s v d) : k < n := by
  classical
  by_contra hle
  have hle2 : n ≤ k := by omega
  choose f hf using fun (d : Fin (k + 1)) => h d.1 (by omega)
  let F : Fin (k + 1) → Fin n := fun d => ⟨f d, (hf d).1⟩
  have hinj : Function.Injective F := by
    intro a b hab
    have hab2 : f a = f b := by
      have := congrArg Fin.val hab
      exact this
    have h1 := (hf a).2
    have h2 := (hf b).2
    rw [hab2] at h1
    exact Fin.ext (isDist_unique h1 h2)
  have := Fintype.card_le_of_injective F hinj
  simp at this
  omega

/-! ## The expand pass -/

/-- Folding a fallible step over a list: an invariant `I` kept by every step,
and facts `Q i` established by step `i` and kept by every step, hold at the end. -/
theorem foldlM_inv {σ ι : Type} (f : σ → ι → Except Fault σ) (I : σ → Prop)
    (Q : ι → σ → Prop) (l : List ι)
    (hstep : ∀ s i, i ∈ l → I s →
      ∃ s2, f s i = .ok s2 ∧ I s2 ∧ Q i s2 ∧ ∀ j, Q j s → Q j s2) :
    ∀ s, I s → ∃ s2, l.foldlM f s = .ok s2 ∧ I s2 ∧ (∀ i, i ∈ l → Q i s2) ∧
      ∀ j, Q j s → Q j s2 := by
  induction l with
  | nil =>
    intro s hs
    exact ⟨s, rfl, hs, by simp, fun _ h => h⟩
  | cons a l ih =>
    intro s hs
    obtain ⟨s1, h1, hI1, hQ1, hst1⟩ := hstep s a (List.mem_cons_self _ _) hs
    obtain ⟨s2, h2, hI2, hQ2, hst2⟩ :=
      ih (fun s i hi => hstep s i (List.mem_cons_of_mem _ hi)) s1 hI1
    refine ⟨s2, ?_, hI2, ?_, fun j hj => hst2 j (hst1 j hj)⟩
    · rw [List.foldlM_cons, h1]
      exact h2
    · intro i hi
      rcases List.mem_cons.1 hi with rfl | hi
      · exact hst2 _ hQ1
      · exact hQ2 i hi

theorem frozen_refl (c : List Int) : Frozen c c := fun _ _ h _ => h

theorem frozen_trans {c1 c2 c3 : List Int} (h12 : Frozen c1 c2) (h23 : Frozen c2 c3) :
    Frozen c1 c3 := fun v x h hx => h23 v x (h12 v x h hx) hx

theorem getElem?_of_lt {α : Type} {xs : List α} {n : Nat} (h : n < xs.length) :
    ∃ x, xs[n]? = some x := ⟨xs[n], List.getElem?_eq_getElem h⟩

theorem lt_of_getElem? {α : Type} {xs : List α} {n : Nat} {x : α} (h : xs[n]? = some x) :
    n < xs.length := (List.getElem?_eq_some.1 h).1

theorem edgeBody_spec {g : Graph} (hwf : WellFormed g) {s k tid : Nat} {nd : Node}
    (htid : IsDist g s tid k) (hnd : g.h_graph_nodes[tid]? = some nd)
    {st0 st : State} (hcore : Core g s k st) (hmono : Mono st0 st) {i : Int}
    (hi : i ∈ edgeIndices nd) :
    ∃ st2, edgeBody g tid st i = .ok st2 ∧ (Core g s k st2 ∧ Mono st0 st2) ∧
      EdgeDone g s k i st2 ∧ ∀ j, EdgeDone g s k j st → EdgeDone g s k j st2 := by
  have hrange : 0 ≤ i ∧ i < g.edge_list_size := by
    have h1 := hwf.2.2.2.1 nd (List.getElem?_mem hnd)
    have h2 := mem_edgeIndices.1 hi
    omega
  have hilt : i.toNat < g.h_graph_edges.length := by
    rw [hwf.2.2.1]; omega
  obtain ⟨id, hid⟩ := getElem?_of_lt hilt
  have hidr := hwf.2.2.2.2 id (List.getElem?_mem hid)
  obtain ⟨v, rfl⟩ : ∃ v : Nat, id = (v : Int) := ⟨id.toNat, by omega⟩
  have hvN : v < g.N := by unfold Graph.N; omega
  have hedge : HasEdge g tid v := by
    refine ⟨nd, hnd, i.toNat, ?_, ?_, hid⟩
    · have := (mem_edgeIndices.1 hi).1; omega
    · have := (mem_edgeIndices.1 hi).2; omega
  have hread1 : readAt g.h_graph_edges i = .ok (v : Int) := by
    have : i = ((i.toNat : Nat) : Int) := by omega
    rw [this]; exact readAt_ok hid
  obtain ⟨b, hb⟩ := getElem?_of_lt (hcore.len_vis ▸ hvN : v < st.h_graph_visited.length)
  cases b with
  | true =>
    refine ⟨st, ?_, ⟨hcore, hmono⟩, ?_, fun _ h => h⟩
    · simp [edgeBody, hread1, readAt_ok hb, bind, Except.bind, pure, Except.pure]
    · intro w hw hnot
      have : (w : Int) = (v : Int) := by
        rw [hid] at hw; exact (Option.some.inj hw).symm
      have hwv : w = v := by omega
      subst hwv
      exact absurd ((hcore.vis_iff w).1 hb) hnot
  | false =>
    have hnw : ¬ Within g s k v := by
      intro h
      have := (hcore.vis_iff v).2 h
      rw [hb] at this
      cases this
    have hdv : IsDist g s v (k + 1) := isDist_succ_iff.2 ⟨hnw, tid, htid, hedge⟩
    have hc : st.h_cost[tid]? = some (k : Int) := hcore.cost_vis tid k (le_refl _) htid
    have hvc : v < st.h_cost.length := hcore.len_cost ▸ hvN
    have hvu : v < st.h_updating_graph_mask.length := hcore.len_upd ▸ hvN
    have hsv : s ≠ v := by
      rintro rfl
      exact hnw ⟨0, Nat.zero_le _, Walk.nil⟩
    have hfro : Frozen st.h_cost (st.h_cost.set v ((k : Int) + 1)) := by
      intro w x hw hx
      by_cases hwv : v = w
      · subst hwv
        by_cases hu : st.h_updating_graph_mask[v]? = some true
        · rw [hcore.cost_upd v hu] at hw
          rw [List.getElem?_set_self hvc]
          exact hw
        · rw [hcore.cost_none v hvN hnw hu] at hw
          exact absurd (Option.some.inj hw).symm hx
      · rw [List.getElem?_set_ne hwv]
        exact hw
    refine ⟨{ st with
        h_cost := st.h_cost.set v ((k : Int) + 1)
        h_updating_graph_mask := st.h_updating_graph_mask.set v true
        trace := ⟨v, (k : Int) + 1, st.h_cost.set v ((k : Int) + 1)⟩ :: st.trace }, ?_,
      ⟨?_, ?_⟩, ?_, ?_⟩
    · simp [edgeBody, hread1, readAt_ok hb, readAt_ok hc, writeAt_ok _ hvc, writeAt_ok _ hvu,
        bind, Except.bind, pure, Except.pure]
    · constructor
      · exact hcore.len_mask
      · simpa using hcore.len_upd
      · exact hcore.len_vis
      · simpa using hcore.len_cost
      · exact hcore.mask_sound
      · intro w hw
        by_cases hwv : v = w
        · subst hwv; exact hdv
        · simp only [List.getElem?_set_ne hwv] at hw
          exact hcore.upd_sound w hw
      · exact hcore.vis_iff
      · intro w d hd hwd
        have hwv : v ≠ w := by
          rintro rfl
          exact hnw ⟨d, hd, hwd.1⟩
        simp only [List.getElem?_set_ne hwv]
        exact hcore.cost_vis w d hd hwd
      · intro w hw
        by_cases hwv : v = w
        · subst hwv
          simp only [List.getElem?_set_self hvc]
        · simp only [List.getElem?_set_ne hwv] at hw ⊢
          exact hcore.cost_upd w hw
      · intro w hwN hwn hw
        by_cases hwv : v = w
        · subst hwv
          simp only [List.getElem?_set_self hvu] at hw
          exact absurd rfl hw
        · simp only [List.getElem?_set_ne hwv] at hw ⊢
          exact hcore.cost_none w hwN hwn hw
      · exact ⟨_, _, rfl, rfl⟩
      · intro e he
        rcases List.mem_cons.1 he with rfl | he
        · simp only [List.getElem?_set_ne (Ne.symm hsv)]
          exact hcore.cost_vis s 0 (Nat.zero_le _) (isDist_zero s)
        · exact hcore.tr_src e he
      · intro e he
        rcases List.mem_cons.1 he with rfl | he
        · exact frozen_refl _
        · exact frozen_trans (hcore.tr_frozen e he) hfro
      · refine List.Pairwise.cons ?_ hcore.tr_pair
        intro e he
        exact frozen_trans (hcore.tr_frozen e he) hfro
      · intro e he
        rcases List.mem_cons.1 he with rfl | he
        · simp only [List.getElem?_set_self hvc]
        · exact hcore.tr_val e he
    · refine ⟨hmono.1, hmono.2.1, ?_⟩
      intro w hw
      have := hmono.2.2 w hw
      by_cases hwv : v = w
      · subst hwv
        simp only [List.getElem?_set_self hvu]
      · simp only [List.getElem?_set_ne hwv]
        exact this
    · intro w hw _
      have : (w : Int) = (v : Int) := by
        rw [hid] at hw; exact (Option.some.inj hw).symm
      have hwv : w = v := by omega
      subst hwv
      simp only [List.getElem?_set_self hvu]
    · intro j hj w hw hnot
      have := hj w hw hnot
      by_cases hwv : v = w
      · subst hwv
        simp only [List.getElem?_set_self hvu]
      · simp only [List.getElem?_set_ne hwv]
        exact this

theorem expandBody_spec {g : Graph} (hwf : WellFormed g) {s k tid : Nat}
    (htid : tid < g.N) {st : State} (hcore : Core g s k st) (hprog : Prog g s k st) :
    ∃ st2, expandBody g st tid = .ok st2 ∧ (Core g s k st2 ∧ Prog g s k st2) ∧
      st2.h_graph_mask[tid]? = some false ∧
      ∀ j : Nat, st.h_graph_mask[j]? = some false → st2.h_graph_mask[j]? = some false := by
  have htm : tid < st.h_graph_mask.length := hcore.len_mask ▸ htid
  obtain ⟨m, hm⟩ := getElem?_of_lt htm
  cases m with
  | false =>
    refine ⟨st, ?_, ⟨hcore, hprog⟩, hm, fun _ h => h⟩
    simp [expandBody, readAt_ok hm, bind, Except.bind, pure, Except.pure]
  | true =>
    have hdist : IsDist g s tid k := hcore.mask_sound tid hm
    obtain ⟨nd, hnd⟩ := getElem?_of_lt (hwf.2.1 ▸ htid : tid < g.h_graph_nodes.length)
    have hcore1 : Core g s k { st with h_graph_mask := st.h_graph_mask.set tid false } := by
      constructor
      · simpa using hcore.len_mask
      · exact hcore.len_upd
      · exact hcore.len_vis
      · exact hcore.len_cost
      · intro v hv
        by_cases hvt : tid = v
        · subst hvt
          simp only [List.getElem?_set_self htm] at hv
          cases hv
        · simp only [List.getElem?_set_ne hvt] at hv
          exact hcore.mask_sound v hv
      · exact hcore.upd_sound
      · exact hcore.vis_iff
      · exact hcore.cost_vis
      · exact hcore.cost_upd
      · exact hcore.cost_none
      · exact hcore.tr_head
      · exact hcore.tr_src
      · exact hcore.tr_frozen
      · exact hcore.tr_pair
      · exact hcore.tr_val
    obtain ⟨st2, hrun, ⟨hcore2, hmono2⟩, hdone, _⟩ :=
      foldlM_inv (edgeBody g tid)
        (fun x => Core g s k x ∧ Mono { st with h_graph_mask := st.h_graph_mask.set tid false } x)
        (EdgeDone g s k) (edgeIndices nd)
        (fun x i hi hx => edgeBody_spec hwf hdist hnd hx.1 hx.2 hi)
        { st with h_graph_mask := st.h_graph_mask.set tid false }
        ⟨hcore1, rfl, rfl, fun _ h => h⟩
    have hmask2 : st2.h_graph_mask = st.h_graph_mask.set tid false := hmono2.1
    refine ⟨st2, ?_, ⟨hcore2, ?_⟩, ?_, ?_⟩
    · simp only [expandBody, readAt_ok hm, writeAt_ok _ htm, readAt_ok hnd, bind, Except.bind]
      exact hrun
    · intro u hu
      by_cases hut : tid = u
      · subst hut
        right
        intro v hedge hnot
        obtain ⟨nd2, hnd2, i, hi1, hi2, hiv⟩ := hedge
        rw [hnd] at hnd2
        cases hnd2
        have hmem : (i : Int) ∈ edgeIndices nd := mem_edgeIndices.2 ⟨hi1, hi2⟩
        exact hdone (i : Int) hmem v (by simpa using hiv) hnot
      · rcases hprog u hu with h | h
        · left
          rw [hmask2, List.getElem?_set_ne hut]
          exact h
        · right
          intro v hedge hnot
          exact hmono2.2.2 v (h v hedge hnot)
    · rw [hmask2, List.getElem?_set_self htm]
    · intro j hj
      rw [hmask2]
      by_cases hjt : tid = j
      · subst hjt
        rw [List.getElem?_set_self htm]
      · rw [List.getElem?_set_ne hjt]
        exact hj

theorem covers_of_perm {g : Graph} {order : List Nat} (h : order.Perm (List.range g.N)) :
    Covers g order := by
  intro v
  rw [h.mem_iff, List.mem_range]

theorem expandPass_spec {g : Graph} (hwf : WellFormed g) {s k : Nat} {order : List Nat}
    (hord : Covers g order) {st : State} (hinv : LevelInv g s k st) :
    ∃ st2, expandPass g order st = .ok st2 ∧ AfterExpand g s k st2 := by
  obtain ⟨st2, hrun, ⟨hcore2, hprog2⟩, hdone, _⟩ :=
    foldlM_inv (expandBody g) (fun x => Core g s k x ∧ Prog g s k x)
      (fun tid x => x.h_graph_mask[tid]? = some false) order
      (fun x tid htid hx => expandBody_spec hwf ((hord tid).1 htid) hx.1 hx.2)
      st ⟨hinv.core, fun u hu => Or.inl (hinv.mask_complete u hu)⟩
  refine ⟨st2, hrun, hcore2, fun v hv => hdone v ((hord v).2 hv), ?_⟩
  intro v hv
  obtain ⟨hnot, u, hu, hedge⟩ := isDist_succ_iff.1 hv
  rcases hprog2 u hu with h | h
  · have := hdone u ((hord u).2 (hasEdge_src_lt hwf hedge))
    rw [this] at h
    cases h
  · exact h v hedge hnot

/-! ## The commit pass -/

theorem commitBody_spec {g : Graph} {st0 : State} {tid : Nat} (htid : tid < g.N)
    {acc : State × Bool} (hinv : CommitInv g st0 acc) :
    ∃ acc2, commitBody acc tid = .ok acc2 ∧ CommitInv g st0 acc2 ∧
      Committed st0 tid acc2 ∧ ∀ j : Nat, Committed st0 j acc → Committed st0 j acc2 := by
  have htu : tid < acc.1.h_updating_graph_mask.length := hinv.len_upd ▸ htid
  have htm : tid < acc.1.h_graph_mask.length := hinv.len_mask ▸ htid
  have htv : tid < acc.1.h_graph_visited.length := hinv.len_vis ▸ htid
  obtain ⟨u, hu⟩ := getElem?_of_lt htu
  cases u with
  | false =>
    refine ⟨acc, ?_, hinv, ?_, fun _ h => h⟩
    · simp [commitBody, readAt_ok hu, bind, Except.bind, pure, Except.pure]
    · rcases hinv.cells tid htid with h | h
      · obtain ⟨h1, h2, h3⟩ := h
        have h0 : st0.h_updating_graph_mask[tid]? = some false := by rw [← h1]; exact hu
        refine ⟨hu, by rw [h2, h0], ?_, ?_⟩
        · rw [h3, h0]
          simp
        · rw [h0]
          intro hc
          cases hc
      · exact h
  | true =>
    have hpend : Pending st0 tid acc := by
      rcases hinv.cells tid htid with h | h
      · exact h
      · rw [h.1] at hu
        cases hu
    have h0 : st0.h_updating_graph_mask[tid]? = some true := by rw [← hpend.1]; exact hu
    refine ⟨({ acc.1 with
        h_graph_mask := acc.1.h_graph_mask.set tid true
        h_graph_visited := acc.1.h_graph_visited.set tid true
        h_updating_graph_mask := acc.1.h_updating_graph_mask.set tid false }, true), ?_, ?_, ?_, ?_⟩
    · simp [commitBody, readAt_ok hu, writeAt_ok _ htm, writeAt_ok _ htv, writeAt_ok _ htu,
        bind, Except.bind, pure, Except.pure]
    · constructor
      · simpa using hinv.len_mask
      · simpa using hinv.len_upd
      · simpa using hinv.len_vis
      · exact hinv.cost_eq
      · exact hinv.trace_eq
      · intro v hv
        by_cases hvt : tid = v
        · subst hvt
          right
          refine ⟨?_, ?_, ?_, fun _ => rfl⟩
          · simp only [List.getElem?_set_self htu]
          · simp only [List.getElem?_set_self htm, h0]
          · simp only [List.getElem?_set_self htv, h0, or_true]
        · rcases hinv.cells v hv with h | h
          · left
            refine ⟨?_, ?_, ?_⟩
            · simp only [List.getElem?_set_ne hvt]; exact h.1
            · simp only [List.getElem?_set_ne hvt]; exact h.2.1
            · simp only [List.getElem?_set_ne hvt]; exact h.2.2
          · right
            refine ⟨?_, ?_, ?_, fun _ => rfl⟩
            · simp only [List.getElem?_set_ne hvt]; exact h.1
            · simp only [List.getElem?_set_ne hvt]; exact h.2.1
            · simp only [List.getElem?_set_ne hvt]; exact h.2.2.1
      · intro _
        exact ⟨tid, h0⟩
    · refine ⟨?_, ?_, ?_, fun _ => rfl⟩
      · simp only [List.getElem?_set_self htu]
      · simp only [List.getElem?_set_self htm, h0]
      · simp only [List.getElem?_set_self htv, h0, or_true]
    · intro j hj
      have hjt : tid ≠ j := by
        rintro rfl
        rw [hj.1] at hu
        cases hu
      refine ⟨?_, ?_, ?_, fun _ => rfl⟩
      · simp only [List.getElem?_set_ne hjt]; exact hj.1
      · simp only [List.getElem?_set_ne hjt]; exact hj.2.1
      · simp only [List.getElem?_set_ne hjt]; exact hj.2.2.1

theorem core_source_lt {g : Graph} {s k : Nat} {st : State} (hcore : Core g s k st) :
    s < g.N := by
  have := hcore.cost_vis s 0 (Nat.zero_le _) (isDist_zero s)
  have h2 := lt_of_getElem? this
  rw [hcore.len_cost] at h2
  exact h2

theorem commitPass_spec {g : Graph} (hwf : WellFormed g) {s k : Nat} {order : List Nat}
    (hord : Covers g order) {st : State} (hinv : AfterExpand g s k st) :
    ∃ st2 stop, commitPass order st = .ok (st2, stop) ∧ LevelInv g s (k + 1) st2 ∧
      st2.h_cost = st.h_cost ∧ st2.trace = st.trace ∧
      (stop = true ↔ ∃ v, IsDist g s v (k + 1)) := by
  have hcore := hinv.core
  have hs : s < g.N := core_source_lt hcore
  obtain ⟨⟨st2, stop⟩, hrun, hci, hdone, _⟩ :=
    foldlM_inv commitBody (CommitInv g st) (Committed st) order
      (fun acc tid htid hacc => commitBody_spec ((hord tid).1 htid) hacc)
      (st, false)
      ⟨hcore.len_mask, hcore.len_upd, hcore.len_vis, rfl, rfl,
        fun v hv => Or.inl ⟨rfl, hinv.mask_clear v hv, rfl⟩,
        fun h => by cases h⟩
  have hcom : ∀ v : Nat, v < g.N → Committed st v (st2, stop) :=
    fun v hv => hdone v ((hord v).2 hv)
  have hupd0 : ∀ v : Nat, st.h_updating_graph_mask[v]? = some true ↔ IsDist g s v (k + 1) :=
    fun v => ⟨hcore.upd_sound v, hinv.upd_complete v⟩
  have hcost : st2.h_cost = st.h_cost := hci.cost_eq
  have htrace : st2.trace = st.trace := hci.trace_eq
  have hnoupd : ∀ v : Nat, st2.h_updating_graph_mask[v]? ≠ some true := by
    intro v hv
    have hvN : v < g.N := by
      have := lt_of_getElem? hv
      rw [hci.len_upd] at this
      exact this
    rw [(hcom v hvN).1] at hv
    cases hv
  refine ⟨st2, stop, hrun, ⟨?_, ?_, fun v hv => (hcom v hv).1⟩, hcost, htrace, ?_⟩
  · constructor
    · exact hci.len_mask
    · exact hci.len_upd
    · exact hci.len_vis
    · rw [hcost]; exact hcore.len_cost
    · intro v hv
      have hvN : v < g.N := by
        have := lt_of_getElem? hv
        rw [hci.len_mask] at this
        exact this
      have h2 := (hcom v hvN).2.1
      rw [hv] at h2
      exact (hupd0 v).1 h2.symm
    · intro v hv
      exact absurd hv (hnoupd v)
    · intro v
      by_cases hvN : v < g.N
      · have h2 := (hcom v hvN).2.2.1
        show st2.h_graph_visited[v]? = some true ↔ Within g s (k + 1) v
        rw [h2, hcore.vis_iff v, hupd0 v, within_succ_iff]
      · constructor
        · intro hv
          have := lt_of_getElem? hv
          rw [hci.len_vis] at this
          exact absurd this hvN
        · rintro ⟨n, _, hw⟩
          exact absurd (walk_lt hwf hs hw) hvN
    · intro v d hd hdist
      rw [hcost]
      by_cases hdk : d ≤ k
      · exact hcore.cost_vis v d hdk hdist
      · have hd1 : d = k + 1 := by omega
        subst hd1
        have := hcore.cost_upd v (hinv.upd_complete v hdist)
        rw [this]
        push_cast
        rfl
    · intro v hv
      exact absurd hv (hnoupd v)
    · intro v hvN hnot _
      rw [hcost]
      have hnk : ¬ Within g s k v := fun h => hnot (within_mono h)
      have hnd : ¬ IsDist g s v (k + 1) := fun h => hnot ⟨k + 1, le_refl _, h.1⟩
      exact hcore.cost_none v hvN hnk (fun h => hnd ((hupd0 v).1 h))
    · rw [htrace, hcost]; exact hcore.tr_head
    · rw [htrace]; exact hcore.tr_src
    · rw [htrace, hcost]; exact hcore.tr_frozen
    · rw [htrace]; exact hcore.tr_pair
    · rw [htrace]; exact hcore.tr_val
  · intro v hv
    have hvN := isDist_lt hwf hs hv
    have h2 := (hcom v hvN).2.1
    show st2.h_graph_mask[v]? = some true
    rw [h2]
    exact hinv.upd_complete v hv
  · constructor
    · intro hstop
      obtain ⟨v, hv⟩ := hci.stop_sound hstop
      exact ⟨v, (hupd0 v).1 hv⟩
    · rintro ⟨v, hv⟩
      exact (hcom v (isDist_lt hwf hs hv)).2.2.2 (hinv.upd_complete v hv)

/-! ## The level loop and the whole run -/

theorem levelStep_spec {g : Graph} (hwf : WellFormed g) {sched : Schedule}
    (hsched : ValidSchedule g sched) {s k : Nat} {st : State} (hinv : LevelInv g s k st) :
    ∃ st2 stop, levelStep g sched st k = .ok (st2, k + 1, stop) ∧
      LevelInv g s (k + 1) st2 ∧ (stop = true ↔ ∃ v, IsDist g s v (k + 1)) := by
  obtain ⟨st1, h1, hinv1⟩ := expandPass_spec hwf (covers_of_perm (hsched k).1) hinv
  obtain ⟨st2, stop, h2, hinv2, _, _, hstop⟩ :=
    commitPass_spec hwf (covers_of_perm (hsched k).2) hinv1
  refine ⟨st2, stop, ?_, hinv2, hstop⟩
  simp only [levelStep, h1, h2, bind, Except.bind, pure, Except.pure]

theorem levelLoop_spec {g : Graph} (hwf : WellFormed g) {sched : Schedule}
    (hsched : ValidSchedule g sched) {s : Nat} :
    ∀ (fuel : Nat) (st : State) (k : Nat), LevelInv g s k st →
      (∀ d, d ≤ k → ∃ v, v < g.N ∧ IsDist g s v d) → g.N ≤ fuel + k →
      ∃ st2 k2, levelLoop g sched fuel st k = .ok (st2, k2) ∧ Finished g s st2 k2 := by
  intro fuel
  induction fuel with
  | zero =>
    intro st k _ hlev hfuel
    have := level_count_lt hlev
    omega
  | succ fuel ih =>
    intro st k hinv hlev hfuel
    obtain ⟨st2, stop, hstep, hinv2, hstop⟩ := levelStep_spec hwf hsched hinv
    have hs : s < g.N := core_source_lt hinv.core
    cases stop with
    | true =>
      obtain ⟨w, hw⟩ := hstop.1 rfl
      have hlev2 : ∀ d, d ≤ k + 1 → ∃ v, v < g.N ∧ IsDist g s v d := by
        intro d hd
        by_cases hdk : d ≤ k
        · exact hlev d hdk
        · have : d = k + 1 := by omega
          subst this
          exact ⟨w, isDist_lt hwf hs hw, hw⟩
      obtain ⟨st3, k3, hrun, hfin⟩ := ih st2 (k + 1) hinv2 hlev2 (by omega)
      refine ⟨st3, k3, ?_, hfin⟩
      simp only [levelLoop, hstep, bind, Except.bind]
      exact hrun
    | false =>
      refine ⟨st2, k + 1, ?_, k, rfl, hinv2, hlev, ?_⟩
      · simp [levelLoop, hstep, bind, Except.bind, pure, Except.pure]
      · intro hex
        have := hstop.2 hex
        cases this

theorem initState_spec {g : Graph} (hwf : WellFormed g) {source : Int}
    (hsrc : InRange g source) :
    ∃ st, initState g source = .ok st ∧ LevelInv g source.toNat 0 st ∧
      st.h_cost = (List.replicate g.N (-1 : Int)).set source.toNat 0 ∧
      st.trace = [⟨source.toNat, 0, st.h_cost⟩] := by
  obtain ⟨s, rfl⟩ : ∃ s : Nat, source = (s : Int) := ⟨source.toNat, by have := hsrc.1; omega⟩
  have hsN : s < g.N := by
    have := hsrc.2
    unfold Graph.N
    omega
  have hnn : ¬ g.no_of_nodes < 0 := by
    have := hwf.1
    omega
  have hlb : s < (List.replicate g.N false).length := by simpa using hsN
  have hlc : s < (List.replicate g.N (-1 : Int)).length := by simpa using hsN
  refine ⟨{
      h_graph_mask := (List.replicate g.N false).set s true
      h_updating_graph_mask := List.replicate g.N false
      h_graph_visited := (List.replicate g.N false).set s true
      h_cost := (List.replicate g.N (-1 : Int)).set s 0
      trace := [⟨s, 0, (List.replicate g.N (-1 : Int)).set s 0⟩] }, ?_, ⟨?_, ?_, ?_⟩, ?_, ?_⟩
  · simp only [initState, hnn, writeAt_ok _ hlb, writeAt_ok _ hlc, bind, Except.bind, pure,
      Except.pure, if_false, Int.toNat_ofNat]
  · simp only [Int.toNat_ofNat]
    constructor
    · simp
    · simp
    · simp
    · simp
    · intro v hv
      by_cases hvs : s = v
      · subst hvs; exact isDist_zero _
      · simp only [List.getElem?_set_ne hvs] at hv
        have hmem := List.getElem?_mem hv
        simp at hmem
    · intro v hv
      have hmem := List.getElem?_mem hv
      simp at hmem
    · intro v
      rw [within_zero_iff]
      constructor
      · intro hv
        by_contra hvs
        simp only [List.getElem?_set_ne (Ne.symm hvs)] at hv
        have hmem := List.getElem?_mem hv
        simp at hmem
      · rintro rfl
        simp only [List.getElem?_set_self hlb]
    · intro v d hd hdist
      have hd0 : d = 0 := by omega
      subst hd0
      have hvs := isDist_zero_iff.1 hdist
      subst hvs
      simp only [List.getElem?_set_self hlc]
      rfl
    · intro v hv
      have hmem := List.getElem?_mem hv
      simp at hmem
    · intro v hvN hnot _
      have hvs : s ≠ v := by
        rintro rfl
        exact hnot (within_zero_iff.2 rfl)
      simp only [List.getElem?_set_ne hvs]
      simp [hvN]
    · exact ⟨_, _, rfl, rfl⟩
    · intro e he
      simp only [List.mem_singleton] at he
      subst he
      simp only [List.getElem?_set_self hlc]
    · intro e he
      simp only [List.mem_singleton] at he
      subst he
      exact frozen_refl _
    · exact List.pairwise_singleton _ _
    · intro e he
      simp only [List.mem_singleton] at he
      subst he
      simp only [List.getElem?_set_self hlc]
  · intro v hdist
    have hvs := isDist_zero_iff.1 hdist
    subst hvs
    simp only [Int.toNat_ofNat, List.getElem?_set_self hlb]
  · intro v hvN
    simp [hvN]
  · simp only [Int.toNat_ofNat]
  · simp only [Int.toNat_ofNat]

/-- Specification of a whole run: with enough fuel the traversal returns, in
a state described by `Finished`. -/
theorem run_spec {g : Graph} (hwf : WellFormed g) {source : Int} (hsrc : InRange g source)
    {sched : Schedule} (hsched : ValidSchedule g sched) {fuel : Nat} (hfuel : g.N ≤ fuel) :
    ∃ st k, BFSGraphSched sched fuel g source = .ok (st, k) ∧
      Finished g source.toNat st k := by
  obtain ⟨st0, hinit, hinv0, _, _⟩ := initState_spec hwf hsrc
  have hs : source.toNat < g.N := core_source_lt hinv0.core
  have hlev : ∀ d, d ≤ 0 → ∃ v, v < g.N ∧ IsDist g source.toNat v d := by
    intro d hd
    have : d = 0 := by omega
    subst this
    exact ⟨source.toNat, hs, isDist_zero _⟩
  obtain ⟨st, k, hrun, hfin⟩ :=
    levelLoop_spec hwf hsched fuel st0 0 hinv0 hlev (by omega)
  refine ⟨st, k, ?_, hfin⟩
  simp only [BFSGraphSched, hinit, bind, Except.bind]
  exact hrun

theorem validSchedule_seq (g : Graph) : ValidSchedule g (seqSchedule g) :=
  fun _ => ⟨List.Perm.refl _, List.Perm.refl _⟩

theorem atLevel_inv {g : Graph} (hwf : WellFormed g) {source : Int} (hsrc : InRange g source)
    {sched : Schedule} (hsched : ValidSchedule g sched) {k : Nat} {st : State}
    (h : AtLevel g sched source k st) : LevelInv g source.toNat k st := by
  induction h with
  | init hinit =>
    obtain ⟨st0, h0, hinv0, _, _⟩ := initState_spec hwf hsrc
    rw [h0] at hinit
    cases hinit
    exact hinv0
  | step _ hstep ih =>
    obtain ⟨st2, stop, h2, hinv2, _⟩ := levelStep_spec hwf hsched ih
    rw [h2] at hstep
    cases hstep
    exact hinv2

theorem finished_dist_le {g : Graph} {s : Nat} {st : State} {k : Nat}
    (h : Finished g s st k) {v d : Nat} (hd : IsDist g s v d) : d + 1 ≤ k := by
  obtain ⟨m, rfl, _, _, hno⟩ := h
  by_contra hlt
  obtain ⟨u, hu⟩ := exists_isDist_below d v hd (m + 1) (by omega)
  exact hno ⟨u, hu⟩

theorem finished_cost_dist {g : Graph} {s : Nat} {st : State} {k : Nat}
    (h : Finished g s st k) {v d : Nat} (hd : IsDist g s v d) :
    st.h_cost[v]? = some (d : Int) := by
  have hle := finished_dist_le h hd
  obtain ⟨m, rfl, hinv, _, _⟩ := h
  exact hinv.core.cost_vis v d (by omega) hd

theorem finished_cost_unreached {g : Graph} {s : Nat} {st : State} {k : Nat}
    (h : Finished g s st k) {v : Nat} (hv : v < g.N) (hnr : ¬ Reachable g s v) :
    st.h_cost[v]? = some (-1) := by
  obtain ⟨m, rfl, hinv, _, _⟩ := h
  refine hinv.core.cost_none v hv ?_ ?_
  · rintro ⟨n, _, hw⟩
    exact hnr ⟨n, hw⟩
  · rw [hinv.upd_clear v hv]
    intro hc
    cases hc

theorem finished_k_le {g : Graph} {s : Nat} {st : State} {k : Nat}
    (h : Finished g s st k) : 1 ≤ k ∧ k ≤ g.N := by
  obtain ⟨m, rfl, _, hlev, _⟩ := h
  have := level_count_lt hlev
  omega

theorem finished_cost_eq {g : Graph} {s : Nat} {st1 st2 : State} {k1 k2 : Nat}
    (h1 : Finished g s st1 k1) (h2 : Finished g s st2 k2) : st1.h_cost = st2.h_cost := by
  have hl1 : st1.h_cost.length = g.N := by
    obtain ⟨m, _, hinv, _, _⟩ := h1
    exact hinv.core.len_cost
  have hl2 : st2.h_cost.length = g.N := by
    obtain ⟨m, _, hinv, _, _⟩ := h2
    exact hinv.core.len_cost
  apply List.ext_getElem?
  intro v
  by_cases hv : v < g.N
  · by_cases hr : Reachable g s v
    · obtain ⟨n, hw⟩ := hr
      obtain ⟨d, _, hd⟩ := exists_isDist_of_walk hw
      rw [finished_cost_dist h1 hd, finished_cost_dist h2 hd]
    · rw [finished_cost_unreached h1 hv hr, finished_cost_unreached h2 hv hr]
  · rw [List.getElem?_eq_none (by omega), List.getElem?_eq_none (by omega)]

theorem finished_k_eq {g : Graph} {s : Nat} {st1 st2 : State} {k1 k2 : Nat}
    (h1 : Finished g s st1 k1) (h2 : Finished g s st2 k2) : k1 = k2 := by
  obtain ⟨m1, rfl, _, hlev1, hno1⟩ := h1
  obtain ⟨m2, rfl, _, hlev2, hno2⟩ := h2
  by_contra hne
  rcases Nat.lt_or_gt_of_ne hne with hlt | hgt
  · obtain ⟨v, _, hv⟩ := hlev2 (m1 + 1) (by omega)
    exact hno1 ⟨v, hv⟩
  · obtain ⟨v, _, hv⟩ := hlev1 (m2 + 1) (by omega)
    exact hno2 ⟨v, hv⟩

/-! ## Properties of the traversal -/

/-- C1: for a well-formed graph and an in-range source, under every schedule of
the two parallel loops, the level loop of `BFSGraph` terminates and in the
final state every node `v` reachable from the source has `h_cost[v]` equal to
the number of edges on a shortest path from the source to `v`. -/
theorem C1_cost_is_shortest_path_length (g : Graph) (source : Int) (sched : Schedule)
    (fuel : Nat) (hwf : WellFormed g) (hsrc : InRange g source)
    (hsched : ValidSchedule g sched) (hfuel : g.N ≤ fuel) :
    ∃ st k, BFSGraphSched sched fuel g source = .ok (st, k) ∧
      ∀ v : Nat, Reachable g source.toNat v →
        ∃ d : Nat, IsDist g source.toNat v d ∧ st.h_cost[v]? = some (d : Int) := by
  obtain ⟨st, k, hrun, hfin⟩ := run_spec hwf hsrc hsched hfuel
  refine ⟨st, k, hrun, ?_⟩
  rintro v ⟨n, hw⟩
  obtain ⟨d, _, hd⟩ := exists_isDist_of_walk hw
  exact ⟨d, hd, finished_cost_dist hfin hd⟩

theorem C1_cost_is_shortest_path_length_witness :
    WellFormed lineGraph ∧ InRange lineGraph 0 ∧
    ValidSchedule lineGraph (seqSchedule lineGraph) ∧
    ∃ st k, BFSGraphSched (seqSchedule lineGraph) 4 lineGraph 0 = .ok (st, k) ∧
      ∀ v : Nat, Reachable lineGraph (0 : Int).toNat v →
        ∃ d : Nat, IsDist lineGraph (0 : Int).toNat v d ∧ st.h_cost[v]? = some (d : Int) :=
  ⟨by decide, by decide, validSchedule_seq _,
    C1_cost_is_shortest_path_length lineGraph 0 (seqSchedule lineGraph) 4
      (by decide) (by decide) (validSchedule_seq _) (by decide)⟩

/-- C2: for a well-formed graph and an in-range source, under every schedule,
the level loop terminates and every node that is not reachable from the
source has `h_cost[v] == -1` in the final state. -/
theorem C2_unreachable_cost_is_sentinel (g : Graph) (source : Int) (sched : Schedule)
    (fuel : Nat) (hwf : WellFormed g) (hsrc : InRange g source)
    (hsched : ValidSchedule g sched) (hfuel : g.N ≤ fuel) :
    ∃ st k, BFSGraphSched sched fuel g source = .ok (st, k) ∧
      ∀ v : Nat, v < g.N → ¬ Reachable g source.toNat v → st.h_cost[v]? = some (-1) := by
  obtain ⟨st, k, hrun, hfin⟩ := run_spec hwf hsrc hsched hfuel
  exact ⟨st, k, hrun, fun v hv hnr => finished_cost_unreached hfin hv hnr⟩

theorem C2_unreachable_cost_is_sentinel_witness :
    WellFormed splitGraph ∧ InRange splitGraph 0 ∧
    ValidSchedule splitGraph (seqSchedule splitGraph) ∧
    ∃ st k, BFSGraphSched (seqSchedule splitGraph) 3 splitGraph 0 = .ok (st, k) ∧
      ∀ v : Nat, v < splitGraph.N → ¬ Reachable splitGraph (0 : Int).toNat v →
        st.h_cost[v]? = some (-1) :=
  ⟨by decide, by decide, validSchedule_seq _,
    C2_unreachable_cost_is_sentinel splitGraph 0 (seqSchedule splitGraph) 3
      (by decide) (by decide) (validSchedule_seq _) (by decide)⟩

/-- C3: for a well-formed graph (self-loops and edges back to the source
included) and an in-range source, under every schedule: `h_cost[source]` is 0
at the start of every level step the loop executes (for the first one, right
after initialisation), after its expand pass and after its commit pass; it is
0 after every single assignment to `h_cost` of the run; and it is 0 in the
final state. -/
theorem C3_source_cost_is_zero (g : Graph) (source : Int) (sched : Schedule)
    (fuel : Nat) (hwf : WellFormed g) (hsrc : InRange g source)
    (hsched : ValidSchedule g sched) (hfuel : g.N ≤ fuel) :
    (∀ (k : Nat) (st : State), AtLevel g sched source k st →
      st.h_cost[source.toNat]? = some 0 ∧
      ∃ st1, expandPass g (sched k).1 st = .ok st1 ∧ st1.h_cost[source.toNat]? = some 0 ∧
        ∃ st2 stop, commitPass (sched k).2 st1 = .ok (st2, stop) ∧
          st2.h_cost[source.toNat]? = some 0) ∧
    ∃ st k, BFSGraphSched sched fuel g source = .ok (st, k) ∧
      st.h_cost[source.toNat]? = some 0 ∧
      ∀ e, e ∈ st.trace → e.cost[source.toNat]? = some 0 := by
  constructor
  · intro k st hat
    have hinv := atLevel_inv hwf hsrc hsched hat
    obtain ⟨st1, h1, hinv1⟩ := expandPass_spec hwf (covers_of_perm (hsched k).1) hinv
    obtain ⟨st2, stop, h2, hinv2, _⟩ :=
      commitPass_spec hwf (covers_of_perm (hsched k).2) hinv1
    refine ⟨?_, st1, h1, ?_, st2, stop, h2, ?_⟩
    · exact hinv.core.cost_vis _ 0 (Nat.zero_le _) (isDist_zero _)
    · exact hinv1.core.cost_vis _ 0 (Nat.zero_le _) (isDist_zero _)
    · exact hinv2.core.cost_vis _ 0 (Nat.zero_le _) (isDist_zero _)
  · obtain ⟨st, k, hrun, hfin⟩ := run_spec hwf hsrc hsched hfuel
    refine ⟨st, k, hrun, finished_cost_dist hfin (isDist_zero _), ?_⟩
    obtain ⟨m, _, hinv, _, _⟩ := hfin
    exact hinv.core.tr_src

theorem C3_source_cost_is_zero_witness :
    WellFormed loopGraph ∧ InRange loopGraph 0 ∧
    ValidSchedule loopGraph (seqSchedule loopGraph) ∧
    ∃ st k, BFSGraphSched (seqSchedule loopGraph) 2 loopGraph 0 = .ok (st, k) ∧
      st.h_cost[(0 : Int).toNat]? = some 0 ∧
      ∀ e, e ∈ st.trace → e.cost[(0 : Int).toNat]? = some 0 :=
  ⟨by decide, by decide, validSchedule_seq _,
    (C3_source_cost_is_zero loopGraph 0 (seqSchedule loopGraph) 2
      (by decide) (by decide) (validSchedule_seq _) (by decide)).2⟩

/-- C4: for a well-formed graph and an in-range source, whatever permutation
of the indices `0..N-1` each expand pass and each commit pass processes, the
run returns and its final `h_cost` array is the one of the run in sequential
index order. -/
theorem C4_cost_independent_of_schedule (g : Graph) (source : Int) (sched : Schedule)
    (fuel : Nat) (hwf : WellFormed g) (hsrc : InRange g source)
    (hsched : ValidSchedule g sched) (hfuel : g.N ≤ fuel) :
    ∃ c, finalCost (BFSGraphSched sched fuel g source) = .ok c ∧
      finalCost (BFSGraph fuel g source) = .ok c := by
  obtain ⟨st1, k1, hrun1, hfin1⟩ := run_spec hwf hsrc hsched hfuel
  obtain ⟨st2, k2, hrun2, hfin2⟩ := run_spec hwf hsrc (validSchedule_seq g) hfuel
  refine ⟨st1.h_cost, ?_, ?_⟩
  · rw [hrun1]
    rfl
  · unfold BFSGraph
    rw [hrun2, finished_cost_eq hfin1 hfin2]
    rfl

theorem validSchedule_rev (g : Graph) : ValidSchedule g (revSchedule g) :=
  fun _ => ⟨List.reverse_perm _, List.reverse_perm _⟩

theorem C4_cost_independent_of_schedule_witness :
    WellFormed cycleGraph ∧ InRange cycleGraph 0 ∧
    ValidSchedule cycleGraph (revSchedule cycleGraph) ∧
    ∃ c, finalCost (BFSGraphSched (revSchedule cycleGraph) 4 cycleGraph 0) = .ok c ∧
      finalCost (BFSGraph 4 cycleGraph 0) = .ok c :=
  ⟨by decide, by decide, validSchedule_rev _,
    C4_cost_independent_of_schedule cycleGraph 0 (revSchedule cycleGraph) 4
      (by decide) (by decide) (validSchedule_rev _) (by decide)⟩

/-- C5: for a well-formed graph with `N >= 1` nodes and an in-range source,
under every schedule, the `do ... while(stop)` loop terminates (the run
returns whenever the fuel is at least `N`) and the final value of the
counter `k` is at most `N`. -/
theorem C5_level_loop_terminates_within_N (g : Graph) (source : Int) (sched : Schedule)
    (fuel : Nat) (hwf : WellFormed g) (hsrc : InRange g source)
    (hsched : ValidSchedule g sched) (hfuel : g.N ≤ fuel) :
    ∃ st k, BFSGraphSched sched fuel g source = .ok (st, k) ∧ k ≤ g.N := by
  obtain ⟨st, k, hrun, hfin⟩ := run_spec hwf hsrc hsched hfuel
  exact ⟨st, k, hrun, (finished_k_le hfin).2⟩

theorem C5_level_loop_terminates_within_N_witness :
    WellFormed lineGraph ∧ InRange lineGraph 3 ∧
    ValidSchedule lineGraph (seqSchedule lineGraph) ∧
    ∃ st k, BFSGraphSched (seqSchedule lineGraph) 4 lineGraph 3 = .ok (st, k) ∧
      k ≤ lineGraph.N :=
  ⟨by decide, by decide, validSchedule_seq _,
    C5_level_loop_terminates_within_N lineGraph 3 (seqSchedule lineGraph) 4
      (by decide) (by decide) (validSchedule_seq _) (by decide)⟩

/-- C6, as stated, fails: on a graph with a destination id outside `[0, N)`
the traversal reports nothing, executes a level step and returns a cost array. -/
theorem C6_counterexample :
    (∃ id, id ∈ badDestGraph.h_graph_edges ∧ ¬ (0 ≤ id ∧ id < badDestGraph.no_of_nodes)) ∧
    ¬ WellFormed badDestGraph ∧
    finalCost (BFSGraph 1 badDestGraph 0) = .ok [0, -1] ∧
    finalK (BFSGraph 1 badDestGraph 0) = .ok 1 :=
  ⟨⟨5, by decide, by decide⟩, by decide, rfl, rfl⟩

theorem initState_error_of_not_inRange {g : Graph} {source : Int} (h : ¬ InRange g source) :
    initState g source = .error .outOfBounds := by
  unfold initState
  by_cases hn : g.no_of_nodes < 0
  · simp [hn, bind, Except.bind, throw, throwThe, MonadExceptOf.throw]
  · have hw : writeAt (List.replicate g.N false) source true = .error .outOfBounds := by
      unfold writeAt
      by_cases hs : source < 0
      · simp [hs]
      · have : ¬ source.toNat < g.N := by
          unfold InRange at h
          unfold Graph.N
          omega
        simp [hs, this]
    simp [hn, hw, bind, Except.bind, pure, Except.pure]

theorem levelStep_counter {g : Graph} {sched : Schedule} {st st2 : State} {k k2 : Nat}
    {stop : Bool} (h : levelStep g sched st k = .ok (st2, k2, stop)) : k2 = k + 1 := by
  unfold levelStep at h
  cases h1 : expandPass g (sched k).1 st with
  | error e =>
    simp [h1, bind, Except.bind] at h
  | ok st1 =>
    cases h2 : commitPass (sched k).2 st1 with
    | error e =>
      simp [h1, h2, bind, Except.bind] at h
    | ok r =>
      simp [h1, h2, bind, Except.bind, pure, Except.pure] at h
      omega

theorem levelLoop_counter {g : Graph} {sched : Schedule} :
    ∀ (fuel : Nat) (st : State) (k : Nat) (st2 : State) (k2 : Nat),
      levelLoop g sched fuel st k = .ok (st2, k2) → k < k2 := by
  intro fuel
  induction fuel with
  | zero =>
    intro st k st2 k2 h
    simp [levelLoop] at h
  | succ fuel ih =>
    intro st k st2 k2 h
    unfold levelLoop at h
    cases h1 : levelStep g sched st k with
    | error e =>
      simp [h1, bind, Except.bind] at h
    | ok r =>
      obtain ⟨st1, k1, stop⟩ := r
      have hk1 := levelStep_counter h1
      subst hk1
      cases stop with
      | true =>
        simp only [h1, bind, Except.bind, if_true] at h
        have := ih st1 (k + 1) st2 k2 h
        omega
      | false =>
        simp [h1, bind, Except.bind, pure, Except.pure] at h
        omega

theorem noExit_ok {α : Type} (a : α) : NoExit (Except.ok a : Except Fault α) := by
  intro c h
  cases h

theorem noExit_bind {α β : Type} {x : Except Fault α} {f : α → Except Fault β}
    (hx : NoExit x) (hf : ∀ a, NoExit (f a)) : NoExit (x >>= f) := by
  intro c h
  cases x with
  | error e =>
    have : (Except.error e : Except Fault β) = .error (.exit c) := h
    cases this
    exact hx c rfl
  | ok a => exact hf a c h

theorem readAt_noExit {α : Type} (xs : List α) (i : Int) : NoExit (readAt xs i) := by
  intro c h
  unfold readAt at h
  split at h
  · cases h
  · split at h <;> cases h

theorem writeAt_noExit {α : Type} (xs : List α) (i : Int) (v : α) :
    NoExit (writeAt xs i v) := by
  intro c h
  unfold writeAt at h
  split at h
  · cases h
  · split at h <;> cases h

theorem foldlM_noExit {σ ι : Type} (f : σ → ι → Except Fault σ)
    (hf : ∀ s i, NoExit (f s i)) : ∀ (l : List ι) (s : σ), NoExit (l.foldlM f s) := by
  intro l
  induction l with
  | nil => intro s; exact noExit_ok s
  | cons a l ih =>
    intro s
    rw [List.foldlM_cons]
    exact noExit_bind (hf s a) (fun s1 => ih s1)

theorem edgeBody_noExit (g : Graph) (tid : Nat) (st : State) (i : Int) :
    NoExit (edgeBody g tid st i) := by
  unfold edgeBody
  refine noExit_bind (readAt_noExit _ _) (fun id => ?_)
  refine noExit_bind (readAt_noExit _ _) (fun vis => ?_)
  split
  · refine noExit_bind (readAt_noExit _ _) (fun c => ?_)
    refine noExit_bind (writeAt_noExit _ _ _) (fun cost => ?_)
    refine noExit_bind (writeAt_noExit _ _ _) (fun upd => ?_)
    exact noExit_ok _
  · exact noExit_ok _

theorem expandBody_noExit (g : Graph) (st : State) (tid : Nat) :
    NoExit (expandBody g st tid) := by
  unfold expandBody
  refine noExit_bind (readAt_noExit _ _) (fun m => ?_)
  split
  · refine noExit_bind (writeAt_noExit _ _ _) (fun mask => ?_)
    refine noExit_bind (readAt_noExit _ _) (fun nd => ?_)
    exact foldlM_noExit _ (edgeBody_noExit g tid) _ _
  · exact noExit_ok _

theorem commitBody_noExit (acc : State × Bool) (tid : Nat) : NoExit (commitBody acc tid) := by
  unfold commitBody
  refine noExit_bind (readAt_noExit _ _) (fun u => ?_)
  split
  · refine noExit_bind (writeAt_noExit _ _ _) (fun mask => ?_)
    refine noExit_bind (writeAt_noExit _ _ _) (fun vis => ?_)
    refine noExit_bind (writeAt_noExit _ _ _) (fun upd => ?_)
    exact noExit_ok _
  · exact noExit_ok _

theorem levelStep_noExit (g : Graph) (sched : Schedule) (st : State) (k : Nat) :
    NoExit (levelStep g sched st k) := by
  unfold levelStep
  refine noExit_bind (foldlM_noExit _ (expandBody_noExit g) _ _) (fun st1 => ?_)
  refine noExit_bind (foldlM_noExit _ commitBody_noExit _ _) (fun r => ?_)
  exact noExit_ok _

theorem levelLoop_noExit (g : Graph) (sched : Schedule) :
    ∀ (fuel : Nat) (st : State) (k : Nat), NoExit (levelLoop g sched fuel st k) := by
  intro fuel
  induction fuel with
  | zero =>
    intro st k c h
    cases h
  | succ fuel ih =>
    intro st k
    unfold levelLoop
    refine noExit_bind (levelStep_noExit g sched st k) (fun r => ?_)
    obtain ⟨st2, k2, stop⟩ := r
    cases stop with
    | true => exact ih st2 k2
    | false => exact noExit_ok _

theorem initState_noExit (g : Graph) (source : Int) : NoExit (initState g source) := by
  unfold initState
  by_cases hn : g.no_of_nodes < 0
  · intro c h
    simp [hn, bind, Except.bind, throw, throwThe, MonadExceptOf.throw] at h
  · simp only [hn, if_false]
    refine noExit_bind (noExit_ok _) (fun _ => ?_)
    refine noExit_bind (writeAt_noExit _ _ _) (fun mask => ?_)
    refine noExit_bind (writeAt_noExit _ _ _) (fun vis => ?_)
    refine noExit_bind (writeAt_noExit _ _ _) (fun cost => ?_)
    exact noExit_ok _

/-- C6, amended: `BFSGraph` validates nothing and reports no configuration
error: no run of the traversal ends in a call of `exit`. With a source id
outside `[0, N)` (always the case when the node count is 0) the initialisation
writes `h_graph_mask[source]` outside the allocation before any level step;
otherwise the traversal starts, and every run that returns has executed at
least one level step. -/
theorem C6_no_validation_before_traversal (g : Graph) (source : Int) (sched : Schedule)
    (fuel : Nat) :
    (∀ c, BFSGraphSched sched fuel g source ≠ .error (.exit c)) ∧
    (¬ InRange g source → BFSGraphSched sched fuel g source = .error .outOfBounds) ∧
    (∀ st k, BFSGraphSched sched fuel g source = .ok (st, k) → 1 ≤ k) := by
  refine ⟨?_, ?_, ?_⟩
  · unfold BFSGraphSched
    exact noExit_bind (initState_noExit g source) (fun st => levelLoop_noExit g sched fuel st 0)
  · intro h
    simp [BFSGraphSched, initState_error_of_not_inRange h, bind, Except.bind]
  · intro st k h
    unfold BFSGraphSched at h
    cases h0 : initState g source with
    | error e =>
      simp [h0, bind, Except.bind] at h
    | ok st0 =>
      simp only [h0, bind, Except.bind] at h
      have := levelLoop_counter fuel st0 0 st k h
      omega

theorem C6_no_validation_before_traversal_witness :
    ¬ InRange emptyGraph 0 ∧
    BFSGraphSched (seqSchedule emptyGraph) 1 emptyGraph 0 = .error .outOfBounds ∧
    BFSGraphSched (seqSchedule badDestGraph) 1 badDestGraph 0 =
      .ok (⟨[false, false], [false, false], [true, false], [0, -1], [⟨0, 0, [0, -1]⟩]⟩, 1) ∧
    1 ≤ 1 :=
  ⟨by decide,
    (C6_no_validation_before_traversal emptyGraph 0 (seqSchedule emptyGraph) 1).2.1 (by decide),
    rfl,
    (C6_no_validation_before_traversal badDestGraph 0 (seqSchedule badDestGraph) 1).2.2 _ 1 rfl⟩

/-- C7: write-once cost. For a well-formed graph and an in-range source, under
every schedule, the run returns; listing the assignments to `h_cost` in the
order they were executed (from `h_cost[source] = 0` on), whenever after the
`i`-th assignment `h_cost[v]` holds a value `x` other than `-1`, then after
every later assignment `j` it still holds `x`, and if assignment `j` stores
into cell `v` it stores `x`. The final array is the one left by the last
assignment. -/
theorem C7_cost_write_once (g : Graph) (source : Int) (sched : Schedule)
    (fuel : Nat) (hwf : WellFormed g) (hsrc : InRange g source)
    (hsched : ValidSchedule g sched) (hfuel : g.N ≤ fuel) :
    ∃ st k, BFSGraphSched sched fuel g source = .ok (st, k) ∧
      (∃ e rest, st.trace = e :: rest ∧ e.cost = st.h_cost) ∧
      ∀ (i j : Nat) (ei ej : CostWrite), i ≤ j →
        st.trace.reverse[i]? = some ei → st.trace.reverse[j]? = some ej →
        ∀ (v : Nat) (x : Int), ei.cost[v]? = some x → x ≠ -1 →
          ej.cost[v]? = some x ∧ (ej.id = v → ej.val = x) := by
  obtain ⟨st, k, hrun, m, _, hinv, _, _⟩ := run_spec hwf hsrc hsched hfuel
  refine ⟨st, k, hrun, hinv.core.tr_head, ?_⟩
  intro i j ei ej hij hi hj v x hx hne
  have hpair : st.trace.reverse.Pairwise (fun a b => Frozen a.cost b.cost) :=
    List.pairwise_reverse.2 hinv.core.tr_pair
  have hfro : Frozen ei.cost ej.cost := by
    rcases Nat.lt_or_eq_of_le hij with hlt | heq
    · obtain ⟨hil, hie⟩ := List.getElem?_eq_some.1 hi
      obtain ⟨hjl, hje⟩ := List.getElem?_eq_some.1 hj
      have := (List.pairwise_iff_getElem.1 hpair) i j hil hjl hlt
      rw [hie, hje] at this
      exact this
    · subst heq
      rw [hi] at hj
      cases hj
      exact frozen_refl _
  have hv := hfro v x hx hne
  refine ⟨hv, ?_⟩
  intro hid
  have hmem : ej ∈ st.trace := List.mem_reverse.1 (List.getElem?_mem hj)
  have hval := hinv.core.tr_val ej hmem
  rw [hid, hv] at hval
  exact (Option.some.inj hval).symm

theorem C7_cost_write_once_witness :
    WellFormed cycleGraph ∧ InRange cycleGraph 0 ∧
    ValidSchedule cycleGraph (seqSchedule cycleGraph) ∧
    ∃ st k, BFSGraphSched (seqSchedule cycleGraph) 4 cycleGraph 0 = .ok (st, k) ∧
      (∃ e rest, st.trace = e :: rest ∧ e.cost = st.h_cost) ∧
      ∀ (i j : Nat) (ei ej : CostWrite), i ≤ j →
        st.trace.reverse[i]? = some ei → st.trace.reverse[j]? = some ej →
        ∀ (v : Nat) (x : Int), ei.cost[v]? = some x → x ≠ -1 →
          ej.cost[v]? = some x ∧ (ej.id = v → ej.val = x) :=
  ⟨by decide, by decide, validSchedule_seq _,
    C7_cost_write_once cycleGraph 0 (seqSchedule cycleGraph) 4
      (by decide) (by decide) (validSchedule_seq _) (by decide)⟩

theorem finalCost_eq_of_finished {g : Graph} {source : Int} {sched1 sched2 : Schedule}
    {fuel1 fuel2 : Nat} (hwf : WellFormed g) (hsrc : InRange g source)
    (h1 : ValidSchedule g sched1) (h2 : ValidSchedule g sched2)
    (hf1 : g.N ≤ fuel1) (hf2 : g.N ≤ fuel2) :
    finalCost (BFSGraphSched sched1 fuel1 g source) =
      finalCost (BFSGraphSched sched2 fuel2 g source) := by
  obtain ⟨st1, k1, hrun1, hfin1⟩ := run_spec hwf hsrc h1 hf1
  obtain ⟨st2, k2, hrun2, hfin2⟩ := run_spec hwf hsrc h2 hf2
  rw [hrun1, hrun2]
  show Except.ok st1.h_cost = Except.ok st2.h_cost
  rw [finished_cost_eq hfin1 hfin2]

/-- C8: on the 4-node path 0-1-2-3 (both directions stored) with source 0 the
final cost array is `[0,1,2,3]`, and with the edge 0-3 added it is
`[0,1,2,1]`, under every schedule and with any fuel of at least 4. -/
theorem C8_path_and_cycle_scenarios (sched1 sched2 : Schedule) (fuel : Nat)
    (h1 : ValidSchedule lineGraph sched1) (h2 : ValidSchedule cycleGraph sched2)
    (hfuel : 4 ≤ fuel) :
    finalCost (BFSGraphSched sched1 fuel lineGraph 0) = .ok [0, 1, 2, 3] ∧
    finalCost (BFSGraphSched sched2 fuel cycleGraph 0) = .ok [0, 1, 2, 1] := by
  constructor
  · rw [finalCost_eq_of_finished (by decide) (by decide) h1 (validSchedule_seq lineGraph)
      (show lineGraph.N ≤ fuel from hfuel) (show lineGraph.N ≤ 4 by decide)]
    rfl
  · rw [finalCost_eq_of_finished (by decide) (by decide) h2 (validSchedule_seq cycleGraph)
      (show cycleGraph.N ≤ fuel from hfuel) (show cycleGraph.N ≤ 4 by decide)]
    rfl

theorem C8_path_and_cycle_scenarios_witness :
    finalCost (BFSGraph 4 lineGraph 0) = .ok [0, 1, 2, 3] ∧
    finalCost (BFSGraph 4 cycleGraph 0) = .ok [0, 1, 2, 1] :=
  C8_path_and_cycle_scenarios (seqSchedule lineGraph) (seqSchedule cycleGraph) 4
    (validSchedule_seq _) (validSchedule_seq _) (by decide)

/-- C9: for a well-formed graph and an in-range source whose node has degree 0
or whose edge records all point back to the source, under every schedule the
run returns after exactly one level step and the final cost array is `-1`
everywhere except `0` at the source. -/
theorem C9_isolated_source (g : Graph) (source : Int) (sched : Schedule)
    (fuel : Nat) (hwf : WellFormed g) (hsrc : InRange g source)
    (hsched : ValidSchedule g sched) (hfuel : g.N ≤ fuel)
    (hiso : ∀ nd, g.h_graph_nodes[source.toNat]? = some nd →
      nd.no_of_edges = 0 ∨ ∀ i, i ∈ edgeIndices nd → g.h_graph_edges[i.toNat]? = some source) :
    ∃ st, BFSGraphSched sched fuel g source = .ok (st, 1) ∧
      st.h_cost = (List.replicate g.N (-1 : Int)).set source.toNat 0 := by
  obtain ⟨st, k, hrun, hfin⟩ := run_spec hwf hsrc hsched hfuel
  have hs0 := hsrc.1
  have hsN : source.toNat < g.N := by
    have := hsrc.2
    unfold Graph.N
    omega
  have hedge : ∀ v : Nat, HasEdge g source.toNat v → v = source.toNat := by
    rintro v ⟨nd, hnd, i, hi1, hi2, hiv⟩
    rcases hiso nd hnd with h0 | hall
    · omega
    · have := hall (i : Int) (mem_edgeIndices.2 ⟨hi1, hi2⟩)
      simp only [Int.toNat_ofNat] at this
      rw [hiv] at this
      have h3 := Option.some.inj this
      omega
  have hno1 : ¬ ∃ v, IsDist g source.toNat v 1 := by
    rintro ⟨v, hv⟩
    obtain ⟨hnot, u, hu, he⟩ := isDist_succ_iff.1 hv
    have hus := isDist_zero_iff.1 hu
    subst hus
    exact hnot (within_zero_iff.2 (hedge v he))
  have hreach : ∀ v : Nat, Reachable g source.toNat v → v = source.toNat := by
    rintro v ⟨n, hw⟩
    obtain ⟨d, _, hd⟩ := exists_isDist_of_walk hw
    by_cases hd0 : d = 0
    · subst hd0
      exact isDist_zero_iff.1 hd
    · obtain ⟨u, hu⟩ := exists_isDist_below d v hd 1 (by omega)
      exact absurd ⟨u, hu⟩ hno1
  have hk : k = 1 := by
    obtain ⟨m, rfl, _, hlev, _⟩ := hfin
    by_contra hne
    obtain ⟨v, _, hv⟩ := hlev 1 (by omega)
    exact hno1 ⟨v, hv⟩
  subst hk
  refine ⟨st, hrun, ?_⟩
  have hlen : st.h_cost.length = g.N := by
    obtain ⟨m, _, hinv, _, _⟩ := hfin
    exact hinv.core.len_cost
  apply List.ext_getElem?
  intro v
  by_cases hv : v < g.N
  · by_cases hvs : source.toNat = v
    · subst hvs
      rw [finished_cost_dist hfin (isDist_zero _),
        List.getElem?_set_self (by simpa using hsN)]
      rfl
    · rw [finished_cost_unreached hfin hv (fun hr => hvs (hreach v hr).symm),
        List.getElem?_set_ne hvs, List.getElem?_replicate_of_lt hv]
  · rw [List.getElem?_eq_none (by omega), List.getElem?_eq_none (by simp; omega)]

theorem C9_isolated_source_witness :
    WellFormed selfLoopGraph ∧ InRange selfLoopGraph 0 ∧
    ValidSchedule selfLoopGraph (seqSchedule selfLoopGraph) ∧
    ∃ st, BFSGraphSched (seqSchedule selfLoopGraph) 1 selfLoopGraph 0 = .ok (st, 1) ∧
      st.h_cost = (List.replicate selfLoopGraph.N (-1 : Int)).set (0 : Int).toNat 0 :=
  ⟨by decide, by decide, validSchedule_seq _,
    C9_isolated_source selfLoopGraph 0 (seqSchedule selfLoopGraph) 1
      (by decide) (by decide) (validSchedule_seq _) (by decide)
      (by
        intro nd hnd
        have hnd2 : nd = ⟨0, 2⟩ := by
          have : selfLoopGraph.h_graph_nodes[(0 : Int).toNat]? = some ⟨0, 2⟩ := rfl
          rw [this] at hnd
          exact (Option.some.inj hnd).symm
        subst hnd2
        right
        decide)⟩

/-! ## The builder: generation loop -/

theorem toInt32_of_lt {x : Int} (h0 : 0 ≤ x) (h1 : x < 2 ^ 31) : toInt32 x = x := by
  unfold toInt32
  omega

theorem toInt32_lt (x : Int) : toInt32 x < 2 ^ 31 := by
  unfold toInt32
  omega

theorem toUInt64_of_lt31 {x : Int} (h0 : 0 ≤ x) (h1 : x < 2 ^ 31) : toUInt64 x = x.toNat := by
  unfold toUInt64
  congr 1
  omega

theorem toUInt64_of_lt {x : Int} (h0 : 0 ≤ x) (h1 : x < 2 ^ 64) : toUInt64 x = x.toNat := by
  unfold toUInt64
  congr 1
  omega

theorem toUInt32_of_lt {x : Int} (h0 : 0 ≤ x) (h1 : x < 2 ^ 32) : toUInt32 x = x.toNat := by
  unfold toUInt32
  congr 1
  omega

theorem flatten_length_set {α : Type} (L : List (List α)) (i : Nat) (l l2 : List α)
    (h : L[i]? = some l) :
    (L.set i l2).flatten.length + l.length = L.flatten.length + l2.length := by
  induction L generalizing i with
  | nil => simp at h
  | cons a L ih =>
    cases i with
    | zero =>
      simp only [List.getElem?_cons_zero, Option.some.injEq] at h
      subst h
      simp only [List.set_cons_zero, List.flatten_cons, List.length_append]
      omega
    | succ i =>
      simp only [List.getElem?_cons_succ] at h
      have := ih i h
      simp only [List.set_cons_succ, List.flatten_cons, List.length_append]
      omega

theorem pushBack_spec (graph : List (List edge)) (i : Nat) (e : edge) (hi : i < graph.length) :
    ∃ g2, pushBack graph i e = .ok g2 ∧ g2.length = graph.length ∧
      g2.flatten.length = graph.flatten.length + 1 := by
  obtain ⟨l, hl⟩ := getElem?_of_lt hi
  refine ⟨graph.set i (l ++ [e]), ?_, by simp, ?_⟩
  · simp [pushBack, hl]
  · have := flatten_length_set graph i l (l ++ [e]) hl
    simp only [List.length_append, List.length_singleton] at this
    omega

theorem genEdge_spec (rand randNode : Nat → Nat) (i : Nat) (st : GenState) (j : Nat)
    (hi : i < st.graph.length) (hd : randNode st.n < st.graph.length) :
    ∃ st2, genEdge rand randNode i st j = .ok st2 ∧ st2.graph.length = st.graph.length ∧
      st2.graph.flatten.length = st.graph.flatten.length + 2 ∧
      st2.r = st.r + 1 ∧ st2.n = st.n + 1 := by
  obtain ⟨g1, h1, hl1, hf1⟩ :=
    pushBack_spec st.graph i
      ⟨randNode st.n, rand st.r % (MAX_WEIGHT - MIN_WEIGHT + 1) + MIN_WEIGHT⟩ hi
  obtain ⟨g2, h2, hl2, hf2⟩ :=
    pushBack_spec g1 (randNode st.n)
      ⟨i, rand st.r % (MAX_WEIGHT - MIN_WEIGHT + 1) + MIN_WEIGHT⟩ (by omega)
  refine ⟨{ graph := g2, r := st.r + 1, n := st.n + 1 }, ?_, ?_, ?_, rfl, rfl⟩
  · simp only [genEdge, h1, h2, bind, Except.bind, pure, Except.pure]
  · show g2.length = st.graph.length
    omega
  · show g2.flatten.length = st.graph.flatten.length + 2
    omega

theorem genEdge_fold_spec (rand : Nat → Nat) {randNode : Nat → Nat} {i N : Nat}
    (hdraw : ∀ n, randNode n < N) (hi : i < N) :
    ∀ (js : List Nat) (st : GenState), st.graph.length = N →
      ∃ st2, js.foldlM (genEdge rand randNode i) st = .ok st2 ∧ st2.graph.length = N ∧
        st2.graph.flatten.length = st.graph.flatten.length + 2 * js.length ∧
        st2.r = st.r + js.length := by
  intro js
  induction js with
  | nil =>
    intro st hst
    exact ⟨st, rfl, hst, by simp, by simp⟩
  | cons j js ih =>
    intro st hst
    obtain ⟨st1, h1, hl1, hf1, hr1, _⟩ :=
      genEdge_spec rand randNode i st j
        (by omega) (by rw [hst]; exact hdraw _)
    obtain ⟨st2, h2, hl2, hf2, hr2⟩ := ih st1 (by omega)
    refine ⟨st2, ?_, hl2, ?_, ?_⟩
    · rw [List.foldlM_cons, h1]
      exact h2
    · simp only [List.length_cons]
      omega
    · simp only [List.length_cons]
      omega

theorem genNode_spec (rand : Nat → Nat) {randNode : Nat → Nat} {i N : Nat}
    (hdraw : ∀ n, randNode n < N) (hi : i < N) (st : GenState) (hst : st.graph.length = N) :
    ∃ st2, genNode rand randNode st i = .ok st2 ∧ st2.graph.length = N ∧
      st2.graph.flatten.length =
        st.graph.flatten.length + 2 * (rand st.r % 3 + 2) := by
  obtain ⟨st2, h2, hl2, hf2, _⟩ :=
    genEdge_fold_spec rand hdraw hi
      (List.range (rand st.r % (MAX_INIT_EDGES - MIN_EDGES + 1) + MIN_EDGES))
      { st with r := st.r + 1 } hst
  refine ⟨st2, h2, hl2, ?_⟩
  rw [hf2, List.length_range]
  rfl

theorem genNode_fold_spec {rand randNode : Nat → Nat} {N lo hi : Nat}
    (hdraw : ∀ n, randNode n < N)
    (hlo : ∀ n, lo ≤ rand n % 3 + 2) (hhi : ∀ n, rand n % 3 + 2 ≤ hi) :
    ∀ (l : List Nat) (st : GenState), (∀ i, i ∈ l → i < N) → st.graph.length = N →
      ∃ st2, l.foldlM (genNode rand randNode) st = .ok st2 ∧ st2.graph.length = N ∧
        st.graph.flatten.length + 2 * lo * l.length ≤ st2.graph.flatten.length ∧
        st2.graph.flatten.length ≤ st.graph.flatten.length + 2 * hi * l.length := by
  intro l
  induction l with
  | nil =>
    intro st _ hst
    exact ⟨st, rfl, hst, by simp, by simp⟩
  | cons a l ih =>
    intro st hl hst
    obtain ⟨st1, h1, hl1, hf1⟩ :=
      genNode_spec rand hdraw (hl a (List.mem_cons_self _ _)) st hst
    obtain ⟨st2, h2, hl2, hf2, hf3⟩ :=
      ih st1 (fun i hi => hl i (List.mem_cons_of_mem _ hi)) hl1
    refine ⟨st2, ?_, hl2, ?_, ?_⟩
    · rw [List.foldlM_cons, h1]
      exact h2
    · have := hlo st.r
      simp only [List.length_cons]
      rw [Nat.mul_succ]
      omega
    · have := hhi st.r
      simp only [List.length_cons]
      rw [Nat.mul_succ]
      omega

/-! ## The builder: compressed output -/

/-- The generation loop returns; the graph has `N` adjacency lists and
between `2 * lo * N` and `2 * hi * N` edge records when every drawn number of
edges lies between `lo` and `hi`. -/
theorem generate_spec (rand randNode : Nat → Nat) (N lo hi : Nat)
    (hdraw : ∀ n, randNode n < N)
    (hlo : ∀ n, lo ≤ rand n % 3 + 2) (hhi : ∀ n, rand n % 3 + 2 ≤ hi) :
    ∃ st, generate rand randNode N = .ok st ∧ st.graph.length = N ∧
      2 * lo * N ≤ st.graph.flatten.length ∧ st.graph.flatten.length ≤ 2 * hi * N := by
  obtain ⟨st, h, hl, hf1, hf2⟩ :=
    genNode_fold_spec hdraw hlo hhi (List.range N)
      { graph := List.replicate N [], r := 0, n := 0 }
      (fun i hi => List.mem_range.1 hi) (by simp)
  have h0 : (List.replicate N ([] : List edge)).flatten.length = 0 := by
    induction N with
    | zero => rfl
    | succ n ih => simp [List.replicate_succ]
  simp only [h0, List.length_range] at hf1 hf2
  exact ⟨st, h, hl, by omega, by omega⟩

theorem prefixTable_length {α : Type} (L : List (List α)) :
    ∀ t, (prefixTable t L).length = L.length := by
  induction L with
  | nil => intro t; rfl
  | cons a L ih => intro t; simp [prefixTable, ih]

theorem prefixTable_map {α β : Type} (f : α → β) (L : List (List α)) :
    ∀ t, prefixTable t (L.map (List.map f)) = prefixTable t L := by
  induction L with
  | nil => intro t; rfl
  | cons a L ih => intro t; simp [prefixTable, ih]

theorem prefixTable_getElem? {α : Type} (L : List (List α)) :
    ∀ (t i : Nat) (l : List α), L[i]? = some l →
      (prefixTable t L)[i]? = some (t + (L.take i).flatten.length, l.length) := by
  induction L with
  | nil => intro t i l h; simp at h
  | cons a L ih =>
    intro t i l h
    cases i with
    | zero =>
      simp only [List.getElem?_cons_zero, Option.some.injEq] at h
      subst h
      simp [prefixTable]
    | succ i =>
      simp only [List.getElem?_cons_succ] at h
      have := ih (t + a.length) i l h
      simp only [prefixTable, List.getElem?_cons_succ, this, List.take_succ_cons,
        List.flatten_cons, List.length_append]
      congr 2
      omega

theorem take_succ_flatten_length {α : Type} (L : List (List α)) :
    ∀ (i : Nat) (l : List α), L[i]? = some l →
      (L.take (i + 1)).flatten.length = (L.take i).flatten.length + l.length := by
  induction L with
  | nil => intro i l h; simp at h
  | cons a L ih =>
    intro i l h
    cases i with
    | zero =>
      simp only [List.getElem?_cons_zero, Option.some.injEq] at h
      subst h
      simp
    | succ i =>
      simp only [List.getElem?_cons_succ] at h
      have := ih i l h
      simp only [List.take_succ_cons, List.flatten_cons, List.length_append]
      omega

theorem flatten_getElem?_segment {α : Type} (L : List (List α)) :
    ∀ (i : Nat) (l : List α), L[i]? = some l → ∀ (j : Nat) (x : α), l[j]? = some x →
      L.flatten[(L.take i).flatten.length + j]? = some x := by
  induction L with
  | nil => intro i l h; simp at h
  | cons a L ih =>
    intro i l h j x hx
    cases i with
    | zero =>
      simp only [List.getElem?_cons_zero, Option.some.injEq] at h
      subst h
      simp only [List.take_zero, List.flatten_nil, List.length_nil, Nat.zero_add,
        List.flatten_cons]
      rw [List.getElem?_append_left (lt_of_getElem? hx)]
      exact hx
    | succ i =>
      simp only [List.getElem?_cons_succ] at h
      have := ih i l h j x hx
      simp only [List.take_succ_cons, List.flatten_cons, List.length_append]
      rw [List.getElem?_append_right (by omega)]
      rw [← this]
      congr 1
      omega

/-- The offset table, the total length and the concatenation of non-empty
`adj` are its packed form. -/
theorem packedForm_prefixTable {α : Type} (adj : List (List α)) (hne : 0 < adj.length) :
    PackedForm adj ((prefixTable 0 adj).map (fun p => ((p.1 : Int), (p.2 : Int))))
      (adj.flatten.length : Int) adj.flatten := by
  have hget : ∀ (i : Nat) (l : List α), adj[i]? = some l →
      ((prefixTable 0 adj).map (fun p => ((p.1 : Int), (p.2 : Int))))[i]? =
        some ((((adj.take i).flatten.length : Nat) : Int), (l.length : Int)) := by
    intro i l h
    rw [List.getElem?_map, prefixTable_getElem? adj 0 i l h]
    simp
  refine ⟨by simp [prefixTable_length], by omega, (Int.toNat_ofNat _).symm, ?_, ?_, ?_, ?_⟩
  · obtain ⟨l, hl⟩ := getElem?_of_lt hne
    exact ⟨_, hget 0 l hl, by simp⟩
  · intro i hi
    obtain ⟨l, hl⟩ := getElem?_of_lt (show i < adj.length by omega)
    obtain ⟨l2, hl2⟩ := getElem?_of_lt hi
    refine ⟨_, _, hget i l hl, hget (i + 1) l2 hl2, ?_⟩
    show (((adj.take (i + 1)).flatten.length : Nat) : Int) = _
    rw [take_succ_flatten_length adj i l hl]
    push_cast
    rfl
  · intro i l hl
    refine ⟨_, hget i l hl, rfl, ?_⟩
    intro j x hx
    have := flatten_getElem?_segment adj i l hl j x hx
    rw [← this]
    congr 1
  · obtain ⟨l, hl⟩ := getElem?_of_lt (show adj.length - 1 < adj.length by omega)
    refine ⟨_, hget (adj.length - 1) l hl, ?_⟩
    have h1 := take_succ_flatten_length adj (adj.length - 1) l hl
    have h2 : adj.length - 1 + 1 = adj.length := by omega
    rw [h2, List.take_length] at h1
    show ((adj.flatten.length : Nat) : Int) = _
    rw [h1]
    push_cast
    rfl

/-- An invariant kept by every successful step holds after a successful fold. -/
theorem foldlM_preserve {σ ι : Type} (f : σ → ι → Except Fault σ) (I : σ → Prop)
    (l : List ι) (hstep : ∀ s i s2, i ∈ l → f s i = .ok s2 → I s → I s2) :
    ∀ s s2, l.foldlM f s = .ok s2 → I s → I s2 := by
  induction l with
  | nil =>
    intro s s2 h hs
    cases h
    exact hs
  | cons a l ih =>
    intro s s2 h hs
    rw [List.foldlM_cons] at h
    cases h1 : f s a with
    | error e =>
      rw [h1] at h
      cases h
    | ok s1 =>
      rw [h1] at h
      exact ih (fun s i s2 hi => hstep s i s2 (List.mem_cons_of_mem _ hi)) s1 s2 h
        (hstep s a s1 (List.mem_cons_self _ _) h1 hs)

theorem pushBack_dests {N : Nat} {graph g2 : List (List edge)} {i : Nat} {e : edge}
    (h : pushBack graph i e = .ok g2) (hg : DestsBelow N graph) (he : e.dest < N) :
    DestsBelow N g2 := by
  unfold pushBack at h
  cases hl : graph[i]? with
  | none =>
    rw [hl] at h
    cases h
  | some l =>
    rw [hl] at h
    cases h
    intro l2 hl2 x hx
    rcases List.mem_or_eq_of_mem_set hl2 with hmem | heq
    · exact hg l2 hmem x hx
    · subst heq
      rcases List.mem_append.1 hx with hx1 | hx1
      · exact hg l (List.getElem?_mem hl) x hx1
      · simp only [List.mem_singleton] at hx1
        subst hx1
        exact he

theorem genEdge_dests {rand randNode : Nat → Nat} {N i j : Nat} {st st2 : GenState}
    (hdraw : ∀ n, randNode n < N) (hi : i < N)
    (h : genEdge rand randNode i st j = .ok st2) (hg : DestsBelow N st.graph) :
    DestsBelow N st2.graph := by
  unfold genEdge at h
  cases h1 : pushBack st.graph i
      ⟨randNode st.n, rand st.r % (MAX_WEIGHT - MIN_WEIGHT + 1) + MIN_WEIGHT⟩ with
  | error e =>
    simp [h1, bind, Except.bind] at h
  | ok g1 =>
    cases h2 : pushBack g1 (randNode st.n)
        ⟨i, rand st.r % (MAX_WEIGHT - MIN_WEIGHT + 1) + MIN_WEIGHT⟩ with
    | error e =>
      simp [h1, h2, bind, Except.bind] at h
    | ok g2 =>
      simp only [h1, h2, bind, Except.bind, pure, Except.pure] at h
      cases h
      exact pushBack_dests h2 (pushBack_dests h1 hg (hdraw _)) hi

theorem generate_dests {rand randNode : Nat → Nat} {N : Nat} {st : GenState}
    (hdraw : ∀ n, randNode n < N) (h : generate rand randNode N = .ok st) :
    DestsBelow N st.graph := by
  refine foldlM_preserve (genNode rand randNode) (fun s => DestsBelow N s.graph)
    (List.range N) ?_ _ st h ?_
  · intro s i s2 hi hs hinv
    unfold genNode at hs
    refine foldlM_preserve (genEdge rand randNode i) (fun s => DestsBelow N s.graph) _ ?_
      _ s2 hs hinv
    intro a j a2 _ ha hinva
    exact genEdge_dests hdraw (List.mem_range.1 hi) ha hinva
  · intro l hl e he
    have := List.eq_of_mem_replicate hl
    subst this
    cases he

theorem nodeStep_foldl (graph : List (List edge)) :
    ∀ (ns : List Node) (t : Nat), (t : Int) + graph.flatten.length < 2 ^ 31 →
      graph.foldl nodeStep (ns, t) =
        (ns ++ (prefixTable t graph).map (fun p => (⟨(p.1 : Int), (p.2 : Int)⟩ : Node)),
          t + graph.flatten.length) := by
  induction graph with
  | nil =>
    intro ns t _
    simp [prefixTable]
  | cons l rest ih =>
    intro ns t h
    simp only [List.flatten_cons, List.length_append] at h
    push_cast at h
    have h1 : toInt32 (l.length : Int) = (l.length : Int) :=
      toInt32_of_lt (by omega) (by omega)
    have h2 : toInt32 (t : Int) = (t : Int) := toInt32_of_lt (by omega) (by omega)
    have h3 : toUInt64 ((t : Int) + (l.length : Int)) = t + l.length := by
      rw [toUInt64_of_lt31 (by omega) (by omega)]
      omega
    simp only [List.foldl_cons, nodeStep, h1, h2, h3]
    rw [ih _ _ (by push_cast; omega)]
    simp only [prefixTable, List.map_cons, List.flatten_cons, List.length_append,
      List.append_assoc, List.singleton_append]
    rw [Nat.add_assoc]

theorem lineStep_foldl (graph : List (List edge)) :
    ∀ (ns : List (Nat × Nat)) (t : Nat), (t : Int) + graph.flatten.length < 2 ^ 31 →
      graph.foldl lineStep (ns, t) = (ns ++ prefixTable t graph, t + graph.flatten.length) := by
  induction graph with
  | nil =>
    intro ns t _
    simp [prefixTable]
  | cons l rest ih =>
    intro ns t h
    simp only [List.flatten_cons, List.length_append] at h
    push_cast at h
    have h1 : toUInt32 (l.length : Int) = l.length := by
      rw [toUInt32_of_lt (by omega) (by omega)]
      omega
    have h3 : toUInt64 (((t + l.length : Nat) : Int)) = t + l.length := by
      rw [toUInt64_of_lt31 (by omega) (by push_cast; omega)]
      omega
    simp only [List.foldl_cons, lineStep, h1]
    rw [show ((t : Int) + ((l.length : Nat) : Int)) = ((t + l.length : Nat) : Int) by push_cast; rfl,
      h3]
    rw [ih _ _ (by push_cast; omega)]
    simp only [prefixTable, List.flatten_cons, List.length_append,
      List.append_assoc, List.singleton_append]
    rw [Nat.add_assoc]

theorem writeDest_fold_ok :
    ∀ (xs : List edge) (arr : List Int) (k : Nat), k + xs.length ≤ arr.length →
      ∃ arr2, xs.foldlM writeDest (arr, k) = .ok (arr2, k + xs.length) ∧
        arr2.length = arr.length ∧
        (∀ j : Nat, j < k → arr2[j]? = arr[j]?) ∧
        (∀ j : Nat, j < xs.length →
          arr2[k + j]? = (xs[j]?).map (fun e => toInt32 e.dest)) := by
  intro xs
  induction xs with
  | nil =>
    intro arr k _
    exact ⟨arr, rfl, rfl, fun _ _ => rfl, fun j hj => by simp at hj⟩
  | cons x xs ih =>
    intro arr k h
    simp only [List.length_cons] at h
    have hk : k < arr.length := by omega
    obtain ⟨arr2, h2, hl2, hlow, hseg⟩ :=
      ih (arr.set k (toInt32 x.dest)) (k + 1) (by rw [List.length_set]; omega)
    rw [List.length_set] at hl2
    refine ⟨arr2, ?_, hl2, ?_, ?_⟩
    · rw [List.foldlM_cons]
      simp only [writeDest, writeAt_ok _ hk, bind, Except.bind, pure, Except.pure]
      rw [h2]
      simp only [List.length_cons]
      rw [show k + 1 + xs.length = k + (xs.length + 1) by omega]
    · intro j hj
      rw [hlow j (by omega), List.getElem?_set_ne (by omega)]
    · intro j hj
      cases j with
      | zero =>
        rw [Nat.add_zero, hlow k (by omega), List.getElem?_set_self hk]
        simp
      | succ j =>
        simp only [List.length_cons] at hj
        have := hseg j (by omega)
        rw [show k + (j + 1) = k + 1 + j by omega, this]
        simp

theorem writeDest_fold_error :
    ∀ (xs : List edge) (arr : List Int) (k : Nat), k ≤ arr.length →
      arr.length < k + xs.length →
      xs.foldlM writeDest (arr, k) = .error .outOfBounds := by
  intro xs
  induction xs with
  | nil =>
    intro arr k h1 h2
    simp at h2
    omega
  | cons x xs ih =>
    intro arr k h1 h2
    simp only [List.length_cons] at h2
    rw [List.foldlM_cons]
    by_cases hk : k < arr.length
    · simp only [writeDest, writeAt_ok _ hk, bind, Except.bind, pure, Except.pure]
      exact ih _ _ (by rw [List.length_set]; omega) (by rw [List.length_set]; omega)
    · have : writeAt arr (k : Int) (toInt32 x.dest) = .error .outOfBounds := by
        simp [writeAt, hk]
      simp only [writeDest, this, bind, Except.bind]

theorem writeDest_fill (xs : List edge) :
    xs.foldlM writeDest (List.replicate xs.length (0 : Int), 0) =
      .ok (xs.map (fun e => toInt32 e.dest), xs.length) := by
  obtain ⟨arr2, h, hl, _, hseg⟩ :=
    writeDest_fold_ok xs (List.replicate xs.length (0 : Int)) 0 (by simp)
  have harr : arr2 = xs.map (fun e => toInt32 e.dest) := by
    apply List.ext_getElem?
    intro j
    by_cases hj : j < xs.length
    · have := hseg j hj
      rw [Nat.zero_add] at this
      rw [this, List.getElem?_map]
    · rw [List.getElem?_eq_none (by rw [hl]; simp; omega),
        List.getElem?_eq_none (by simp; omega)]
  rw [h, harr, Nat.zero_add]

theorem length_le_flatten_length {α : Type} (L : List (List α)) :
    ∀ l, l ∈ L → l.length ≤ L.flatten.length := by
  induction L with
  | nil => intro l h; cases h
  | cons a L ih =>
    intro l h
    simp only [List.flatten_cons, List.length_append]
    rcases List.mem_cons.1 h with rfl | h
    · omega
    · have := ih l h
      omega

/-- The mathematical content of the output of `generate_random_graph` while
the number of edge records fits in `int`. -/
theorem generate_random_graph_ok {rand randNode : Nat → Nat} {no_of_nodes : Int}
    {st : GenState} (hN : 20 ≤ no_of_nodes) (hlt : no_of_nodes < 2 ^ 31)
    (hdraw : ∀ n, randNode n < no_of_nodes.toNat)
    (hgen : generate rand randNode no_of_nodes.toNat = .ok st)
    (hfit : (st.graph.flatten.length : Int) < 2 ^ 31) :
    generate_random_graph rand randNode no_of_nodes =
      .ok ({ no_of_nodes := no_of_nodes
             h_graph_nodes :=
               (prefixTable 0 st.graph).map (fun p => (⟨(p.1 : Int), (p.2 : Int)⟩ : Node))
             edge_list_size := (st.graph.flatten.length : Int)
             h_graph_edges := st.graph.flatten.map (fun e => (e.dest : Int)) },
        toInt32 (randNode st.n)) := by
  have hguard : ¬ (no_of_nodes < MIN_NODES ∨ toUInt64 no_of_nodes > MAX_NODES) := by
    rw [toUInt64_of_lt31 (by omega) hlt]
    unfold MIN_NODES MAX_NODES
    omega
  have htable := nodeStep_foldl st.graph [] 0 (by push_cast; omega)
  have hsize : toInt32 ((0 + st.graph.flatten.length : Nat) : Int) =
      (st.graph.flatten.length : Int) := by
    rw [Nat.zero_add]
    exact toInt32_of_lt (by omega) hfit
  have hdests : st.graph.flatten.map (fun e => toInt32 (e.dest : Int)) =
      st.graph.flatten.map (fun e => (e.dest : Int)) := by
    apply List.map_congr_left
    intro e he
    obtain ⟨l, hl, hel⟩ := List.mem_flatten.1 he
    have := generate_dests hdraw hgen l hl e hel
    exact toInt32_of_lt (by omega) (by omega)
  unfold generate_random_graph
  simp only [hguard, if_false, hgen, nodeTable, htable, hsize, Int.toNat_ofNat, writeDest_fill,
    hdests, bind, Except.bind, pure, Except.pure, List.nil_append]

/-- When the generated edge records do not fit in `int`, the loop filling
`h_graph_edges` writes past the allocation. -/
theorem generate_random_graph_overflow {rand randNode : Nat → Nat} {no_of_nodes : Int}
    {st : GenState} (hN : 20 ≤ no_of_nodes) (hlt : no_of_nodes < 2 ^ 31)
    (hgen : generate rand randNode no_of_nodes.toNat = .ok st)
    (hbig : (2 : Int) ^ 31 ≤ (st.graph.flatten.length : Int)) :
    generate_random_graph rand randNode no_of_nodes = .error .outOfBounds := by
  have hguard : ¬ (no_of_nodes < MIN_NODES ∨ toUInt64 no_of_nodes > MAX_NODES) := by
    rw [toUInt64_of_lt31 (by omega) hlt]
    unfold MIN_NODES MAX_NODES
    omega
  unfold generate_random_graph
  cases hnt : nodeTable st.graph with
  | mk nodes total =>
    have hfail := writeDest_fold_error st.graph.flatten
      (List.replicate (toInt32 (total : Int)).toNat (0 : Int)) 0 (Nat.zero_le _)
      (by
        have := toInt32_lt (total : Int)
        rw [List.length_replicate]
        omega)
    simp only [hguard, if_false, hgen, hnt, hfail, bind, Except.bind, pure, Except.pure]

/-- The mathematical content of the output of `graphgen` while the number of
edge records fits in 31 bits. -/
theorem graphgen_ok {rand randNode : Nat → Nat} {numNodes : Nat}
    {st : GenState} (hlt : (numNodes : Int) < 2 ^ 31)
    (hgen : generate rand randNode numNodes = .ok st)
    (hfit : (st.graph.flatten.length : Int) < 2 ^ 31) :
    graphgen rand randNode numNodes =
      .ok { numNodes := numNodes
            nodeLines := prefixTable 0 st.graph
            source := randNode st.n
            totalEdges := st.graph.flatten.length
            edgeLines := st.graph.flatten.map (fun e => (e.dest, e.weight)) } := by
  have hguard : ¬ (2 ^ 32 ≤ numNodes ∨ ∃ l, l ∈ st.graph ∧ 2 ^ 32 ≤ l.length) := by
    rintro (h | ⟨l, hl, h⟩)
    · omega
    · have := length_le_flatten_length st.graph l hl
      omega
  have htable := lineStep_foldl st.graph [] 0 (by push_cast; omega)
  unfold graphgen
  simp only [hgen, hguard, if_false, htable, bind, Except.bind, pure, Except.pure,
    List.nil_append, Nat.zero_add]

/-- C10, as stated, fails: with `2^28` nodes and every call of `rand()`
returning 2 (four drawn edges per node, all towards node 0), `2^31` edge
records are generated; their count does not fit in `int`, and
`generate_random_graph` writes past the end of `h_graph_edges` instead of
producing the packed arrays. -/
theorem C10_counterexample :
    (20 : Int) ≤ 268435456 ∧
    (∀ n : Nat, (fun _ : Nat => (0 : Nat)) n < (268435456 : Int).toNat) ∧
    generate_random_graph (fun _ => 2) (fun _ => 0) 268435456 = .error .outOfBounds := by
  have hdraw : ∀ n : Nat, (fun _ : Nat => (0 : Nat)) n < (268435456 : Int).toNat := by
    intro n
    show 0 < (268435456 : Int).toNat
    omega
  refine ⟨by omega, hdraw, ?_⟩
  obtain ⟨st, hgen, _, hlow, _⟩ :=
    generate_spec (fun _ => 2) (fun _ => 0) (268435456 : Int).toNat 4 4 hdraw
      (fun _ => Nat.le_refl _) (fun _ => Nat.le_refl _)
  refine generate_random_graph_overflow (by omega) (by omega) hgen ?_
  have h28 : (268435456 : Int).toNat = 268435456 := rfl
  rw [h28] at hlow
  omega

/-- C10, amended: for every node count `N` with `20 <= N` and `8 * N` at most
`INT_MAX`, and every sequence of random draws (destinations in `[0, N)`), the
generation loop returns `N` adjacency lists, and both the arrays produced by
`generate_random_graph` and the lines written by `graphgen` are the tightly
packed compressed form of these lists: `starting[0] = 0`,
`starting[i+1] = starting[i] + degree[i]`, `degree[i]` is the length of list
`i`, the edge count is `starting[N-1] + degree[N-1]`, and the records at
positions `starting[i], ..., starting[i] + degree[i] - 1` are list `i` in
insertion order. -/
theorem C10_builder_output_tightly_packed (rand randNode : Nat → Nat) (no_of_nodes : Int)
    (hN : 20 ≤ no_of_nodes) (hfit : 8 * no_of_nodes < 2 ^ 31)
    (hdraw : ∀ n, randNode n < no_of_nodes.toNat) :
    ∃ st g source file,
      generate rand randNode no_of_nodes.toNat = .ok st ∧
      st.graph.length = no_of_nodes.toNat ∧
      generate_random_graph rand randNode no_of_nodes = .ok (g, source) ∧
      graphgen rand randNode no_of_nodes.toNat = .ok file ∧
      g.no_of_nodes = no_of_nodes ∧ file.numNodes = no_of_nodes.toNat ∧
      PackedForm (st.graph.map (List.map (fun e => (e.dest : Int))))
        (g.h_graph_nodes.map (fun nd => (nd.starting, nd.no_of_edges)))
        g.edge_list_size g.h_graph_edges ∧
      PackedForm (st.graph.map (List.map (fun e => (e.dest, e.weight))))
        (file.nodeLines.map (fun p => ((p.1 : Int), (p.2 : Int))))
        (file.totalEdges : Int) file.edgeLines := by
  obtain ⟨st, hgen, hlen, _, hhi⟩ :=
    generate_spec rand randNode no_of_nodes.toNat 2 4 hdraw
      (fun n => by omega) (fun n => by omega)
  have hfit2 : (st.graph.flatten.length : Int) < 2 ^ 31 := by omega
  have hpos : 0 < st.graph.length := by omega
  refine ⟨st, _, _, _, hgen, hlen,
    generate_random_graph_ok hN (by omega) hdraw hgen hfit2,
    graphgen_ok (by omega) hgen hfit2, rfl, rfl, ?_, ?_⟩
  · have h := packedForm_prefixTable (st.graph.map (List.map (fun e => (e.dest : Int))))
      (by simpa using hpos)
    rw [prefixTable_map, ← List.map_flatten, List.length_map] at h
    simpa [List.map_map, Function.comp_def] using h
  · have h := packedForm_prefixTable (st.graph.map (List.map (fun e => (e.dest, e.weight))))
      (by simpa using hpos)
    rw [prefixTable_map, ← List.map_flatten, List.length_map] at h
    exact h

theorem C10_builder_output_tightly_packed_witness :
    ∃ st g source file,
      generate (fun k => k) (fun k => (7 * k + 3) % 20) (20 : Int).toNat = .ok st ∧
      st.graph.length = (20 : Int).toNat ∧
      generate_random_graph (fun k => k) (fun k => (7 * k + 3) % 20) 20 = .ok (g, source) ∧
      graphgen (fun k => k) (fun k => (7 * k + 3) % 20) (20 : Int).toNat = .ok file ∧
      g.no_of_nodes = 20 ∧ file.numNodes = (20 : Int).toNat ∧
      PackedForm (st.graph.map (List.map (fun e => (e.dest : Int))))
        (g.h_graph_nodes.map (fun nd => (nd.starting, nd.no_of_edges)))
        g.edge_list_size g.h_graph_edges ∧
      PackedForm (st.graph.map (List.map (fun e => (e.dest, e.weight))))
        (file.nodeLines.map (fun p => ((p.1 : Int), (p.2 : Int))))
        (file.totalEdges : Int) file.edgeLines :=
  C10_builder_output_tightly_packed (fun k => k) (fun k => (7 * k + 3) % 20) 20
    (by decide) (by decide) (fun n => Nat.mod_lt _ (by decide))

/-! ## The builder: symmetry of the generated multigraph -/

theorem pushBack_adjOf {graph g2 : List (List edge)} {i : Nat} {e : edge}
    (h : pushBack graph i e = .ok g2) (k : Nat) :
    adjOf g2 k = if k = i then adjOf graph i ++ [e] else adjOf graph k := by
  unfold pushBack at h
  cases hl : graph[i]? with
  | none =>
    rw [hl] at h
    cases h
  | some l =>
    rw [hl] at h
    cases h
    unfold adjOf
    by_cases hk : k = i
    · subst hk
      rw [if_pos rfl, List.getElem?_set_self (lt_of_getElem? hl), hl]
      rfl
    · rw [if_neg hk, List.getElem?_set_ne (fun h2 => hk h2.symm)]

theorem pushBack_edgeCount {graph g2 : List (List edge)} {i : Nat} {e : edge}
    (h : pushBack graph i e = .ok g2) (a b w : Nat) :
    edgeCount g2 a b w =
      edgeCount graph a b w + (if a = i ∧ e.dest = b ∧ e.weight = w then 1 else 0) := by
  unfold edgeCount
  rw [pushBack_adjOf h a]
  by_cases ha : a = i
  · subst ha
    rw [if_pos rfl, List.countP_append]
    by_cases he : e.dest = b ∧ e.weight = w
    · simp [he]
    · have he2 : ¬ (a = a ∧ e.dest = b ∧ e.weight = w) := fun h3 => he h3.2
      simp only [List.countP_cons, List.countP_nil, he, he2, decide_False, if_false,
        Nat.zero_add]
      simp
  · have he2 : ¬ (a = i ∧ e.dest = b ∧ e.weight = w) := fun h3 => ha h3.1
    rw [if_neg ha, if_neg he2, Nat.add_zero]

theorem genEdge_symmetric {rand randNode : Nat → Nat} {i j : Nat} {st st2 : GenState}
    (h : genEdge rand randNode i st j = .ok st2) (hsym : Symmetric st.graph) :
    Symmetric st2.graph := by
  unfold genEdge at h
  cases h1 : pushBack st.graph i
      ⟨randNode st.n, rand st.r % (MAX_WEIGHT - MIN_WEIGHT + 1) + MIN_WEIGHT⟩ with
  | error e =>
    simp [h1, bind, Except.bind] at h
  | ok g1 =>
    cases h2 : pushBack g1 (randNode st.n)
        ⟨i, rand st.r % (MAX_WEIGHT - MIN_WEIGHT + 1) + MIN_WEIGHT⟩ with
    | error e =>
      simp [h1, h2, bind, Except.bind] at h
    | ok g2 =>
      simp only [h1, h2, bind, Except.bind, pure, Except.pure] at h
      cases h
      intro a b w
      show edgeCount g2 a b w = edgeCount g2 b a w
      rw [pushBack_edgeCount h2 a b w, pushBack_edgeCount h1 a b w,
        pushBack_edgeCount h2 b a w, pushBack_edgeCount h1 b a w, hsym a b w]
      simp only []
      split_ifs <;> omega

theorem generate_symmetric {rand randNode : Nat → Nat} {N : Nat} {st : GenState}
    (h : generate rand randNode N = .ok st) : Symmetric st.graph := by
  refine foldlM_preserve (genNode rand randNode) (fun s => Symmetric s.graph)
    (List.range N) ?_ _ st h ?_
  · intro s i s2 _ hs hinv
    unfold genNode at hs
    refine foldlM_preserve (genEdge rand randNode i) (fun s => Symmetric s.graph) _ ?_
      _ s2 hs hinv
    intro a j a2 _ ha hinva
    exact genEdge_symmetric ha hinva
  · intro a b w
    have hnil : ∀ k, adjOf (List.replicate N ([] : List edge)) k = [] := by
      intro k
      unfold adjOf
      cases hk : (List.replicate N ([] : List edge))[k]? with
      | none => rfl
      | some l =>
        have := List.eq_of_mem_replicate (List.getElem?_mem hk)
        subst this
        rfl
    show edgeCount (List.replicate N []) a b w = edgeCount (List.replicate N []) b a w
    unfold edgeCount
    rw [hnil a, hnil b]
    rfl

/-! ## The builder: what a returned output is -/

theorem builder_guard_false {no_of_nodes : Int} (hN : 20 ≤ no_of_nodes) :
    ¬ (no_of_nodes < MIN_NODES ∨ toUInt64 no_of_nodes > MAX_NODES) := by
  have h1 : no_of_nodes % 2 ^ 64 < 2 ^ 64 := Int.emod_lt_of_pos _ (by norm_num)
  have h2 : 0 ≤ no_of_nodes % 2 ^ 64 := Int.emod_nonneg _ (by norm_num)
  unfold MIN_NODES MAX_NODES toUInt64
  omega

theorem generate_unique {rand randNode : Nat → Nat} {N : Nat} {st1 st2 : GenState}
    (h1 : generate rand randNode N = .ok st1) (h2 : generate rand randNode N = .ok st2) :
    st1 = st2 := by
  rw [h1] at h2
  cases h2
  rfl

/-- Whatever the node count, more than `INT_MAX` generated edge records make
`generate_random_graph` write past `h_graph_edges`. -/
theorem generate_random_graph_too_big {rand randNode : Nat → Nat} {no_of_nodes : Int}
    {st : GenState} (hN : 20 ≤ no_of_nodes)
    (hgen : generate rand randNode no_of_nodes.toNat = .ok st)
    (hbig : (2 : Int) ^ 31 ≤ (st.graph.flatten.length : Int)) :
    generate_random_graph rand randNode no_of_nodes = .error .outOfBounds := by
  have hguard := builder_guard_false hN
  unfold generate_random_graph
  cases hnt : nodeTable st.graph with
  | mk nodes total =>
    have hfail := writeDest_fold_error st.graph.flatten
      (List.replicate (toInt32 (total : Int)).toNat (0 : Int)) 0 (Nat.zero_le _)
      (by
        have := toInt32_lt (total : Int)
        rw [List.length_replicate]
        omega)
    simp only [hguard, if_false, hgen, hnt, hfail, bind, Except.bind, pure, Except.pure]

/-- A returned output of `generate_random_graph` is the offset table and the
destinations of the generated adjacency lists, whose records fit in `int`. -/
theorem generate_random_graph_inv {rand randNode : Nat → Nat} {no_of_nodes : Int}
    {g : Graph} {source : Int} (hN : 20 ≤ no_of_nodes)
    (hdraw : ∀ n, randNode n < no_of_nodes.toNat)
    (h : generate_random_graph rand randNode no_of_nodes = .ok (g, source)) :
    ∃ st, generate rand randNode no_of_nodes.toNat = .ok st ∧
      st.graph.length = no_of_nodes.toNat ∧
      (st.graph.flatten.length : Int) < 2 ^ 31 ∧ no_of_nodes < 2 ^ 31 ∧
      g = { no_of_nodes := no_of_nodes
            h_graph_nodes :=
              (prefixTable 0 st.graph).map (fun p => (⟨(p.1 : Int), (p.2 : Int)⟩ : Node))
            edge_list_size := (st.graph.flatten.length : Int)
            h_graph_edges := st.graph.flatten.map (fun e => (e.dest : Int)) } ∧
      source = toInt32 (randNode st.n) := by
  obtain ⟨st, hgen, hlen, hlo, _⟩ :=
    generate_spec rand randNode no_of_nodes.toNat 2 4 hdraw
      (fun n => by omega) (fun n => by omega)
  by_cases hfit : (st.graph.flatten.length : Int) < 2 ^ 31
  · have hlt : no_of_nodes < 2 ^ 31 := by omega
    rw [generate_random_graph_ok hN hlt hdraw hgen hfit] at h
    cases h
    exact ⟨st, hgen, hlen, hfit, hlt, rfl, rfl⟩
  · rw [generate_random_graph_too_big hN hgen (by omega)] at h
    cases h

theorem flatten_length_le_mul {α : Type} (B : Nat) (L : List (List α))
    (h : ∀ l, l ∈ L → l.length ≤ B) : L.flatten.length ≤ L.length * B := by
  induction L with
  | nil => simp
  | cons a L ih =>
    have h1 := h a (List.mem_cons_self _ _)
    have h2 := ih (fun l hl => h l (List.mem_cons_of_mem _ hl))
    simp only [List.flatten_cons, List.length_append, List.length_cons]
    rw [Nat.succ_mul]
    omega

theorem lineStep_foldl_wide (graph : List (List edge)) :
    ∀ (ns : List (Nat × Nat)) (t : Nat), (∀ l, l ∈ graph → l.length < 2 ^ 32) →
      t + graph.flatten.length < 2 ^ 64 →
      graph.foldl lineStep (ns, t) = (ns ++ prefixTable t graph, t + graph.flatten.length) := by
  induction graph with
  | nil =>
    intro ns t _ _
    simp [prefixTable]
  | cons l rest ih =>
    intro ns t hl h
    simp only [List.flatten_cons, List.length_append] at h
    have hl1 := hl l (List.mem_cons_self _ _)
    have h1 : toUInt32 (l.length : Int) = l.length := by
      rw [toUInt32_of_lt (by omega) (by omega)]
      omega
    have h3 : toUInt64 (((t + l.length : Nat) : Int)) = t + l.length := by
      rw [toUInt64_of_lt (by omega) (by omega)]
      omega
    simp only [List.foldl_cons, lineStep, h1]
    rw [show ((t : Int) + ((l.length : Nat) : Int)) = ((t + l.length : Nat) : Int) by push_cast; rfl,
      h3]
    rw [ih _ _ (fun l2 hl2 => hl l2 (List.mem_cons_of_mem _ hl2)) (by omega)]
    simp only [prefixTable, List.flatten_cons, List.length_append,
      List.append_assoc, List.singleton_append]
    rw [Nat.add_assoc]

/-- A returned output of `graphgen` is the offset table and the records of
the generated adjacency lists. -/
theorem graphgen_inv {rand randNode : Nat → Nat} {numNodes : Nat} {file : GraphFile}
    (hdraw : ∀ n, randNode n < numNodes)
    (h : graphgen rand randNode numNodes = .ok file) :
    ∃ st, generate rand randNode numNodes = .ok st ∧ st.graph.length = numNodes ∧
      file = { numNodes := numNodes
               nodeLines := prefixTable 0 st.graph
               source := randNode st.n
               totalEdges := st.graph.flatten.length
               edgeLines := st.graph.flatten.map (fun e => (e.dest, e.weight)) } := by
  obtain ⟨st, hgen, hlen, _, _⟩ :=
    generate_spec rand randNode numNodes 2 4 hdraw (fun n => by omega) (fun n => by omega)
  refine ⟨st, hgen, hlen, ?_⟩
  unfold graphgen at h
  by_cases hguard : 2 ^ 32 ≤ numNodes ∨ ∃ l, l ∈ st.graph ∧ 2 ^ 32 ≤ l.length
  · simp only [hgen, bind, Except.bind, if_pos hguard, throw, throwThe,
      MonadExceptOf.throw] at h
    cases h
  · have hsmall : ∀ l, l ∈ st.graph → l.length < 2 ^ 32 := by
      intro l hl
      by_contra hc
      exact hguard (Or.inr ⟨l, hl, by omega⟩)
    have hN : numNodes < 2 ^ 32 := by
      by_contra hc
      exact hguard (Or.inl (by omega))
    have hbound := flatten_length_le_mul (2 ^ 32 - 1) st.graph
      (fun l hl => by have := hsmall l hl; omega)
    have hprod : st.graph.length * (2 ^ 32 - 1) ≤ (2 ^ 32 - 1) * (2 ^ 32 - 1) :=
      Nat.mul_le_mul_right _ (by omega)
    have htable := lineStep_foldl_wide st.graph [] 0 hsmall
      (by
        have : (2 ^ 32 - 1) * (2 ^ 32 - 1) < 2 ^ 64 := by norm_num
        omega)
    simp only [hgen, hguard, if_false, htable, bind, Except.bind, pure, Except.pure,
      List.nil_append, Nat.zero_add] at h
    cases h
    rfl

/-- C11: for every node count `N >= 20` and every sequence of random draws
(destinations in `[0, N)`), the generation loop returns a multigraph in which,
for all distinct nodes `i` and `j` and every weight `w`, there are as many
edge records from `i` to `j` with weight `w` as from `j` to `i`; every
destination id in the adjacency lists, in the array `h_graph_edges` returned by
`generate_random_graph` and in the edge lines written by `graphgen` is in
`[0, N)`. -/
theorem C11_builder_graph_symmetric (rand randNode : Nat → Nat) (N : Nat)
    (hN : 20 ≤ N) (hdraw : ∀ n, randNode n < N) :
    ∃ st, generate rand randNode N = .ok st ∧
      (∀ i j w : Nat, i ≠ j → edgeCount st.graph i j w = edgeCount st.graph j i w) ∧
      (∀ l, l ∈ st.graph → ∀ e, e ∈ l → e.dest < N) ∧
      (∀ g source, generate_random_graph rand randNode (N : Int) = .ok (g, source) →
        ∀ id, id ∈ g.h_graph_edges → 0 ≤ id ∧ id < (N : Int)) ∧
      (∀ file, graphgen rand randNode N = .ok file →
        ∀ p, p ∈ file.edgeLines → p.1 < N) := by
  obtain ⟨st, hgen, _, _, _⟩ :=
    generate_spec rand randNode N 2 4 hdraw (fun n => by omega) (fun n => by omega)
  have hdests := generate_dests hdraw hgen
  refine ⟨st, hgen, fun i j w _ => generate_symmetric hgen i j w, hdests, ?_, ?_⟩
  · intro g source hg id hid
    have hdraw2 : ∀ n, randNode n < ((N : Int)).toNat := by
      intro n
      rw [Int.toNat_ofNat]
      exact hdraw n
    obtain ⟨st2, hgen2, _, _, _, hgeq, _⟩ :=
      generate_random_graph_inv (by omega) hdraw2 hg
    rw [Int.toNat_ofNat] at hgen2
    have hst := generate_unique hgen2 hgen
    subst hst
    subst hgeq
    obtain ⟨e, he, rfl⟩ := List.mem_map.1 hid
    obtain ⟨l, hl, hel⟩ := List.mem_flatten.1 he
    have := hdests l hl e hel
    omega
  · intro file hf p hp
    obtain ⟨st2, hgen2, _, hfeq⟩ := graphgen_inv hdraw hf
    have hst := generate_unique hgen2 hgen
    subst hst
    subst hfeq
    obtain ⟨e, he, rfl⟩ := List.mem_map.1 hp
    obtain ⟨l, hl, hel⟩ := List.mem_flatten.1 he
    exact hdests l hl e hel

theorem C11_builder_graph_symmetric_witness :
    ∃ st, generate (fun k => k) (fun k => (7 * k + 3) % 20) 20 = .ok st ∧
      (∀ i j w : Nat, i ≠ j → edgeCount st.graph i j w = edgeCount st.graph j i w) ∧
      (∀ l, l ∈ st.graph → ∀ e, e ∈ l → e.dest < 20) ∧
      (∀ g source,
        generate_random_graph (fun k => k) (fun k => (7 * k + 3) % 20) ((20 : Nat) : Int) =
          .ok (g, source) →
        ∀ id, id ∈ g.h_graph_edges → 0 ≤ id ∧ id < ((20 : Nat) : Int)) ∧
      (∀ file, graphgen (fun k => k) (fun k => (7 * k + 3) % 20) 20 = .ok file →
        ∀ p, p ∈ file.edgeLines → p.1 < 20) :=
  C11_builder_graph_symmetric (fun k => k) (fun k => (7 * k + 3) % 20) 20
    (by decide) (fun n => Nat.mod_lt _ (by decide))

/-! ## The loader on a written file -/

theorem toInt32_natCast {x : Nat} (h : x < 2 ^ 31) : toInt32 (x : Int) = (x : Int) :=
  toInt32_of_lt (by omega) (by omega)

theorem readNodes_tokens :
    ∀ (pairs : List (Nat × Nat)) (s e : Int) (rest : List Int),
      (∀ p, p ∈ pairs → p.1 < 2 ^ 31 ∧ p.2 < 2 ^ 31) →
      readNodes pairs.length s e
          (pairs.flatMap (fun p => [(p.1 : Int), (p.2 : Int)]) ++ rest) =
        (pairs.map (fun p => (⟨(p.1 : Int), (p.2 : Int)⟩ : Node)), rest) := by
  intro pairs
  induction pairs with
  | nil =>
    intro s e rest _
    rfl
  | cons p ps ih =>
    intro s e rest h
    have hp := h p (List.mem_cons_self _ _)
    have ih2 := ih (p.1 : Int) (p.2 : Int) rest
      (fun q hq => h q (List.mem_cons_of_mem _ hq))
    simp only [List.flatMap_cons, List.length_cons, List.cons_append, List.nil_append,
      readNodes, scanInt, toInt32_natCast hp.1, toInt32_natCast hp.2, ih2, List.map_cons]

theorem readEdges_tokens :
    ∀ (pairs : List (Nat × Nat)) (s e : Int) (rest : List Int),
      (∀ p, p ∈ pairs → p.1 < 2 ^ 31 ∧ p.2 < 2 ^ 31) →
      readEdges pairs.length s e
          (pairs.flatMap (fun p => [(p.1 : Int), (p.2 : Int)]) ++ rest) =
        (pairs.map (fun p => (p.1 : Int)), rest) := by
  intro pairs
  induction pairs with
  | nil =>
    intro s e rest _
    rfl
  | cons p ps ih =>
    intro s e rest h
    have hp := h p (List.mem_cons_self _ _)
    have ih2 := ih (p.1 : Int) (p.2 : Int) rest
      (fun q hq => h q (List.mem_cons_of_mem _ hq))
    simp only [List.flatMap_cons, List.length_cons, List.cons_append, List.nil_append,
      readEdges, scanInt, toInt32_natCast hp.1, toInt32_natCast hp.2, ih2, List.map_cons]

/-- The loader reads back a file whose line counts agree with its declared
counts and whose numbers fit in `int`. -/
theorem loadGraph_tokens (f : GraphFile) (junk : Int)
    (h1 : f.nodeLines.length = f.numNodes) (h2 : f.edgeLines.length = f.totalEdges)
    (hfit : FitsInt32 f) :
    loadGraph junk f.tokens =
      .ok ({ no_of_nodes := (f.numNodes : Int)
             h_graph_nodes := f.nodeLines.map (fun p => (⟨(p.1 : Int), (p.2 : Int)⟩ : Node))
             edge_list_size := (f.totalEdges : Int)
             h_graph_edges := f.edgeLines.map (fun p => (p.1 : Int)) }, (f.source : Int)) := by
  obtain ⟨hN, hS, hM, hnl, hel⟩ := hfit
  have hnodes := readNodes_tokens f.nodeLines junk junk
    ([(f.source : Int), (f.totalEdges : Int)] ++
      f.edgeLines.flatMap (fun p => [(p.1 : Int), (p.2 : Int)])) hnl
  have hedges := readEdges_tokens f.edgeLines junk junk [] hel
  rw [h1] at hnodes
  rw [h2, List.append_nil] at hedges
  have hneg : ¬ ((f.numNodes : Int) < 0) := by omega
  have htoks : f.tokens = (f.numNodes : Int) ::
      (f.nodeLines.flatMap (fun p => [(p.1 : Int), (p.2 : Int)]) ++
        ([(f.source : Int), (f.totalEdges : Int)] ++
          f.edgeLines.flatMap (fun p => [(p.1 : Int), (p.2 : Int)]))) := by
    unfold GraphFile.tokens
    simp only [List.singleton_append, List.cons_append, List.append_assoc, List.nil_append]
  have hr1 : ∀ rest : List Int, scanInt 0 ((f.numNodes : Int) :: rest) = ((f.numNodes : Int), rest) := by
    intro rest
    simp only [scanInt, toInt32_natCast hN]
  have hr2 : ∀ rest : List Int, scanInt 0 ((f.source : Int) :: rest) = ((f.source : Int), rest) := by
    intro rest
    simp only [scanInt, toInt32_natCast hS]
  have hr3 : ∀ rest : List Int,
      scanInt 0 ((f.totalEdges : Int) :: rest) = ((f.totalEdges : Int), rest) := by
    intro rest
    simp only [scanInt, toInt32_natCast hM]
  rw [htoks]
  unfold loadGraph
  rw [hr1]
  dsimp only
  rw [if_neg hneg, Int.toNat_ofNat, hnodes]
  dsimp only
  rw [List.cons_append, List.cons_append, List.nil_append, hr2]
  dsimp only
  rw [hr3]
  dsimp only
  rw [Int.toNat_ofNat, hedges]

/-- C12: for every graph written by `graphgen` (node count `N >= 20`,
destinations drawn in `[0, N)`) all of whose numbers fit in `int`, the loader
of `BFSGraph` applied to the numbers of the file returns the node count `N`,
the `(starting, no_of_edges)` pair of every node line, the source, the edge
count and the sequence of destination ids of the file; this is also the
output of `generate_random_graph` for the same draws. -/
theorem C12_round_trip_through_file (rand randNode : Nat → Nat) (N : Nat) (junk : Int)
    (file : GraphFile) (hN : 20 ≤ N) (hdraw : ∀ n, randNode n < N)
    (hgen : graphgen rand randNode N = .ok file) (hfit : FitsInt32 file) :
    file.numNodes = N ∧
    loadGraph junk file.tokens =
      .ok ({ no_of_nodes := (file.numNodes : Int)
             h_graph_nodes :=
               file.nodeLines.map (fun p => (⟨(p.1 : Int), (p.2 : Int)⟩ : Node))
             edge_list_size := (file.totalEdges : Int)
             h_graph_edges := file.edgeLines.map (fun p => (p.1 : Int)) },
        (file.source : Int)) ∧
    loadGraph junk file.tokens = generate_random_graph rand randNode (N : Int) := by
  obtain ⟨st, hst, hlen, hfile⟩ := graphgen_inv hdraw hgen
  have h1 : file.nodeLines.length = file.numNodes := by
    rw [hfile]
    show (prefixTable 0 st.graph).length = N
    rw [prefixTable_length, hlen]
  have h2 : file.edgeLines.length = file.totalEdges := by
    rw [hfile]
    show (st.graph.flatten.map (fun e => (e.dest, e.weight))).length = st.graph.flatten.length
    rw [List.length_map]
  have hload := loadGraph_tokens file junk h1 h2 hfit
  have hnum : file.numNodes = N := by rw [hfile]
  refine ⟨hnum, hload, ?_⟩
  rw [hload]
  obtain ⟨hfN, hfS, hfM, _, _⟩ := hfit
  have hM : (st.graph.flatten.length : Int) < 2 ^ 31 := by
    have : file.totalEdges = st.graph.flatten.length := by rw [hfile]
    omega
  have hS : randNode st.n < 2 ^ 31 := by
    have : file.source = randNode st.n := by rw [hfile]
    omega
  have hst2 : generate rand randNode ((N : Int)).toNat = .ok st := by
    rw [Int.toNat_ofNat]
    exact hst
  have hdraw2 : ∀ n, randNode n < ((N : Int)).toNat := by
    intro n
    rw [Int.toNat_ofNat]
    exact hdraw n
  rw [generate_random_graph_ok (by omega) (by omega) hdraw2 hst2 hM, hfile,
    toInt32_natCast hS]
  simp only [List.map_map, Function.comp_def]

theorem C12_round_trip_through_file_witness :
    graphgen (fun k => k) (fun k => (7 * k + 3) % 20) 20 = .ok sampleFile ∧
    FitsInt32 sampleFile ∧
    loadGraph 0 sampleFile.tokens =
      generate_random_graph (fun k => k) (fun k => (7 * k + 3) % 20) ((20 : Nat) : Int) :=
  ⟨rfl, by decide,
    (C12_round_trip_through_file (fun k => k) (fun k => (7 * k + 3) % 20) 20 0 sampleFile
      (by decide) (fun n => Nat.mod_lt _ (by decide)) rfl (by decide)).2.2⟩

/-! ## Exit codes of the builder -/

theorem noExit_error_outOfBounds {α : Type} :
    NoExit (Except.error Fault.outOfBounds : Except Fault α) := by
  intro c h
  cases h

theorem pushBack_noExit (graph : List (List edge)) (i : Nat) (e : edge) :
    NoExit (pushBack graph i e) := by
  unfold pushBack
  cases graph[i]? with
  | none => exact noExit_error_outOfBounds
  | some l => exact noExit_ok _

theorem genEdge_noExit (rand randNode : Nat → Nat) (i : Nat) (st : GenState) (j : Nat) :
    NoExit (genEdge rand randNode i st j) := by
  unfold genEdge
  refine noExit_bind (pushBack_noExit _ _ _) (fun g1 => ?_)
  refine noExit_bind (pushBack_noExit _ _ _) (fun g2 => ?_)
  exact noExit_ok _

theorem genNode_noExit (rand randNode : Nat → Nat) (st : GenState) (i : Nat) :
    NoExit (genNode rand randNode st i) := by
  unfold genNode
  exact foldlM_noExit _ (genEdge_noExit rand randNode i) _ _

theorem generate_noExit (rand randNode : Nat → Nat) (N : Nat) :
    NoExit (generate rand randNode N) := by
  unfold generate
  exact foldlM_noExit _ (genNode_noExit rand randNode) _ _

theorem writeDest_noExit (acc : List Int × Nat) (e : edge) : NoExit (writeDest acc e) := by
  unfold writeDest
  refine noExit_bind (writeAt_noExit _ _ _) (fun arr => ?_)
  exact noExit_ok _

theorem graphgen_noExit (rand randNode : Nat → Nat) (numNodes : Nat) :
    NoExit (graphgen rand randNode numNodes) := by
  unfold graphgen
  refine noExit_bind (generate_noExit rand randNode numNodes) (fun st => ?_)
  by_cases hguard : 2 ^ 32 ≤ numNodes ∨ ∃ l, l ∈ st.graph ∧ 2 ^ 32 ≤ l.length
  · intro c h
    simp only [if_pos hguard, bind, Except.bind, throw, throwThe, MonadExceptOf.throw] at h
    cases h
  · intro c h
    simp only [if_neg hguard, bind, Except.bind, pure, Except.pure] at h
    cases h

theorem generate_random_graph_exit_iff (rand randNode : Nat → Nat) (no_of_nodes : Int)
    (c : Int) :
    generate_random_graph rand randNode no_of_nodes = .error (.exit c) ↔
      (c = 1 ∧ no_of_nodes < 20) := by
  constructor
  · intro h
    by_cases hN : 20 ≤ no_of_nodes
    · exfalso
      have hguard := builder_guard_false hN
      unfold generate_random_graph at h
      simp only [if_neg hguard] at h
      revert h
      refine noExit_bind (noExit_ok _) (fun _ => ?_) c
      refine noExit_bind (generate_noExit rand randNode _) (fun st => ?_)
      cases nodeTable st.graph with
      | mk nodes total =>
        refine noExit_bind (foldlM_noExit _ writeDest_noExit _ _) (fun r => ?_)
        exact noExit_ok _
    · have hguard : no_of_nodes < MIN_NODES ∨ toUInt64 no_of_nodes > MAX_NODES := by
        left
        unfold MIN_NODES
        omega
      unfold generate_random_graph at h
      simp only [if_pos hguard, bind, Except.bind, throw, throwThe, MonadExceptOf.throw] at h
      cases h
      exact ⟨rfl, by omega⟩
  · rintro ⟨rfl, hN⟩
    have hguard : no_of_nodes < MIN_NODES ∨ toUInt64 no_of_nodes > MAX_NODES := by
      left
      unfold MIN_NODES
      omega
    unfold generate_random_graph
    simp only [if_pos hguard, bind, Except.bind, throw, throwThe, MonadExceptOf.throw]

theorem graphgenMain_exit_iff (strtoul : String → Nat) (rand randNode : Nat → Nat)
    (prog a : String) (rest : List String) (c : Int) :
    graphgenMain strtoul rand randNode (prog :: a :: rest) = .error (.exit c) ↔
      (c = 1 ∧ (toUInt64 (strtoul a) < 20 ∨ a.data.head? = some '-')) := by
  have hlen : ¬ ((prog :: a :: rest).length < 2) := by
    simp
  have hmax : ¬ (toUInt64 (strtoul a) > MAX_NODES) := by
    have h1 : ((strtoul a : Nat) : Int) % 2 ^ 64 < 2 ^ 64 := Int.emod_lt_of_pos _ (by norm_num)
    unfold MAX_NODES toUInt64
    omega
  unfold graphgenMain
  simp only [if_neg hlen, List.getElem?_cons_succ, List.getElem?_cons_zero]
  by_cases hguard : toUInt64 (strtoul a) < MIN_NODES ∨ toUInt64 (strtoul a) > MAX_NODES ∨
      a.data.head? = some '-'
  · rw [if_pos hguard]
    constructor
    · intro h
      cases h
      refine ⟨rfl, ?_⟩
      rcases hguard with h1 | h1 | h1
      · left
        unfold MIN_NODES at h1
        exact h1
      · exact absurd h1 hmax
      · right
        exact h1
    · rintro ⟨rfl, _⟩
      rfl
  · rw [if_neg hguard]
    constructor
    · intro h
      exact absurd h (graphgen_noExit rand randNode _ c)
    · rintro ⟨_, h1 | h1⟩
      · exfalso
        apply hguard
        left
        unfold MIN_NODES
        exact h1
      · exfalso
        exact hguard (Or.inr (Or.inr h1))

/-- C14, as stated, fails: called with two command arguments instead of
three, and called with a file that cannot be opened, the entry point of the
Engine ends with exit status 0. -/
theorem C14_counterexample :
    bfsMain (fun _ => none) 0 (seqSchedule emptyGraph) 1 ["bfs", "4"] = .error (.exit 0) ∧
    exitStatus (bfsMain (fun _ => none) 0 (seqSchedule emptyGraph) 1 ["bfs", "4"]) = some 0 ∧
    bfsMain (fun _ => none) 0 (seqSchedule emptyGraph) 1 ["bfs", "4", "graph.txt"] =
      .ok none ∧
    exitStatus (bfsMain (fun _ => none) 0 (seqSchedule emptyGraph) 1
      ["bfs", "4", "graph.txt"]) = some 0 :=
  ⟨rfl, rfl, rfl, rfl⟩

theorem loadGraph_noExit (junk : Int) (toks : List Int) : NoExit (loadGraph junk toks) := by
  intro c h
  unfold loadGraph at h
  dsimp only at h
  split at h <;> cases h

theorem bfsGraphSched_noExit (sched : Schedule) (fuel : Nat) (g : Graph) (source : Int) :
    NoExit (BFSGraphSched sched fuel g source) := by
  unfold BFSGraphSched
  exact noExit_bind (initState_noExit g source) (fun st => levelLoop_noExit g sched fuel st 0)

/-- C14, amended: the entry point of the Engine never ends with a non-zero
exit status. With a number of command arguments other than three it prints
the usage and calls `exit(0)`; when the input file cannot be opened it prints
a message and returns, so that `main` ends with status 0 and no traversal is
run; every call of `exit` has code 0 and a run that returns has status 0. -/
theorem C14_entry_point_exit_status (fs : String → Option (List Int)) (junk : Int)
    (sched : Schedule) (fuel : Nat) (argv : List String) :
    (argv.length ≠ 3 → bfsMain fs junk sched fuel argv = .error (.exit 0)) ∧
    (argv.length = 3 → (argv[2]?).bind fs = none →
      bfsMain fs junk sched fuel argv = .ok none) ∧
    (∀ c, exitStatus (bfsMain fs junk sched fuel argv) = some c → c = 0) := by
  refine ⟨?_, ?_, ?_⟩
  · intro h
    unfold bfsMain
    rw [if_pos h]
  · intro h hf
    unfold bfsMain
    rw [if_neg (by omega), hf]
  · intro c h
    cases hr : bfsMain fs junk sched fuel argv with
    | ok r =>
      rw [hr] at h
      cases h
      rfl
    | error e =>
      rw [hr] at h
      cases e with
      | outOfBounds => cases h
      | outOfFuel => cases h
      | exit c2 =>
        have hc : c2 = c := Option.some.inj h
        subst hc
        by_cases hlen : argv.length ≠ 3
        · unfold bfsMain at hr
          rw [if_pos hlen] at hr
          cases hr
          rfl
        · exfalso
          unfold bfsMain at hr
          rw [if_neg hlen] at hr
          cases hf : (argv[2]?).bind fs with
          | none =>
            rw [hf] at hr
            cases hr
          | some toks =>
            rw [hf] at hr
            revert hr
            refine noExit_bind (loadGraph_noExit junk toks) (fun p => ?_) c2
            refine noExit_bind (bfsGraphSched_noExit sched fuel p.1 p.2) (fun q => ?_)
            exact noExit_ok _

theorem C14_entry_point_exit_status_witness :
    bfsMain (fun _ => none) 0 (seqSchedule emptyGraph) 1 ["bfs"] = .error (.exit 0) ∧
    bfsMain (fun _ => none) 0 (seqSchedule emptyGraph) 1 ["bfs", "1", "nofile"] = .ok none :=
  ⟨(C14_entry_point_exit_status (fun _ => none) 0 (seqSchedule emptyGraph) 1 ["bfs"]).1
      (by decide),
    (C14_entry_point_exit_status (fun _ => none) 0 (seqSchedule emptyGraph) 1
      ["bfs", "1", "nofile"]).2.1 rfl rfl⟩

/-! ## Level steps of the run -/

/-- A state at the start of a level step is a state of the run: from there
the run is the rest of the loop. -/
theorem run_from_level {g : Graph} {sched : Schedule} {source : Int} {k : Nat} {st : State}
    (h : AtLevel g sched source k st) :
    ∀ fuel, BFSGraphSched sched (k + fuel) g source = levelLoop g sched fuel st k := by
  induction h with
  | init hinit =>
    intro fuel
    rw [Nat.zero_add]
    simp only [BFSGraphSched, hinit, bind, Except.bind]
  | step _ hstep ih =>
    intro fuel
    rename_i k st st2 _
    rw [show k + 1 + fuel = k + (fuel + 1) by omega, ih (fuel + 1)]
    simp only [levelLoop, hstep, bind, Except.bind, if_true]

/-- C15: for a well-formed graph, an in-range source and every schedule, when
the loop executes a `(k+1)`-th level step, at its start (a state from which
the run is the rest of the loop) `h_graph_mask[v]` is true exactly for the
nodes at distance `k` from the source, `h_graph_visited[v]` exactly for the
nodes at distance at most `k`, `h_updating_graph_mask` is all false, and
`h_cost[v]` is the distance of `v` for every visited node and `-1` for every
other node. -/
theorem C15_level_invariant (g : Graph) (source : Int) (sched : Schedule)
    (hwf : WellFormed g) (hsrc : InRange g source) (hsched : ValidSchedule g sched)
    (k : Nat) (st : State) (hat : AtLevel g sched source k st) :
    (∀ fuel, BFSGraphSched sched (k + fuel) g source = levelLoop g sched fuel st k) ∧
    st.h_graph_mask.length = g.N ∧ st.h_updating_graph_mask.length = g.N ∧
    st.h_graph_visited.length = g.N ∧ st.h_cost.length = g.N ∧
    (∀ v : Nat, st.h_graph_mask[v]? = some true ↔ IsDist g source.toNat v k) ∧
    (∀ v : Nat, st.h_graph_visited[v]? = some true ↔
      ∃ d, d ≤ k ∧ IsDist g source.toNat v d) ∧
    (∀ v : Nat, v < g.N → st.h_updating_graph_mask[v]? = some false) ∧
    (∀ v d : Nat, d ≤ k → IsDist g source.toNat v d → st.h_cost[v]? = some (d : Int)) ∧
    (∀ v : Nat, v < g.N → (¬ ∃ d, d ≤ k ∧ IsDist g source.toNat v d) →
      st.h_cost[v]? = some (-1)) := by
  have hinv := atLevel_inv hwf hsrc hsched hat
  refine ⟨run_from_level hat, hinv.core.len_mask, hinv.core.len_upd, hinv.core.len_vis,
    hinv.core.len_cost, ?_, ?_, hinv.upd_clear, hinv.core.cost_vis, ?_⟩
  · intro v
    exact ⟨hinv.core.mask_sound v, hinv.mask_complete v⟩
  · intro v
    rw [hinv.core.vis_iff v, within_iff_isDist]
  · intro v hv hnot
    refine hinv.core.cost_none v hv (fun hw => hnot (within_iff_isDist.1 hw)) ?_
    rw [hinv.upd_clear v hv]
    intro hc
    cases hc

theorem C15_level_invariant_witness :
    ∃ st, AtLevel lineGraph (seqSchedule lineGraph) 0 1 st ∧
      (∀ v : Nat, st.h_graph_mask[v]? = some true ↔ IsDist lineGraph (0 : Int).toNat v 1) ∧
      st.h_cost = [0, 1, -1, -1] :=
  ⟨⟨[false, true, false, false], [false, false, false, false], [true, true, false, false],
      [0, 1, -1, -1], [⟨1, 1, [0, 1, -1, -1]⟩, ⟨0, 0, [0, -1, -1, -1]⟩]⟩,
    AtLevel.step (AtLevel.init rfl) rfl,
    (C15_level_invariant lineGraph 0 (seqSchedule lineGraph) (by decide) (by decide)
      (validSchedule_seq _) 1 _ (AtLevel.step (AtLevel.init rfl) rfl)).2.2.2.2.2.1,
    rfl⟩

/-! ## The writes of one expand pass -/

theorem readAt_inv {α : Type} {xs : List α} {i : Int} {v : α} (h : readAt xs i = .ok v) :
    0 ≤ i ∧ xs[i.toNat]? = some v := by
  unfold readAt at h
  split at h
  · cases h
  · rename_i hneg
    refine ⟨by omega, ?_⟩
    split at h
    · rename_i w hw
      cases h
      exact hw
    · cases h

theorem edgeBody_trace_cases {g : Graph} {tid : Nat} {x x2 : State} {i : Int}
    (h : edgeBody g tid x i = .ok x2) :
    x2.trace = x.trace ∨
    ∃ (id c : Int) (cost : List Int), readAt x.h_graph_visited id = .ok false ∧
      readAt x.h_cost (tid : Int) = .ok c ∧ x2.trace = ⟨id.toNat, c + 1, cost⟩ :: x.trace := by
  unfold edgeBody at h
  cases h1 : readAt g.h_graph_edges i with
  | error e => simp [h1, bind, Except.bind] at h
  | ok id =>
    cases h2 : readAt x.h_graph_visited id with
    | error e => simp [h1, h2, bind, Except.bind] at h
    | ok vis =>
      cases vis with
      | true =>
        simp [h1, h2, bind, Except.bind, pure, Except.pure] at h
        left
        rw [← h]
      | false =>
        cases h3 : readAt x.h_cost (tid : Int) with
        | error e => simp [h1, h2, h3, bind, Except.bind] at h
        | ok c =>
          cases h4 : writeAt x.h_cost id (c + 1) with
          | error e => simp [h1, h2, h3, h4, bind, Except.bind] at h
          | ok cost =>
            cases h5 : writeAt x.h_updating_graph_mask id true with
            | error e => simp [h1, h2, h3, h4, h5, bind, Except.bind] at h
            | ok upd =>
              simp [h1, h2, h3, h4, h5, bind, Except.bind, pure, Except.pure] at h
              right
              refine ⟨id, c, cost, h2, rfl, ?_⟩
              rw [← h]

theorem core_clear_mask {g : Graph} {s k tid : Nat} {x : State} (hcore : Core g s k x)
    (htm : tid < x.h_graph_mask.length) :
    Core g s k { x with h_graph_mask := x.h_graph_mask.set tid false } := by
  constructor
  · simpa using hcore.len_mask
  · exact hcore.len_upd
  · exact hcore.len_vis
  · exact hcore.len_cost
  · intro v hv
    by_cases hvt : tid = v
    · subst hvt
      simp only [List.getElem?_set_self htm] at hv
      cases hv
    · simp only [List.getElem?_set_ne hvt] at hv
      exact hcore.mask_sound v hv
  · exact hcore.upd_sound
  · exact hcore.vis_iff
  · exact hcore.cost_vis
  · exact hcore.cost_upd
  · exact hcore.cost_none
  · exact hcore.tr_head
  · exact hcore.tr_src
  · exact hcore.tr_frozen
  · exact hcore.tr_pair
  · exact hcore.tr_val

theorem edgeBody_traceExt {g : Graph} (hwf : WellFormed g) {s k tid : Nat} {nd : Node}
    (htid : IsDist g s tid k) (hnd : g.h_graph_nodes[tid]? = some nd)
    {st0 x x2 : State} {i : Int} (hi : i ∈ edgeIndices nd)
    (h : edgeBody g tid x i = .ok x2)
    (hinv : Core g s k x ∧ x.h_graph_visited = st0.h_graph_visited ∧ TraceExt k st0 x) :
    Core g s k x2 ∧ x2.h_graph_visited = st0.h_graph_visited ∧ TraceExt k st0 x2 := by
  obtain ⟨hcore, hvis, new, hnew, hall⟩ := hinv
  obtain ⟨x3, h3, ⟨hcore3, hmono3⟩, _, _⟩ :=
    edgeBody_spec hwf htid hnd hcore (⟨rfl, rfl, fun _ hh => hh⟩ : Mono x x) hi
  rw [h] at h3
  cases h3
  refine ⟨hcore3, by rw [hmono3.2.1, hvis], ?_⟩
  rcases edgeBody_trace_cases h with ht | ⟨id, c, cost, hrv, hrc, ht⟩
  · exact ⟨new, by rw [ht, hnew], hall⟩
  · refine ⟨⟨id.toNat, c + 1, cost⟩ :: new, by rw [ht, hnew]; rfl, ?_⟩
    intro e he
    rcases List.mem_cons.1 he with rfl | he
    · have hc1 := (readAt_inv hrc).2
      rw [Int.toNat_ofNat, hcore.cost_vis tid k (le_refl _) htid] at hc1
      have hck : (k : Int) = c := Option.some.inj hc1
      have hv1 := (readAt_inv hrv).2
      rw [hvis] at hv1
      exact ⟨by rw [hck], hv1⟩
    · exact hall e he

theorem expandBody_traceExt {g : Graph} (hwf : WellFormed g) {s k tid : Nat}
    (htid : tid < g.N) {st0 x x2 : State} (h : expandBody g x tid = .ok x2)
    (hinv : Core g s k x ∧ x.h_graph_visited = st0.h_graph_visited ∧ TraceExt k st0 x) :
    Core g s k x2 ∧ x2.h_graph_visited = st0.h_graph_visited ∧ TraceExt k st0 x2 := by
  obtain ⟨hcore, hvis, hext⟩ := hinv
  have htm : tid < x.h_graph_mask.length := hcore.len_mask ▸ htid
  obtain ⟨m, hm⟩ := getElem?_of_lt htm
  cases m with
  | false =>
    simp only [expandBody, readAt_ok hm, bind, Except.bind, pure, Except.pure] at h
    simp at h
    subst h
    exact ⟨hcore, hvis, hext⟩
  | true =>
    have hdist : IsDist g s tid k := hcore.mask_sound tid hm
    obtain ⟨nd, hnd⟩ := getElem?_of_lt (hwf.2.1 ▸ htid : tid < g.h_graph_nodes.length)
    simp only [expandBody, readAt_ok hm, writeAt_ok _ htm, readAt_ok hnd, bind, Except.bind]
      at h
    simp only [if_true] at h
    exact foldlM_preserve (edgeBody g tid)
      (fun y => Core g s k y ∧ y.h_graph_visited = st0.h_graph_visited ∧ TraceExt k st0 y)
      (edgeIndices nd)
      (fun y i y2 hi hy hI => edgeBody_traceExt hwf hdist hnd hi hy hI)
      _ x2 h ⟨core_clear_mask hcore htm, hvis, hext⟩

/-- The assignments to `h_cost` of one expand pass started at the beginning of
the level step at counter value `k`. -/
theorem expandPass_traceExt {g : Graph} (hwf : WellFormed g) {s k : Nat} {order : List Nat}
    (hord : Covers g order) {st st1 : State} (hinv : LevelInv g s k st)
    (h : expandPass g order st = .ok st1) : TraceExt k st st1 := by
  have := foldlM_preserve (expandBody g)
    (fun y => Core g s k y ∧ y.h_graph_visited = st.h_graph_visited ∧ TraceExt k st y)
    order
    (fun y tid y2 htid hy hI => expandBody_traceExt hwf ((hord tid).1 htid) hy hI)
    st st1 h ⟨hinv.core, rfl, [], rfl, fun e he => by cases he⟩
  exact this.2.2

/-- C16: for a well-formed graph, an in-range source and every schedule, at
the start of every expand pass all nodes with `h_graph_mask[tid] == true` have
the same cost (the counter value `k`); the pass returns, none of its
assignments to `h_cost` stores into the cell of such a node, whose cost is
therefore the same after the pass; every assignment of the pass stores `k + 1`,
so any two assignments to the same cell store the same value. -/
theorem C16_identical_value_writers (g : Graph) (source : Int) (sched : Schedule)
    (hwf : WellFormed g) (hsrc : InRange g source) (hsched : ValidSchedule g sched)
    (k : Nat) (st : State) (hat : AtLevel g sched source k st) :
    (∀ tid : Nat, st.h_graph_mask[tid]? = some true → st.h_cost[tid]? = some (k : Int)) ∧
    ∃ st1 new, expandPass g (sched k).1 st = .ok st1 ∧ st1.trace = new ++ st.trace ∧
      (∀ e, e ∈ new → st.h_graph_mask[e.id]? ≠ some true) ∧
      (∀ tid : Nat, st.h_graph_mask[tid]? = some true →
        st1.h_cost[tid]? = st.h_cost[tid]?) ∧
      (∀ e, e ∈ new → e.val = (k : Int) + 1) ∧
      (∀ e1 e2, e1 ∈ new → e2 ∈ new → e1.id = e2.id → e1.val = e2.val) := by
  have hinv := atLevel_inv hwf hsrc hsched hat
  have hcost : ∀ tid : Nat, st.h_graph_mask[tid]? = some true →
      st.h_cost[tid]? = some (k : Int) :=
    fun tid h => hinv.core.cost_vis tid k (le_refl _) (hinv.core.mask_sound tid h)
  obtain ⟨st1, h1, hinv1⟩ := expandPass_spec hwf (covers_of_perm (hsched k).1) hinv
  obtain ⟨new, hnew, hall⟩ :=
    expandPass_traceExt hwf (covers_of_perm (hsched k).1) hinv h1
  refine ⟨hcost, st1, new, h1, hnew, ?_, ?_, fun e he => (hall e he).1, ?_⟩
  · intro e he hm
    have hd := hinv.core.mask_sound e.id hm
    have hv := (hinv.core.vis_iff e.id).2 ⟨k, le_refl _, hd.1⟩
    rw [(hall e he).2] at hv
    cases hv
  · intro tid hm
    rw [hcost tid hm]
    exact hinv1.core.cost_vis tid k (le_refl _) (hinv.core.mask_sound tid hm)
  · intro e1 e2 h1 h2 _
    rw [(hall e1 h1).1, (hall e2 h2).1]

theorem C16_identical_value_writers_witness :
    ∃ st, AtLevel cycleGraph (seqSchedule cycleGraph) 0 1 st ∧
      st.h_graph_mask = [false, true, false, true] ∧
      ∃ st1 new, expandPass cycleGraph ((seqSchedule cycleGraph) 1).1 st = .ok st1 ∧
        st1.trace = new ++ st.trace ∧
        (∀ e1 e2, e1 ∈ new → e2 ∈ new → e1.id = e2.id → e1.val = e2.val) := by
  have hat : AtLevel cycleGraph (seqSchedule cycleGraph) 0 1
      ⟨[false, true, false, true], [false, false, false, false], [true, true, false, true],
        [0, 1, -1, 1],
        [⟨3, 1, [0, 1, -1, 1]⟩, ⟨1, 1, [0, 1, -1, -1]⟩, ⟨0, 0, [0, -1, -1, -1]⟩]⟩ :=
    AtLevel.step (AtLevel.init rfl) rfl
  obtain ⟨_, st1, new, h1, h2, _, _, _, h6⟩ :=
    C16_identical_value_writers cycleGraph 0 (seqSchedule cycleGraph) (by decide)
      (by decide) (validSchedule_seq _) 1 _ hat
  exact ⟨_, hat, rfl, st1, new, h1, h2, h6⟩

/-! ## The commit pass in detail -/

theorem commitPass_cells {g : Graph} {s k : Nat} {order : List Nat}
    (hord : Covers g order) {st : State} (hinv : AfterExpand g s k st) :
    ∃ st2 stop, commitPass order st = .ok (st2, stop) ∧ CommitInv g st (st2, stop) ∧
      ∀ v : Nat, v < g.N → Committed st v (st2, stop) := by
  have hcore := hinv.core
  obtain ⟨⟨st2, stop⟩, hrun, hci, hdone, _⟩ :=
    foldlM_inv commitBody (CommitInv g st) (Committed st) order
      (fun acc tid htid hacc => commitBody_spec ((hord tid).1 htid) hacc)
      (st, false)
      ⟨hcore.len_mask, hcore.len_upd, hcore.len_vis, rfl, rfl,
        fun v hv => Or.inl ⟨rfl, hinv.mask_clear v hv, rfl⟩,
        fun h => by cases h⟩
  exact ⟨st2, stop, hrun, hci, fun v hv => hdone v ((hord v).2 hv)⟩

theorem count_true_le :
    ∀ (l1 l2 : List Bool), l1.length = l2.length →
      (∀ i : Nat, l1[i]? = some true → l2[i]? = some true) →
      l1.count true ≤ l2.count true := by
  intro l1
  induction l1 with
  | nil =>
    intro l2 _ _
    simp
  | cons a l1 ih =>
    intro l2 hlen hmono
    cases l2 with
    | nil => simp at hlen
    | cons b l2 =>
      have hrec := ih l2 (by simpa using hlen) (fun i hi => by
        have := hmono (i + 1) (by simpa using hi)
        simpa using this)
      have h0 := hmono 0
      simp only [List.getElem?_cons_zero, Option.some.injEq] at h0
      cases a <;> cases b <;> simp_all [List.count_cons]
      omega

theorem count_true_lt :
    ∀ (l1 l2 : List Bool), l1.length = l2.length →
      (∀ i : Nat, l1[i]? = some true → l2[i]? = some true) →
      (∃ i : Nat, l1[i]? = some false ∧ l2[i]? = some true) →
      l1.count true < l2.count true := by
  intro l1
  induction l1 with
  | nil =>
    intro l2 _ _ hex
    obtain ⟨i, hi, _⟩ := hex
    simp at hi
  | cons a l1 ih =>
    intro l2 hlen hmono hex
    cases l2 with
    | nil => simp at hlen
    | cons b l2 =>
      have hlen2 : l1.length = l2.length := by simpa using hlen
      have hmono2 : ∀ i : Nat, l1[i]? = some true → l2[i]? = some true := fun i hi => by
        have := hmono (i + 1) (by simpa using hi)
        simpa using this
      have hle := count_true_le l1 l2 hlen2 hmono2
      have h0 := hmono 0
      simp only [List.getElem?_cons_zero, Option.some.injEq] at h0
      obtain ⟨i, hi1, hi2⟩ := hex
      cases i with
      | zero =>
        simp only [List.getElem?_cons_zero, Option.some.injEq] at hi1 hi2
        subst hi1
        subst hi2
        simp [List.count_cons]
        omega
      | succ i =>
        simp only [List.getElem?_cons_succ] at hi1 hi2
        have hlt := ih l2 hlen2 hmono2 ⟨i, hi1, hi2⟩
        cases a <;> cases b <;> simp_all [List.count_cons]
        omega

/-- C17: for a well-formed graph, an in-range source and every schedule, in
every level step the loop executes the expand pass returns a state from which
the commit pass returns a state where `h_updating_graph_mask` is all false,
`h_graph_mask` is the `h_updating_graph_mask` of before the commit,
`h_graph_visited` is the union of the former `h_graph_visited` and
`h_updating_graph_mask`, `h_cost` is unchanged, and `stop` is true exactly when
the former `h_updating_graph_mask` had a member; every such member was
unvisited, so a step that continues the loop strictly increases the number
of visited nodes. When the loop halts, `h_graph_mask` and
`h_updating_graph_mask` are both all false. -/
theorem C17_commit_pass_and_halting (g : Graph) (source : Int) (sched : Schedule)
    (hwf : WellFormed g) (hsrc : InRange g source) (hsched : ValidSchedule g sched) :
    (∀ (k : Nat) (st : State), AtLevel g sched source k st →
      ∃ st1 st2 stop, expandPass g (sched k).1 st = .ok st1 ∧
        commitPass (sched k).2 st1 = .ok (st2, stop) ∧
        (∀ v : Nat, v < g.N → st2.h_updating_graph_mask[v]? = some false) ∧
        st2.h_graph_mask = st1.h_updating_graph_mask ∧
        st2.h_graph_visited.length = st1.h_graph_visited.length ∧
        (∀ v : Nat, st2.h_graph_visited[v]? = some true ↔
          (st1.h_graph_visited[v]? = some true ∨
            st1.h_updating_graph_mask[v]? = some true)) ∧
        st2.h_cost = st1.h_cost ∧
        (stop = true ↔ ∃ v : Nat, st1.h_updating_graph_mask[v]? = some true) ∧
        (∀ v : Nat, st1.h_updating_graph_mask[v]? = some true →
          st1.h_graph_visited[v]? = some false) ∧
        (stop = true →
          st1.h_graph_visited.count true < st2.h_graph_visited.count true)) ∧
    (∀ fuel, g.N ≤ fuel → ∃ st k, BFSGraphSched sched fuel g source = .ok (st, k) ∧
      ∀ v : Nat, v < g.N →
        st.h_graph_mask[v]? = some false ∧ st.h_updating_graph_mask[v]? = some false) := by
  constructor
  · intro k st hat
    have hinv := atLevel_inv hwf hsrc hsched hat
    obtain ⟨st1, h1, hinv1⟩ := expandPass_spec hwf (covers_of_perm (hsched k).1) hinv
    obtain ⟨st2, stop, h2, hci, hcom⟩ :=
      commitPass_cells (covers_of_perm (hsched k).2) hinv1
    have hcore1 := hinv1.core
    have hunvis : ∀ v : Nat, st1.h_updating_graph_mask[v]? = some true →
        st1.h_graph_visited[v]? = some false := by
      intro v hv
      have hvN : v < g.N := by
        have := lt_of_getElem? hv
        rw [hcore1.len_upd] at this
        exact this
      have hd := hcore1.upd_sound v hv
      have hnw : ¬ Within g source.toNat k v := not_within_of_isDist hd (Nat.lt_succ_self k)
      obtain ⟨b, hb⟩ := getElem?_of_lt (hcore1.len_vis ▸ hvN : v < st1.h_graph_visited.length)
      cases b with
      | false => exact hb
      | true => exact absurd ((hcore1.vis_iff v).1 hb) hnw
    have hvis : ∀ v : Nat, st2.h_graph_visited[v]? = some true ↔
        (st1.h_graph_visited[v]? = some true ∨
          st1.h_updating_graph_mask[v]? = some true) := by
      intro v
      by_cases hvN : v < g.N
      · exact (hcom v hvN).2.2.1
      · constructor
        · intro hv
          have := lt_of_getElem? hv
          rw [hci.len_vis] at this
          exact absurd this hvN
        · rintro (hv | hv)
          · have := lt_of_getElem? hv
            rw [hcore1.len_vis] at this
            exact absurd this hvN
          · have := lt_of_getElem? hv
            rw [hcore1.len_upd] at this
            exact absurd this hvN
    have hstop : stop = true ↔ ∃ v : Nat, st1.h_updating_graph_mask[v]? = some true := by
      constructor
      · exact hci.stop_sound
      · rintro ⟨v, hv⟩
        have hvN : v < g.N := by
          have := lt_of_getElem? hv
          rw [hcore1.len_upd] at this
          exact this
        exact (hcom v hvN).2.2.2 hv
    have hlen : st2.h_graph_visited.length = st1.h_graph_visited.length := by
      rw [hci.len_vis, hcore1.len_vis]
    refine ⟨st1, st2, stop, h1, h2, fun v hv => (hcom v hv).1, ?_, hlen, hvis, hci.cost_eq,
      hstop, hunvis, ?_⟩
    · apply List.ext_getElem?
      intro v
      by_cases hvN : v < g.N
      · exact (hcom v hvN).2.1
      · rw [List.getElem?_eq_none (by rw [hci.len_mask]; omega),
          List.getElem?_eq_none (by rw [hcore1.len_upd]; omega)]
    · intro hs
      obtain ⟨v, hv⟩ := hstop.1 hs
      exact count_true_lt _ _ hlen.symm (fun i hi => (hvis i).2 (Or.inl hi))
        ⟨v, hunvis v hv, (hvis v).2 (Or.inr hv)⟩
  · intro fuel hfuel
    obtain ⟨st, k, hrun, m, _, hinv, _, hno⟩ := run_spec hwf hsrc hsched hfuel
    refine ⟨st, k, hrun, fun v hv => ⟨?_, hinv.upd_clear v hv⟩⟩
    obtain ⟨b, hb⟩ :=
      getElem?_of_lt (hinv.core.len_mask ▸ hv : v < st.h_graph_mask.length)
    cases b with
    | false => exact hb
    | true => exact absurd ⟨v, hinv.core.mask_sound v hb⟩ hno

theorem C17_commit_pass_and_halting_witness :
    ∃ st1 st2 stop,
      expandPass lineGraph ((seqSchedule lineGraph) 0).1
        ⟨[true, false, false, false], [false, false, false, false],
          [true, false, false, false], [0, -1, -1, -1], [⟨0, 0, [0, -1, -1, -1]⟩]⟩ =
        .ok st1 ∧
      commitPass ((seqSchedule lineGraph) 0).2 st1 = .ok (st2, stop) ∧
      st2.h_graph_mask = st1.h_updating_graph_mask ∧ st2.h_cost = st1.h_cost := by
  have hat : AtLevel lineGraph (seqSchedule lineGraph) 0 0
      ⟨[true, false, false, false], [false, false, false, false],
        [true, false, false, false], [0, -1, -1, -1], [⟨0, 0, [0, -1, -1, -1]⟩]⟩ :=
    AtLevel.init rfl
  obtain ⟨st1, st2, stop, h1, h2, _, h4, _, _, h7, _⟩ :=
    (C17_commit_pass_and_halting lineGraph 0 (seqSchedule lineGraph) (by decide)
      (by decide) (validSchedule_seq _)).1 0 _ hat
  exact ⟨st1, st2, stop, h1, h2, h4, h7⟩

/-! ## Index safety -/

theorem levelLoop_in_bounds {g : Graph} (hwf : WellFormed g) {sched : Schedule}
    (hsched : ValidSchedule g sched) {s : Nat} :
    ∀ (fuel : Nat) (st : State) (k : Nat), LevelInv g s k st →
      levelLoop g sched fuel st k ≠ .error .outOfBounds := by
  intro fuel
  induction fuel with
  | zero =>
    intro st k _ h
    cases h
  | succ fuel ih =>
    intro st k hinv
    obtain ⟨st2, stop, hstep, hinv2, _⟩ := levelStep_spec hwf hsched hinv
    cases stop with
    | true =>
      simp only [levelLoop, hstep, bind, Except.bind, if_true]
      exact ih st2 (k + 1) hinv2
    | false =>
      intro h
      simp [levelLoop, hstep, bind, Except.bind, pure, Except.pure] at h

/-- C18: under the well-formedness precondition (`N >= 1`, `0 <= source < N`,
every node with `0 <= starting` and `starting + no_of_edges <= M`, every
destination id in `[0, N)`) and for every schedule, the initialisation returns,
in every level step the loop executes the expand pass and the commit pass
return, and whatever the fuel the run never ends in the out-of-bounds fault:
every array access of the traversal is within bounds. -/
theorem C18_index_safety (g : Graph) (source : Int) (sched : Schedule)
    (hwf : WellFormed g) (hsrc : InRange g source) (hsched : ValidSchedule g sched) :
    (∃ st0, initState g source = .ok st0) ∧
    (∀ (k : Nat) (st : State), AtLevel g sched source k st →
      ∃ st1 st2 stop, expandPass g (sched k).1 st = .ok st1 ∧
        commitPass (sched k).2 st1 = .ok (st2, stop)) ∧
    (∀ fuel, BFSGraphSched sched fuel g source ≠ .error .outOfBounds) := by
  obtain ⟨st0, hinit, hinv0, _, _⟩ := initState_spec hwf hsrc
  refine ⟨⟨st0, hinit⟩, ?_, ?_⟩
  · intro k st hat
    have hinv := atLevel_inv hwf hsrc hsched hat
    obtain ⟨st1, h1, hinv1⟩ := expandPass_spec hwf (covers_of_perm (hsched k).1) hinv
    obtain ⟨st2, stop, h2, _⟩ := commitPass_spec hwf (covers_of_perm (hsched k).2) hinv1
    exact ⟨st1, st2, stop, h1, h2⟩
  · intro fuel
    simp only [BFSGraphSched, hinit, bind, Except.bind]
    exact levelLoop_in_bounds hwf hsched fuel st0 0 hinv0

theorem C18_index_safety_witness :
    WellFormed cycleGraph ∧ InRange cycleGraph 2 ∧
    (∃ st0, initState cycleGraph 2 = .ok st0) ∧
    (∀ fuel, BFSGraphSched (revSchedule cycleGraph) fuel cycleGraph 2 ≠
      .error .outOfBounds) :=
  ⟨by decide, by decide,
    (C18_index_safety cycleGraph 2 (revSchedule cycleGraph) (by decide) (by decide)
      (validSchedule_rev _)).1,
    (C18_index_safety cycleGraph 2 (revSchedule cycleGraph) (by decide) (by decide)
      (validSchedule_rev _)).2.2⟩

/-! ## The builder: degrees -/

theorem genEdge_adj_length {rand randNode : Nat → Nat} {i j : Nat} {st st2 : GenState}
    (h : genEdge rand randNode i st j = .ok st2) (k : Nat) :
    (adjOf st.graph k).length + (if k = i then 1 else 0) ≤ (adjOf st2.graph k).length := by
  unfold genEdge at h
  cases h1 : pushBack st.graph i
      ⟨randNode st.n, rand st.r % (MAX_WEIGHT - MIN_WEIGHT + 1) + MIN_WEIGHT⟩ with
  | error e =>
    simp [h1, bind, Except.bind] at h
  | ok g1 =>
    cases h2 : pushBack g1 (randNode st.n)
        ⟨i, rand st.r % (MAX_WEIGHT - MIN_WEIGHT + 1) + MIN_WEIGHT⟩ with
    | error e =>
      simp [h1, h2, bind, Except.bind] at h
    | ok g2 =>
      simp only [h1, h2, bind, Except.bind, pure, Except.pure] at h
      cases h
      show (adjOf st.graph k).length + (if k = i then 1 else 0) ≤ (adjOf g2 k).length
      rw [pushBack_adjOf h2 k]
      have hi1 := pushBack_adjOf h1 i
      have hk1 := pushBack_adjOf h1 k
      have hn1 := pushBack_adjOf h1 (randNode st.n)
      by_cases hki : k = i
      · subst hki
        rw [if_pos rfl] at hk1
        rw [if_pos rfl]
        split
        · rename_i heq
          rw [← heq, hk1]
          simp only [List.length_append, List.length_singleton]
          omega
        · rw [hk1]
          simp only [List.length_append, List.length_singleton]
          omega
      · rw [if_neg hki] at hk1
        rw [if_neg hki]
        split
        · rename_i heq
          rw [← heq, hk1]
          simp only [List.length_append, List.length_singleton]
          omega
        · rw [hk1]
          omega

theorem genEdge_fold_adj_length {rand randNode : Nat → Nat} {i : Nat} :
    ∀ (js : List Nat) (st st2 : GenState),
      js.foldlM (genEdge rand randNode i) st = .ok st2 → ∀ k : Nat,
      (adjOf st.graph k).length + (if k = i then js.length else 0) ≤
        (adjOf st2.graph k).length := by
  intro js
  induction js with
  | nil =>
    intro st st2 h k
    cases h
    split <;> simp
  | cons j js ih =>
    intro st st2 h k
    rw [List.foldlM_cons] at h
    cases h1 : genEdge rand randNode i st j with
    | error e =>
      rw [h1] at h
      cases h
    | ok s1 =>
      rw [h1] at h
      have ha := genEdge_adj_length h1 k
      have hb := ih s1 st2 h k
      simp only [List.length_cons]
      split at ha <;> split at hb <;> split <;> omega

theorem genNode_adj_length {rand randNode : Nat → Nat} {i : Nat} {st st2 : GenState}
    (h : genNode rand randNode st i = .ok st2) (k : Nat) :
    (adjOf st.graph k).length + (if k = i then 2 else 0) ≤ (adjOf st2.graph k).length := by
  unfold genNode at h
  have hfold := genEdge_fold_adj_length _ _ st2 h k
  rw [List.length_range] at hfold
  have hge : 2 ≤ rand st.r % (MAX_INIT_EDGES - MIN_EDGES + 1) + MIN_EDGES :=
    Nat.le_add_left 2 _
  generalize rand st.r % (MAX_INIT_EDGES - MIN_EDGES + 1) + MIN_EDGES = d at hfold hge
  have hsame : adjOf ({ st with r := st.r + 1 } : GenState).graph k = adjOf st.graph k := rfl
  rw [hsame] at hfold
  by_cases hk : k = i
  · rw [if_pos hk] at hfold ⊢
    omega
  · rw [if_neg hk] at hfold ⊢
    omega

theorem genNode_fold_adj_length {rand randNode : Nat → Nat} :
    ∀ (l : List Nat) (st st2 : GenState),
      l.foldlM (genNode rand randNode) st = .ok st2 →
      (∀ k : Nat, (adjOf st.graph k).length ≤ (adjOf st2.graph k).length) ∧
      ∀ i, i ∈ l → 2 ≤ (adjOf st2.graph i).length := by
  intro l
  induction l with
  | nil =>
    intro st st2 h
    cases h
    exact ⟨fun _ => Nat.le_refl _, fun i hi => by cases hi⟩
  | cons a l ih =>
    intro st st2 h
    rw [List.foldlM_cons] at h
    cases h1 : genNode rand randNode st a with
    | error e =>
      rw [h1] at h
      cases h
    | ok s1 =>
      rw [h1] at h
      obtain ⟨hmono, hall⟩ := ih s1 st2 h
      have hstep := genNode_adj_length h1
      refine ⟨fun k => ?_, fun i hi => ?_⟩
      · have := hstep k
        have := hmono k
        split at * <;> omega
      · rcases List.mem_cons.1 hi with rfl | hi
        · have h2 := hstep i
          rw [if_pos rfl] at h2
          have := hmono i
          omega
        · exact hall i hi

/-- Every node of the generated graph has at least two edge records. -/
theorem generate_degree_ge_two {rand randNode : Nat → Nat} {N : Nat} {st : GenState}
    (hlen : st.graph.length = N) (h : generate rand randNode N = .ok st) :
    ∀ (i : Nat) (l : List edge), st.graph[i]? = some l → 2 ≤ l.length := by
  intro i l hl
  have hi : i < N := by
    have := lt_of_getElem? hl
    omega
  have := (genNode_fold_adj_length (List.range N) _ st h).2 i (List.mem_range.2 hi)
  unfold adjOf at this
  rw [hl] at this
  exact this

theorem table_degree_ge_two {graph : List (List edge)}
    (hdeg : ∀ (i : Nat) (l : List edge), graph[i]? = some l → 2 ≤ l.length)
    {i : Nat} {p : Nat × Nat} (hp : (prefixTable 0 graph)[i]? = some p) : 2 ≤ p.2 := by
  have hi : i < graph.length := by
    have := lt_of_getElem? hp
    rw [prefixTable_length] at this
    exact this
  obtain ⟨l, hl⟩ := getElem?_of_lt hi
  rw [prefixTable_getElem? graph 0 i l hl] at hp
  have := Option.some.inj hp
  rw [← this]
  exact hdeg i l hl

/-- In every output of the builders each node, and so the source, has at
least two edge records. -/
theorem builder_degree_ge_two (rand : Nat → Nat) {randNode : Nat → Nat} {N : Nat}
    (hN : 20 ≤ N) (hdraw : ∀ n, randNode n < N) :
    ∃ st, generate rand randNode N = .ok st ∧ st.graph.length = N ∧
      (∀ (i : Nat) (l : List edge), st.graph[i]? = some l → 2 ≤ l.length) ∧
      (∀ g source, generate_random_graph rand randNode (N : Int) = .ok (g, source) →
        (∀ (i : Nat) (nd : Node), g.h_graph_nodes[i]? = some nd → 2 ≤ nd.no_of_edges) ∧
        ∃ nd, g.h_graph_nodes[source.toNat]? = some nd ∧ 2 ≤ nd.no_of_edges) ∧
      (∀ file, graphgen rand randNode N = .ok file →
        (∀ (i : Nat) (p : Nat × Nat), file.nodeLines[i]? = some p → 2 ≤ p.2) ∧
        ∃ p, file.nodeLines[file.source]? = some p ∧ 2 ≤ p.2) := by
  obtain ⟨st, hgen, hlen, _, _⟩ :=
    generate_spec rand randNode N 2 4 hdraw (fun n => by omega) (fun n => by omega)
  have hdeg := generate_degree_ge_two hlen hgen
  refine ⟨st, hgen, hlen, hdeg, ?_, ?_⟩
  · intro g source hg
    have hdraw2 : ∀ n, randNode n < ((N : Int)).toNat := by
      intro n
      rw [Int.toNat_ofNat]
      exact hdraw n
    obtain ⟨st2, hgen2, _, _, hlt, hgeq, hsrc⟩ :=
      generate_random_graph_inv (by omega) hdraw2 hg
    rw [Int.toNat_ofNat] at hgen2
    have hst := generate_unique hgen2 hgen
    subst hst
    have hall : ∀ (i : Nat) (nd : Node), g.h_graph_nodes[i]? = some nd →
        2 ≤ nd.no_of_edges := by
      intro i nd hnd
      rw [hgeq] at hnd
      simp only [List.getElem?_map] at hnd
      cases hp : (prefixTable 0 st2.graph)[i]? with
      | none =>
        rw [hp] at hnd
        cases hnd
      | some p =>
        rw [hp] at hnd
        have h2 := table_degree_ge_two hdeg hp
        have h3 := Option.some.inj hnd
        rw [← h3]
        show (2 : Int) ≤ (p.2 : Int)
        omega
    refine ⟨hall, ?_⟩
    have hs := hdraw st2.n
    have hsrc2 : source.toNat = randNode st2.n := by
      rw [hsrc, toInt32_natCast (by omega), Int.toNat_ofNat]
    have hlt2 : source.toNat < g.h_graph_nodes.length := by
      rw [hgeq, hsrc2]
      simp only [List.length_map, prefixTable_length]
      omega
    obtain ⟨nd, hnd⟩ := getElem?_of_lt hlt2
    exact ⟨nd, hnd, hall _ nd hnd⟩
  · intro file hf
    obtain ⟨st2, hgen2, _, hfeq⟩ := graphgen_inv hdraw hf
    have hst := generate_unique hgen2 hgen
    subst hst
    have hall : ∀ (i : Nat) (p : Nat × Nat), file.nodeLines[i]? = some p → 2 ≤ p.2 := by
      intro i p hp
      rw [hfeq] at hp
      exact table_degree_ge_two hdeg hp
    refine ⟨hall, ?_⟩
    have hlt2 : file.source < file.nodeLines.length := by
      rw [hfeq]
      show randNode st2.n < (prefixTable 0 st2.graph).length
      rw [prefixTable_length, hlen]
      exact hdraw _
    obtain ⟨p, hp⟩ := getElem?_of_lt hlt2
    exact ⟨p, hp, hall _ p hp⟩

/-- C19, as stated, fails: there is no run of `generate_random_graph` and no
run of `graphgen` (node count at least 20, destinations drawn in `[0, N)`)
whose output gives the drawn source node the degree 0. -/
theorem C19_counterexample :
    (¬ ∃ (rand randNode : Nat → Nat) (N : Nat) (g : Graph) (source : Int) (nd : Node),
      20 ≤ N ∧ (∀ n, randNode n < N) ∧
      generate_random_graph rand randNode (N : Int) = .ok (g, source) ∧
      g.h_graph_nodes[source.toNat]? = some nd ∧ nd.no_of_edges = 0) ∧
    (¬ ∃ (rand randNode : Nat → Nat) (N : Nat) (file : GraphFile) (p : Nat × Nat),
      20 ≤ N ∧ (∀ n, randNode n < N) ∧
      graphgen rand randNode N = .ok file ∧
      file.nodeLines[file.source]? = some p ∧ p.2 = 0) := by
  constructor
  · rintro ⟨rand, randNode, N, g, source, nd, hN, hdraw, hg, hnd, h0⟩
    obtain ⟨st, _, _, _, hgr, _⟩ := builder_degree_ge_two rand hN hdraw
    have := (hgr g source hg).1 _ nd hnd
    omega
  · rintro ⟨rand, randNode, N, file, p, hN, hdraw, hf, hp, h0⟩
    obtain ⟨st, _, _, _, _, hfile⟩ := builder_degree_ge_two rand hN hdraw
    have := (hfile file hf).1 _ p hp
    omega

/-- C19, amended: in every Builder run (node count `N >= 20`, destinations
drawn in `[0, N)`) every node has at least two edge records, because each node
draws at least `MIN_EDGES = 2` edges of its own; in every output of
`generate_random_graph` and of `graphgen` every degree, in particular the
degree of the drawn source, is at least 2, so the source is never isolated. -/
theorem C19_source_never_isolated (rand randNode : Nat → Nat) (N : Nat)
    (hN : 20 ≤ N) (hdraw : ∀ n, randNode n < N) :
    ∃ st, generate rand randNode N = .ok st ∧ st.graph.length = N ∧
      (∀ (i : Nat) (l : List edge), st.graph[i]? = some l → 2 ≤ l.length) ∧
      (∀ g source, generate_random_graph rand randNode (N : Int) = .ok (g, source) →
        (∀ (i : Nat) (nd : Node), g.h_graph_nodes[i]? = some nd → 2 ≤ nd.no_of_edges) ∧
        ∃ nd, g.h_graph_nodes[source.toNat]? = some nd ∧ 2 ≤ nd.no_of_edges) ∧
      (∀ file, graphgen rand randNode N = .ok file →
        (∀ (i : Nat) (p : Nat × Nat), file.nodeLines[i]? = some p → 2 ≤ p.2) ∧
        ∃ p, file.nodeLines[file.source]? = some p ∧ 2 ≤ p.2) :=
  builder_degree_ge_two rand hN hdraw

theorem C19_source_never_isolated_witness :
    graphgen (fun k => k) (fun k => (7 * k + 3) % 20) 20 = .ok sampleFile ∧
    ∃ p, sampleFile.nodeLines[sampleFile.source]? = some p ∧ 2 ≤ p.2 := by
  obtain ⟨_, _, _, _, _, hfile⟩ :=
    C19_source_never_isolated (fun k => k) (fun k => (7 * k + 3) % 20) 20
      (by decide) (fun n => Nat.mod_lt _ (by decide))
  exact ⟨rfl, (hfile sampleFile rfl).2⟩

/-! ## The builder: number of edge records and weights -/

theorem pushBack_weights {graph g2 : List (List edge)} {i : Nat} {e : edge}
    (h : pushBack graph i e = .ok g2) (hg : WeightsInRange graph)
    (he : 1 ≤ e.weight ∧ e.weight ≤ 10) : WeightsInRange g2 := by
  unfold pushBack at h
  cases hl : graph[i]? with
  | none =>
    rw [hl] at h
    cases h
  | some l =>
    rw [hl] at h
    cases h
    intro l2 hl2 x hx
    rcases List.mem_or_eq_of_mem_set hl2 with hmem | heq
    · exact hg l2 hmem x hx
    · subst heq
      rcases List.mem_append.1 hx with hx1 | hx1
      · exact hg l (List.getElem?_mem hl) x hx1
      · simp only [List.mem_singleton] at hx1
        subst hx1
        exact he

theorem genEdge_weights {rand randNode : Nat → Nat} {i j : Nat} {st st2 : GenState}
    (h : genEdge rand randNode i st j = .ok st2) (hg : WeightsInRange st.graph) :
    WeightsInRange st2.graph := by
  have hw : 1 ≤ rand st.r % (MAX_WEIGHT - MIN_WEIGHT + 1) + MIN_WEIGHT ∧
      rand st.r % (MAX_WEIGHT - MIN_WEIGHT + 1) + MIN_WEIGHT ≤ 10 := by
    have : rand st.r % 10 < 10 := Nat.mod_lt _ (by decide)
    show 1 ≤ rand st.r % 10 + 1 ∧ rand st.r % 10 + 1 ≤ 10
    omega
  unfold genEdge at h
  cases h1 : pushBack st.graph i
      ⟨randNode st.n, rand st.r % (MAX_WEIGHT - MIN_WEIGHT + 1) + MIN_WEIGHT⟩ with
  | error e =>
    simp [h1, bind, Except.bind] at h
  | ok g1 =>
    cases h2 : pushBack g1 (randNode st.n)
        ⟨i, rand st.r % (MAX_WEIGHT - MIN_WEIGHT + 1) + MIN_WEIGHT⟩ with
    | error e =>
      simp [h1, h2, bind, Except.bind] at h
    | ok g2 =>
      simp only [h1, h2, bind, Except.bind, pure, Except.pure] at h
      cases h
      exact pushBack_weights h2 (pushBack_weights h1 hg hw) hw

theorem generate_weights {rand randNode : Nat → Nat} {N : Nat} {st : GenState}
    (h : generate rand randNode N = .ok st) : WeightsInRange st.graph := by
  refine foldlM_preserve (genNode rand randNode) (fun s => WeightsInRange s.graph)
    (List.range N) ?_ _ st h ?_
  · intro s i s2 _ hs hinv
    unfold genNode at hs
    refine foldlM_preserve (genEdge rand randNode i) (fun s => WeightsInRange s.graph) _ ?_
      _ s2 hs hinv
    intro a j a2 _ ha hinva
    exact genEdge_weights ha hinva
  · intro l hl e he
    have := List.eq_of_mem_replicate hl
    subst this
    cases he

theorem genNode_spec_calls (rand : Nat → Nat) {randNode : Nat → Nat} {i N : Nat}
    (hdraw : ∀ n, randNode n < N) (hi : i < N) (st : GenState) (hst : st.graph.length = N) :
    ∃ st2, genNode rand randNode st i = .ok st2 ∧ st2.graph.length = N ∧
      st2.graph.flatten.length = st.graph.flatten.length + 2 * (rand st.r % 3 + 2) ∧
      st2.r = st.r + 1 + (rand st.r % 3 + 2) := by
  obtain ⟨st2, h2, hl2, hf2, hr2⟩ :=
    genEdge_fold_spec rand hdraw hi
      (List.range (rand st.r % (MAX_INIT_EDGES - MIN_EDGES + 1) + MIN_EDGES))
      { st with r := st.r + 1 } hst
  refine ⟨st2, h2, hl2, ?_, ?_⟩
  · rw [hf2, List.length_range]
    rfl
  · rw [hr2, List.length_range]
    rfl

theorem genNode_fold_exact (rand : Nat → Nat) {randNode : Nat → Nat} {N : Nat}
    (hdraw : ∀ n, randNode n < N) :
    ∀ (l : List Nat) (st : GenState), (∀ i, i ∈ l → i < N) → st.graph.length = N →
      ∃ st2, l.foldlM (genNode rand randNode) st = .ok st2 ∧
        st2.graph.flatten.length =
          st.graph.flatten.length + 2 * (outDegrees rand l.length st.r).sum := by
  intro l
  induction l with
  | nil =>
    intro st _ _
    exact ⟨st, rfl, by simp [outDegrees]⟩
  | cons a l ih =>
    intro st hl hst
    obtain ⟨st1, h1, hl1, hf1, hr1⟩ :=
      genNode_spec_calls rand hdraw (hl a (List.mem_cons_self _ _)) st hst
    obtain ⟨st2, h2, hf2⟩ := ih st1 (fun i hi => hl i (List.mem_cons_of_mem _ hi)) hl1
    refine ⟨st2, ?_, ?_⟩
    · rw [List.foldlM_cons, h1]
      exact h2
    · rw [hf2, hf1, hr1]
      simp only [List.length_cons, outDegrees, List.sum_cons]
      omega

theorem outDegrees_length (rand : Nat → Nat) :
    ∀ (n r : Nat), (outDegrees rand n r).length = n := by
  intro n
  induction n with
  | zero => intro r; rfl
  | succ n ih => intro r; simp [outDegrees, ih]

theorem outDegrees_mem (rand : Nat → Nat) :
    ∀ (n r d : Nat), d ∈ outDegrees rand n r → d = 2 ∨ d = 3 ∨ d = 4 := by
  intro n
  induction n with
  | zero =>
    intro r d h
    cases h
  | succ n ih =>
    intro r d h
    simp only [outDegrees, List.mem_cons] at h
    rcases h with rfl | h
    · have : rand r % 3 < 3 := Nat.mod_lt _ (by decide)
      omega
    · exact ih _ d h

theorem builder_edge_count (rand : Nat → Nat) {randNode : Nat → Nat} {N : Nat}
    (hdraw : ∀ n, randNode n < N) :
    ∃ st, generate rand randNode N = .ok st ∧
      st.graph.flatten.length = 2 * (outDegrees rand N 0).sum ∧
      4 * N ≤ st.graph.flatten.length ∧ st.graph.flatten.length ≤ 8 * N ∧
      (∀ e, e ∈ st.graph.flatten → 1 ≤ e.weight ∧ e.weight ≤ 10) := by
  obtain ⟨st, hgen, hf⟩ :=
    genNode_fold_exact rand hdraw (List.range N)
      { graph := List.replicate N [], r := 0, n := 0 }
      (fun i hi => List.mem_range.1 hi) (by simp)
  have h0 : (List.replicate N ([] : List edge)).flatten.length = 0 := by
    induction N with
    | zero => rfl
    | succ n ih => simp [List.replicate_succ]
  rw [h0, List.length_range, Nat.zero_add] at hf
  obtain ⟨st1, hgen1, _, hlo, hhi⟩ :=
    generate_spec rand randNode N 2 4 hdraw (fun n => by omega) (fun n => by omega)
  have hgen2 : generate rand randNode N = .ok st := hgen
  have hst : st1 = st := by
    rw [hgen1] at hgen2
    exact Except.ok.inj hgen2
  subst hst
  refine ⟨st1, hgen1, hf, by omega, by omega, ?_⟩
  intro e he
  obtain ⟨l, hl, hel⟩ := List.mem_flatten.1 he
  exact generate_weights hgen1 l hl e hel

/-- C20: in every Builder run with `N >= 20` nodes (destinations drawn in
`[0, N)`, any stream of `rand()` results) the drawn out-degrees are `N` numbers
`rand() % 3 + 2`, each 2, 3 or 4; the generation loop returns, and the number
`M` of directed edge records it has stored is twice the sum of the drawn
out-degrees, hence even, with `4 * N <= M <= 8 * N`; every stored weight is in
`[1, 10]`. Every output of `generate_random_graph` has `edge_list_size = M`
and `M` destination cells, and every output of `graphgen` has
`totalEdges = M` and `M` edge lines whose weights are in `[1, 10]`. -/
theorem C20_edge_count_bounds (rand randNode : Nat → Nat) (N : Nat)
    (hN : 20 ≤ N) (hdraw : ∀ n, randNode n < N) :
    (outDegrees rand N 0).length = N ∧
    (∀ d, d ∈ outDegrees rand N 0 → d = 2 ∨ d = 3 ∨ d = 4) ∧
    ∃ st, generate rand randNode N = .ok st ∧
      st.graph.flatten.length = 2 * (outDegrees rand N 0).sum ∧
      st.graph.flatten.length % 2 = 0 ∧
      4 * N ≤ st.graph.flatten.length ∧ st.graph.flatten.length ≤ 8 * N ∧
      (∀ e, e ∈ st.graph.flatten → 1 ≤ e.weight ∧ e.weight ≤ 10) ∧
      (∀ g source, generate_random_graph rand randNode (N : Int) = .ok (g, source) →
        g.edge_list_size = (st.graph.flatten.length : Int) ∧
        g.h_graph_edges.length = st.graph.flatten.length) ∧
      (∀ file, graphgen rand randNode N = .ok file →
        file.totalEdges = st.graph.flatten.length ∧
        file.edgeLines.length = st.graph.flatten.length ∧
        ∀ p, p ∈ file.edgeLines → 1 ≤ p.2 ∧ p.2 ≤ 10) := by
  refine ⟨outDegrees_length rand N 0, outDegrees_mem rand N 0, ?_⟩
  obtain ⟨st, hgen, hf, hlo, hhi, hw⟩ := builder_edge_count rand hdraw
  refine ⟨st, hgen, hf, by omega, hlo, hhi, hw, ?_, ?_⟩
  · intro g source hg
    have hN2 : (20 : Int) ≤ (N : Int) := by exact_mod_cast hN
    have hdraw2 : ∀ n, randNode n < ((N : Int)).toNat := by
      intro n
      rw [Int.toNat_ofNat]
      exact hdraw n
    obtain ⟨st1, hgen1, _, _, _, hgeq, _⟩ := generate_random_graph_inv hN2 hdraw2 hg
    rw [Int.toNat_ofNat, hgen] at hgen1
    have hst : st = st1 := Except.ok.inj hgen1
    subst hst
    rw [hgeq]
    exact ⟨rfl, List.length_map _ _⟩
  · intro file hfile
    obtain ⟨st1, hgen1, _, hfeq⟩ := graphgen_inv hdraw hfile
    rw [hgen] at hgen1
    have hst : st = st1 := Except.ok.inj hgen1
    subst hst
    rw [hfeq]
    refine ⟨rfl, List.length_map _ _, ?_⟩
    intro p hp
    obtain ⟨e, he, hpe⟩ := List.mem_map.1 hp
    subst hpe
    exact hw e he

theorem C20_edge_count_bounds_witness :
    graphgen (fun k => k) (fun k => (7 * k + 3) % 20) 20 = .ok sampleFile ∧
    sampleFile.totalEdges = 2 * (outDegrees (fun k => k) 20 0).sum ∧
    4 * 20 ≤ sampleFile.totalEdges ∧ sampleFile.totalEdges ≤ 8 * 20 := by
  obtain ⟨_, _, st, _, hf, _, hlo, hhi, _, _, hfile⟩ :=
    C20_edge_count_bounds (fun k => k) (fun k => (7 * k + 3) % 20) 20
      (by decide) (fun n => Nat.mod_lt _ (by decide))
  have ht := (hfile sampleFile rfl).1
  exact ⟨rfl, by rw [ht]; exact hf, by rw [ht]; exact hlo, by rw [ht]; exact hhi⟩

/-! ## Actions of the builders -/

theorem loopRun_result {σ β : Type} (f : σ → β → Except Fault σ) (ev : σ → β → List Event) :
    ∀ (l : List β) (s : σ), (loopRun f ev l s).2 = l.foldlM f s := by
  intro l
  induction l with
  | nil =>
    intro s
    rfl
  | cons b bs ih =>
    intro s
    rw [List.foldlM_cons]
    simp only [loopRun]
    cases h : f s b with
    | error e => rfl
    | ok s2 => exact ih s2

theorem generateRun_result (rand randNode : Nat → Nat) (N : Nat) :
    (generateRun rand randNode N).2 = generate rand randNode N :=
  loopRun_result _ _ _ _

theorem generate_random_graph_run_result (rand randNode : Nat → Nat) (no_of_nodes : Int) :
    (generate_random_graph_run rand randNode no_of_nodes).2 =
      generate_random_graph rand randNode no_of_nodes := by
  unfold generate_random_graph_run generate_random_graph
  by_cases hguard : no_of_nodes < MIN_NODES ∨ toUInt64 no_of_nodes > MAX_NODES
  · simp only [if_pos hguard, bind, Except.bind, throw, throwThe, MonadExceptOf.throw]
  · simp only [if_neg hguard, generateRun_result]
    cases hgen : generate rand randNode no_of_nodes.toNat with
    | error e => rfl
    | ok st =>
      simp only [bind, Except.bind, pure, Except.pure]
      cases hw : st.graph.flatten.foldlM writeDest
          (List.replicate (toInt32 (nodeTable st.graph).2).toNat (0 : Int), 0) with
      | error e => rfl
      | ok r => rfl

theorem graphgenMainRun_result (strtoul : String → Nat) (rand randNode : Nat → Nat)
    (argv : List String) :
    (graphgenMainRun strtoul rand randNode argv).2 = graphgenMain strtoul rand randNode argv := by
  unfold graphgenMainRun graphgenMain
  by_cases hlen : argv.length < 2
  · simp only [if_pos hlen]
  · simp only [if_neg hlen]
    cases ha : argv[1]? with
    | none => rfl
    | some a =>
      simp only []
      by_cases hguard : toUInt64 (strtoul a) < MIN_NODES ∨ toUInt64 (strtoul a) > MAX_NODES ∨
          a.data.head? = some '-'
      · simp only [if_pos hguard]
      · simp only [if_neg hguard, generateRun_result]
        unfold graphgen
        cases hgen : generate rand randNode (toUInt64 (strtoul a)) with
        | error e => rfl
        | ok st =>
          simp only [bind, Except.bind, pure, Except.pure]
          by_cases hwide : 2 ^ 32 ≤ toUInt64 (strtoul a) ∨
              ∃ l, l ∈ st.graph ∧ 2 ^ 32 ≤ l.length
          · simp only [if_pos hwide, throw, throwThe, MonadExceptOf.throw]
          · simp only [if_neg hwide]

theorem generate_random_graph_run_reject (rand randNode : Nat → Nat) {no_of_nodes : Int}
    (h : no_of_nodes < 20) :
    (generate_random_graph_run rand randNode no_of_nodes).1 =
      [Event.stdout
        ("Generating a random undirected graph with " ++ toString no_of_nodes ++ " nodes\n"),
       Event.stderr
        ("Error: Invalid node count argument from argv[3]: " ++ toString no_of_nodes ++
          "\n")] := by
  have hguard : no_of_nodes < MIN_NODES ∨ toUInt64 no_of_nodes > MAX_NODES := by
    left
    unfold MIN_NODES
    omega
  unfold generate_random_graph_run
  simp only [if_pos hguard]
  rfl

theorem generate_random_graph_run_accept (rand randNode : Nat → Nat) {no_of_nodes : Int}
    (h : 20 ≤ no_of_nodes) :
    Event.newArray no_of_nodes.toNat ∈ (generate_random_graph_run rand randNode no_of_nodes).1 := by
  have hguard := builder_guard_false h
  unfold generate_random_graph_run
  simp only [if_neg hguard]
  split
  · simp
  · split
    · simp
    · simp

theorem graphgenMainRun_reject (strtoul : String → Nat) (rand randNode : Nat → Nat)
    (prog a : String) (rest : List String)
    (h : toUInt64 (strtoul a) < 20 ∨ a.data.head? = some '-') :
    (graphgenMainRun strtoul rand randNode (prog :: a :: rest)).1 =
      [Event.stderr ("Error: Invalid argument: " ++ a ++ "\n")] := by
  have hlen : ¬ ((prog :: a :: rest).length < 2) := by
    simp
  have hguard : toUInt64 (strtoul a) < MIN_NODES ∨ toUInt64 (strtoul a) > MAX_NODES ∨
      a.data.head? = some '-' := by
    rcases h with h | h
    · left
      unfold MIN_NODES
      exact h
    · exact Or.inr (Or.inr h)
  unfold graphgenMainRun
  simp only [if_neg hlen, List.getElem?_cons_succ, List.getElem?_cons_zero, if_pos hguard]

theorem graphgenMainRun_accept (strtoul : String → Nat) (rand randNode : Nat → Nat)
    (prog a : String) (rest : List String)
    (h : ¬ (toUInt64 (strtoul a) < 20 ∨ a.data.head? = some '-')) :
    Event.newArray (toUInt64 (strtoul a)) ∈
      (graphgenMainRun strtoul rand randNode (prog :: a :: rest)).1 := by
  have hlen : ¬ ((prog :: a :: rest).length < 2) := by
    simp
  have hmax : ¬ (toUInt64 (strtoul a) > MAX_NODES) := by
    have h1 : ((strtoul a : Nat) : Int) % 2 ^ 64 < 2 ^ 64 := Int.emod_lt_of_pos _ (by norm_num)
    unfold MAX_NODES toUInt64
    omega
  have hguard : ¬ (toUInt64 (strtoul a) < MIN_NODES ∨ toUInt64 (strtoul a) > MAX_NODES ∨
      a.data.head? = some '-') := by
    rintro (h1 | h1 | h1)
    · exact h (Or.inl (by unfold MIN_NODES at h1; exact h1))
    · exact hmax h1
    · exact h (Or.inr h1)
  unfold graphgenMainRun
  simp only [if_neg hlen, List.getElem?_cons_succ, List.getElem?_cons_zero, if_neg hguard]
  split
  · simp
  · split
    · simp
    · simp

theorem any_false_of_messages (l : List Event)
    (h : ∀ e, e ∈ l → (∃ t, e = Event.stdout t) ∨ (∃ t, e = Event.stderr t)) :
    l.any Event.isStorage = false ∧ l.any Event.isOutput = false := by
  constructor
  · rw [List.any_eq_false]
    intro e he
    rcases h e he with ⟨t, rfl⟩ | ⟨t, rfl⟩ <;> simp [Event.isStorage]
  · rw [List.any_eq_false]
    intro e he
    rcases h e he with ⟨t, rfl⟩ | ⟨t, rfl⟩ <;> simp [Event.isOutput]

theorem any_storage_of_newArray {l : List Event} {n : Nat} (h : Event.newArray n ∈ l) :
    l.any Event.isStorage = true :=
  List.any_eq_true.2 ⟨_, h, rfl⟩

theorem generate_random_graph_run_quiet_iff (rand randNode : Nat → Nat) (no_of_nodes : Int) :
    ((generate_random_graph_run rand randNode no_of_nodes).1.any Event.isStorage = false ∧
      (generate_random_graph_run rand randNode no_of_nodes).1.any Event.isOutput = false) ↔
      no_of_nodes < 20 := by
  constructor
  · rintro ⟨h, _⟩
    by_contra hN
    have hmem := generate_random_graph_run_accept rand randNode (Int.not_lt.1 hN)
    rw [any_storage_of_newArray hmem] at h
    cases h
  · intro hN
    rw [generate_random_graph_run_reject rand randNode hN]
    refine any_false_of_messages _ ?_
    intro e he
    simp only [List.mem_cons, List.mem_singleton, List.not_mem_nil, or_false] at he
    rcases he with rfl | rfl
    · exact Or.inl ⟨_, rfl⟩
    · exact Or.inr ⟨_, rfl⟩

theorem generate_random_graph_run_log_iff (rand randNode : Nat → Nat) (no_of_nodes : Int) :
    (generate_random_graph_run rand randNode no_of_nodes).1 =
      [Event.stdout
        ("Generating a random undirected graph with " ++ toString no_of_nodes ++ " nodes\n"),
       Event.stderr
        ("Error: Invalid node count argument from argv[3]: " ++ toString no_of_nodes ++
          "\n")] ↔ no_of_nodes < 20 := by
  constructor
  · intro h
    by_contra hN
    have hmem := generate_random_graph_run_accept rand randNode (Int.not_lt.1 hN)
    rw [h] at hmem
    simp at hmem
  · exact generate_random_graph_run_reject rand randNode

theorem graphgenMainRun_quiet_iff (strtoul : String → Nat) (rand randNode : Nat → Nat)
    (prog a : String) (rest : List String) :
    ((graphgenMainRun strtoul rand randNode (prog :: a :: rest)).1.any Event.isStorage = false ∧
      (graphgenMainRun strtoul rand randNode (prog :: a :: rest)).1.any Event.isOutput = false) ↔
      (toUInt64 (strtoul a) < 20 ∨ a.data.head? = some '-') := by
  constructor
  · rintro ⟨h, _⟩
    by_contra hN
    have hmem := graphgenMainRun_accept strtoul rand randNode prog a rest hN
    rw [any_storage_of_newArray hmem] at h
    cases h
  · intro hN
    rw [graphgenMainRun_reject strtoul rand randNode prog a rest hN]
    refine any_false_of_messages _ ?_
    intro e he
    simp only [List.mem_singleton] at he
    exact Or.inr ⟨_, he⟩

theorem graphgenMainRun_log_iff (strtoul : String → Nat) (rand randNode : Nat → Nat)
    (prog a : String) (rest : List String) :
    (graphgenMainRun strtoul rand randNode (prog :: a :: rest)).1 =
      [Event.stderr ("Error: Invalid argument: " ++ a ++ "\n")] ↔
      (toUInt64 (strtoul a) < 20 ∨ a.data.head? = some '-') := by
  constructor
  · intro h
    by_contra hN
    have hmem := graphgenMainRun_accept strtoul rand randNode prog a rest hN
    rw [h] at hmem
    simp at hmem
  · exact graphgenMainRun_reject strtoul rand randNode prog a rest

/-- C13: `generate_random_graph` ends with `exit(1)` exactly when the node
count is below 20, and the entry point of `graphgen`, given a node count
argument, exactly when the parsed count is below 20 or the argument starts
with `-` (without such an argument it ends with `exit(1)` as well); no other
exit code occurs, so every node count of at least 20 is accepted. The runs
with their actions have these same results, and a run is rejected exactly
when it obtains no graph storage (no `new`, `push_back` or `malloc`) and
produces no graph output (no output parameter assigned, no file opened or
written): the actions of a rejected run are the error message on the standard
error stream, preceded for `generate_random_graph` by the progress line that
line 47 prints before the guard, and nothing else; every accepted run starts
by obtaining the array of adjacency lists. -/
theorem C13_builder_rejects_small_node_count (strtoul : String → Nat)
    (rand randNode : Nat → Nat) (no_of_nodes : Int) (prog a : String) (rest : List String) :
    (generate_random_graph rand randNode no_of_nodes = .error (.exit 1) ↔ no_of_nodes < 20) ∧
    (∀ c, generate_random_graph rand randNode no_of_nodes = .error (.exit c) → c = 1) ∧
    (graphgenMain strtoul rand randNode (prog :: a :: rest) = .error (.exit 1) ↔
      (toUInt64 (strtoul a) < 20 ∨ a.data.head? = some '-')) ∧
    (∀ c, graphgenMain strtoul rand randNode (prog :: a :: rest) = .error (.exit c) → c = 1) ∧
    graphgenMain strtoul rand randNode [prog] = .error (.exit 1) ∧
    graphgenMain strtoul rand randNode [] = .error (.exit 1) ∧
    (generate_random_graph_run rand randNode no_of_nodes).2 =
      generate_random_graph rand randNode no_of_nodes ∧
    (∀ argv, (graphgenMainRun strtoul rand randNode argv).2 =
      graphgenMain strtoul rand randNode argv) ∧
    (((generate_random_graph_run rand randNode no_of_nodes).1.any Event.isStorage = false ∧
      (generate_random_graph_run rand randNode no_of_nodes).1.any Event.isOutput = false) ↔
      no_of_nodes < 20) ∧
    ((generate_random_graph_run rand randNode no_of_nodes).1 =
      [Event.stdout
        ("Generating a random undirected graph with " ++ toString no_of_nodes ++ " nodes\n"),
       Event.stderr
        ("Error: Invalid node count argument from argv[3]: " ++ toString no_of_nodes ++
          "\n")] ↔ no_of_nodes < 20) ∧
    (((graphgenMainRun strtoul rand randNode (prog :: a :: rest)).1.any Event.isStorage = false ∧
      (graphgenMainRun strtoul rand randNode (prog :: a :: rest)).1.any Event.isOutput = false) ↔
      (toUInt64 (strtoul a) < 20 ∨ a.data.head? = some '-')) ∧
    ((graphgenMainRun strtoul rand randNode (prog :: a :: rest)).1 =
      [Event.stderr ("Error: Invalid argument: " ++ a ++ "\n")] ↔
      (toUInt64 (strtoul a) < 20 ∨ a.data.head? = some '-')) ∧
    graphgenMainRun strtoul rand randNode [prog] =
      ([Event.stderr "Error: enter a number of nodes.\n"], .error (.exit 1)) ∧
    graphgenMainRun strtoul rand randNode [] =
      ([Event.stderr "Error: enter a number of nodes.\n"], .error (.exit 1)) := by
  refine ⟨?_, ?_, ?_, ?_, rfl, rfl, generate_random_graph_run_result rand randNode no_of_nodes,
    graphgenMainRun_result strtoul rand randNode,
    generate_random_graph_run_quiet_iff rand randNode no_of_nodes,
    generate_random_graph_run_log_iff rand randNode no_of_nodes,
    graphgenMainRun_quiet_iff strtoul rand randNode prog a rest,
    graphgenMainRun_log_iff strtoul rand randNode prog a rest, rfl, rfl⟩
  · rw [generate_random_graph_exit_iff]
    constructor
    · intro h
      exact h.2
    · intro h
      exact ⟨rfl, h⟩
  · intro c h
    exact ((generate_random_graph_exit_iff rand randNode no_of_nodes c).1 h).1
  · rw [graphgenMain_exit_iff]
    constructor
    · intro h
      exact h.2
    · intro h
      exact ⟨rfl, h⟩
  · intro c h
    exact ((graphgenMain_exit_iff strtoul rand randNode prog a rest c).1 h).1

theorem C13_builder_rejects_small_node_count_witness :
    generate_random_graph (fun k => k) (fun k => (7 * k + 3) % 20) 19 = .error (.exit 1) ∧
    (generate_random_graph_run (fun k => k) (fun k => (7 * k + 3) % 20) 19).1.any
      Event.isStorage = false ∧
    (generate_random_graph_run (fun k => k) (fun k => (7 * k + 3) % 20) 19).1.any
      Event.isOutput = false ∧
    graphgenMain (fun _ => 5) (fun k => k) (fun k => (7 * k + 3) % 20) ["graphgen", "5"] =
      .error (.exit 1) ∧
    (graphgenMainRun (fun _ => 5) (fun k => k) (fun k => (7 * k + 3) % 20)
      ["graphgen", "5"]).1 = [Event.stderr ("Error: Invalid argument: " ++ "5" ++ "\n")] := by
  obtain ⟨h1, _, h3, _, _, _, _, _, h9, _, _, h12, _, _⟩ :=
    C13_builder_rejects_small_node_count (fun _ => 5) (fun k => k)
      (fun k => (7 * k + 3) % 20) 19 "graphgen" "5" []
  have h5 : toUInt64 ((fun _ => 5) "5") < 20 ∨ ("5" : String).data.head? = some '-' :=
    Or.inl (by decide)
  exact ⟨h1.2 (by decide), (h9.2 (by decide)).1, (h9.2 (by decide)).2, h3.2 h5, h12.2 h5⟩

end Rodinia
